import Mathlib

/-!
Verification development for the block-processing core.

Shallow embedding of `libraries/chain/instant_finality_core.cpp` (the finality
core), `libraries/libfc/include/fc/container/ordered_diff.hpp` (ordered diff)
and the fork-switching path of `libraries/chain/controller.cpp`.

Conventions of the embedding:

* `block_num_type` is `uint32_t`.  Block numbers are natural numbers and every
  arithmetic operation the source performs on them is written with an explicit
  reduction modulo `2^32` (`block_num_succ`, `block_num_sub`).
* `std::vector` is `List`; `front()`/`back()`/`operator[]` read a default
  element where the C++ access would be out of range, and the range copy
  `std::copy(v.cbegin() + i, v.cend(), ...)` is `List.drop i`.
* `assert(...)` lines of the source are not executed by the embedded
  functions: they are the properties the theorems below check.
-/

namespace finality

/-! ## Data model (`instant_finality_core.cpp`, lines 1-30) -/

/-- Number of values of `block_num_type` (`uint32_t`). -/
def block_num_modulus : Nat := 4294967296

/-- The expression `n + 1` on `block_num_type`. -/
def block_num_succ (n : Nat) : Nat := (n + 1) % 4294967296

/-- The expression `a - b` on `block_num_type` (unsigned, wraps around). -/
def block_num_sub (a b : Nat) : Nat := (a + 4294967296 - b) % 4294967296

/-- A block id: the block number it carries and the rest of the hash. -/
structure block_id_type where
  num : Nat
  hash : Nat
deriving DecidableEq, Repr

/-- Source `struct block_ref`. -/
structure block_ref where
  block_id : block_id_type
  timestamp : Nat
deriving DecidableEq, Repr

/-- Source `block_ref::block_num()`: "Extract from block_id". -/
def block_ref.block_num (b : block_ref) : Nat := b.block_id.num

/-- Source `struct qc_link`. -/
structure qc_link where
  source_block_num : Nat
  target_block_num : Nat
  is_link_strong : Bool
deriving DecidableEq, Repr

/-- Source `struct qc_claim`. -/
structure qc_claim where
  block_num : Nat
  is_strong_qc : Bool
deriving DecidableEq, Repr

instance : Inhabited qc_link := ⟨⟨0, 0, false⟩⟩

instance : Inhabited block_ref := ⟨⟨⟨0, 0⟩, 0⟩⟩

/-- Modelled from the spec: the comparison `<=` of two `qc_claim` values, used by
precondition 4 of `next` but not declared in the source.  The spec orders claims
as the pair `(block_num, is_strong)` with strong above weak at equal number. -/
def qc_claim.le (a b : qc_claim) : Prop :=
  a.block_num < b.block_num ∨
    (a.block_num = b.block_num ∧ (a.is_strong_qc = true → b.is_strong_qc = true))

instance (a b : qc_claim) : Decidable (qc_claim.le a b) := by
  unfold qc_claim.le; infer_instance

/-- Source `struct core`. -/
structure core where
  links : List qc_link
  refs : List block_ref
  final_on_strong_qc_block_num : Nat
deriving DecidableEq, Repr

/-- Source `core::create_core_for_genesis_block`.  The initialiser names the
third field of the link `is_strong_qc`; it is the field `is_link_strong`.  The
initialiser `.last_final_block_num = block_num` has no field to set: the value is
read back from `links.front().target_block_num`. -/
def core.create_core_for_genesis_block (block_num : Nat) : core :=
  { links := [⟨block_num, block_num, false⟩]
    refs := []
    final_on_strong_qc_block_num := block_num }

/-- Source `core::current_block_num`: `links.back().source_block_num`. -/
def core.current_block_num (c : core) : Nat :=
  (c.links.getLastD default).source_block_num

/-- Source `core::last_final_block_num`: `links.front().target_block_num`. -/
def core.last_final_block_num (c : core) : Nat :=
  (c.links.headD default).target_block_num

/-- Source `core::latest_qc_claim`. -/
def core.latest_qc_claim (c : core) : qc_claim :=
  { block_num := (c.links.getLastD default).target_block_num
    is_strong_qc := (c.links.getLastD default).is_link_strong }

/-- Source `core::get_block_reference`: `refs[block_num - last_final_block_num()]`. -/
def core.get_block_reference (c : core) (block_num : Nat) : block_ref :=
  c.refs.getD (block_num_sub block_num c.last_final_block_num) default

/-- Source `core::get_qc_link_from`:
`links[block_num - links.front().source_block_num]`. -/
def core.get_qc_link_from (c : core) (block_num : Nat) : qc_link :=
  c.links.getD (block_num_sub block_num (c.links.headD default).source_block_num) default

/-- The lambda `new_block_nums` inside `core::next` (lines 159-197); the result is
the pair `(new_last_final_block_num, new_final_on_strong_qc_block_num)`. -/
def core.new_block_nums (c : core) (most_recent_ancestor_with_qc : qc_claim) : Nat × Nat :=
  if most_recent_ancestor_with_qc.is_strong_qc = false then
    (c.last_final_block_num, c.final_on_strong_qc_block_num)
  else if most_recent_ancestor_with_qc.block_num < (c.links.headD default).source_block_num then
    (c.last_final_block_num, c.final_on_strong_qc_block_num)
  else
    let link1 := c.get_qc_link_from most_recent_ancestor_with_qc.block_num
    if link1.is_link_strong = false then
      (c.last_final_block_num, link1.target_block_num)
    else if link1.target_block_num < (c.links.headD default).source_block_num then
      (c.last_final_block_num, link1.target_block_num)
    else
      let link2 := c.get_qc_link_from link1.target_block_num
      (link2.target_block_num, link1.target_block_num)

/-- The index from which `core::next` keeps the links (lines 214-225):
`new_final_on_strong_qc_block_num - last_final_block_num` when the last final
block number goes up, `0` otherwise.  In the source the test reads
`last_final_block_num < next_core.last_final_block_num`; `next_core.links` is
still empty there, and the value meant is the one `next_core` is about to take,
`new_last_final_block_num` (line 210 and the assertion of line 232). -/
def core.next_links_index (c : core) (most_recent_ancestor_with_qc : qc_claim) : Nat :=
  if c.last_final_block_num < (c.new_block_nums most_recent_ancestor_with_qc).1 then
    block_num_sub (c.new_block_nums most_recent_ancestor_with_qc).2 c.last_final_block_num
  else 0

/-- The index from which `core::next` keeps the block references (line 253):
`next_core.last_final_block_num - last_final_block_num`.  At that line
`next_core.links` has been built (lines 227-244), and
`next_core.last_final_block_num` is `next_core.last_final_block_num()`, the
target of the first of these links. -/
def core.next_refs_index (c : core) (most_recent_ancestor_with_qc : qc_claim) : Nat :=
  block_num_sub
    ((c.links.drop (c.next_links_index most_recent_ancestor_with_qc) ++
      [({ source_block_num := block_num_succ c.current_block_num
          target_block_num := most_recent_ancestor_with_qc.block_num
          is_link_strong := most_recent_ancestor_with_qc.is_strong_qc } : qc_link)]).headD
      default).target_block_num
    c.last_final_block_num

/-- Source `core::next` (lines 146-300).  `next_core.tail` of line 272 is
`next_core.refs`. -/
def core.next (c : core) (current_block : block_ref)
    (most_recent_ancestor_with_qc : qc_claim) : core :=
  { final_on_strong_qc_block_num := (c.new_block_nums most_recent_ancestor_with_qc).2
    links := c.links.drop (c.next_links_index most_recent_ancestor_with_qc) ++
      [{ source_block_num := block_num_succ c.current_block_num
         target_block_num := most_recent_ancestor_with_qc.block_num
         is_link_strong := most_recent_ancestor_with_qc.is_strong_qc }]
    refs := c.refs.drop (c.next_refs_index most_recent_ancestor_with_qc) ++ [current_block] }

/-- The four preconditions of `core::next` (lines 136-139 and the assertions of
lines 148-155). -/
def core.next_pre (c : core) (current_block : block_ref)
    (most_recent_ancestor_with_qc : qc_claim) : Prop :=
  current_block.block_num = c.current_block_num ∧
  (c.refs = [] ∨
    ((c.refs.getLastD default).timestamp < current_block.timestamp ∧
      block_num_succ (c.refs.getLastD default).block_num = current_block.block_num)) ∧
  (c.latest_qc_claim.block_num ≤ most_recent_ancestor_with_qc.block_num ∧
    most_recent_ancestor_with_qc.block_num ≤ c.current_block_num) ∧
  qc_claim.le c.latest_qc_claim most_recent_ancestor_with_qc

instance (c : core) (b : block_ref) (q : qc_claim) : Decidable (c.next_pre b q) := by
  unfold core.next_pre; infer_instance

/-! ## The nine invariants (lines 32-46) -/

/-- Invariant 1: `links.empty() == false`. -/
def core.inv1 (c : core) : Prop := c.links ≠ []

/-- Invariant 2:
`last_final_block_num() <= final_on_strong_qc_block_num <= latest_qc_claim().block_num`. -/
def core.inv2 (c : core) : Prop :=
  c.last_final_block_num ≤ c.final_on_strong_qc_block_num ∧
    c.final_on_strong_qc_block_num ≤ c.latest_qc_claim.block_num

/-- Invariant 3: if `refs` is empty there is one link and its target, its source,
`final_on_strong_qc_block_num` and `last_final_block_num()` are all equal. -/
def core.inv3 (c : core) : Prop :=
  c.refs = [] →
    c.links.length = 1 ∧
    (c.links.getLastD default).target_block_num = (c.links.getLastD default).source_block_num ∧
    (c.links.getLastD default).source_block_num = c.final_on_strong_qc_block_num ∧
    c.final_on_strong_qc_block_num = c.last_final_block_num

/-- Invariant 4: if `refs` is not empty,
`refs.front().block_num() == links.front().target_block_num == last_final_block_num()`. -/
def core.inv4 (c : core) : Prop :=
  c.refs ≠ [] →
    (c.refs.headD default).block_num = (c.links.headD default).target_block_num ∧
    (c.links.headD default).target_block_num = c.last_final_block_num

/-- Invariant 5: if `refs` is not empty,
`refs.back().block_num() + 1 == links.back().source_block_num == current_block_num()`. -/
def core.inv5 (c : core) : Prop :=
  c.refs ≠ [] →
    block_num_succ (c.refs.getLastD default).block_num =
        (c.links.getLastD default).source_block_num ∧
    (c.links.getLastD default).source_block_num = c.current_block_num

/-- The relation `R` holds between every two neighbouring elements of the list:
"for i = 0 to size - 2: R (l[i], l[i+1])". -/
def neighbours {α : Type} (R : α → α → Prop) : List α → Prop
  | [] => True
  | [_] => True
  | a :: b :: t => R a b ∧ neighbours R (b :: t)

instance decidableNeighbours {α : Type} (R : α → α → Prop) [DecidableRel R] :
    (l : List α) → Decidable (neighbours R l)
  | [] => isTrue trivial
  | [_] => isTrue trivial
  | a :: b :: t =>
    have : Decidable (neighbours R (b :: t)) := decidableNeighbours R (b :: t)
    inferInstanceAs (Decidable (R a b ∧ neighbours R (b :: t)))

/-- Invariant 6: neighbouring `refs` have consecutive block numbers and strictly
increasing timestamps. -/
def core.inv6 (c : core) : Prop :=
  neighbours (fun a b : block_ref =>
    block_num_succ a.block_num = b.block_num ∧ a.timestamp < b.timestamp) c.refs

/-- Invariant 7: neighbouring `links` have consecutive sources and non-decreasing
targets. -/
def core.inv7 (c : core) : Prop :=
  neighbours (fun a b : qc_link =>
    block_num_succ a.source_block_num = b.source_block_num ∧
      a.target_block_num ≤ b.target_block_num) c.links

/-- Invariant 8: `current_block_num() - last_final_block_num() == refs.size()`. -/
def core.inv8 (c : core) : Prop :=
  block_num_sub c.current_block_num c.last_final_block_num = c.refs.length

/-- Invariant 9:
`current_block_num() - links.front().source_block_num == links.size() - 1`. -/
def core.inv9 (c : core) : Prop :=
  block_num_sub c.current_block_num (c.links.headD default).source_block_num =
    c.links.length - 1

instance (c : core) : Decidable c.inv2 := by
  unfold core.inv2; infer_instance

/-- All nine invariants of `core`. -/
def core.invariants (c : core) : Prop :=
  c.inv1 ∧ c.inv2 ∧ c.inv3 ∧ c.inv4 ∧ c.inv5 ∧ c.inv6 ∧ c.inv7 ∧ c.inv8 ∧ c.inv9

instance (c : core) : Decidable c.invariants := by
  unfold core.invariants core.inv1 core.inv2 core.inv3 core.inv4 core.inv5 core.inv6
    core.inv7 core.inv8 core.inv9
  infer_instance

/-! ## Concrete runs of `next` -/

/-- The block reference with block number `n` and timestamp `n`. -/
def block_at (n : Nat) : block_ref := ⟨⟨n, 0⟩, n⟩

/-- Successive `next` calls: the call on core `c` passes the block reference
numbered `c.current_block_num()` and the next claim of the list. -/
def next_chain (c : core) : List qc_claim → core
  | [] => c
  | q :: qs => next_chain (c.next (block_at c.current_block_num) q) qs

/-- Every call made by `next_chain` meets the preconditions of `next`. -/
def next_chain_pre (c : core) : List qc_claim → Prop
  | [] => True
  | q :: qs =>
    c.next_pre (block_at c.current_block_num) q ∧
      next_chain_pre (c.next (block_at c.current_block_num) q) qs

instance decidableNextChainPre : (c : core) → (qs : List qc_claim) →
    Decidable (next_chain_pre c qs)
  | _, [] => isTrue trivial
  | c, q :: qs =>
    have : Decidable (next_chain_pre (c.next (block_at c.current_block_num) q) qs) :=
      decidableNextChainPre _ qs
    inferInstanceAs (Decidable (c.next_pre (block_at c.current_block_num) q ∧
      next_chain_pre (c.next (block_at c.current_block_num) q) qs))

/-- The chain of claim C4: `k` successive `next` calls from the genesis core of
block `n`, every call carrying a strong QC claim on the current block. -/
def strong_chain (n : Nat) : Nat → core
  | 0 => core.create_core_for_genesis_block n
  | k + 1 =>
    (strong_chain n k).next (block_at (strong_chain n k).current_block_num)
      ⟨(strong_chain n k).current_block_num, true⟩

/-- Every call of `strong_chain n k` meets the preconditions of `next`. -/
def strong_chain_pre (n : Nat) : Nat → Prop
  | 0 => True
  | k + 1 =>
    strong_chain_pre n k ∧
      (strong_chain n k).next_pre (block_at (strong_chain n k).current_block_num)
        ⟨(strong_chain n k).current_block_num, true⟩

instance decidableStrongChainPre (n : Nat) : (k : Nat) → Decidable (strong_chain_pre n k)
  | 0 => isTrue trivial
  | k + 1 =>
    have : Decidable (strong_chain_pre n k) := decidableStrongChainPre n k
    inferInstanceAs (Decidable (strong_chain_pre n k ∧
      (strong_chain n k).next_pre (block_at (strong_chain n k).current_block_num)
        ⟨(strong_chain n k).current_block_num, true⟩))

/-! ## Reachable cores -/

/-- Cores reachable from `create_core_for_genesis_block(n)`, `n` a `block_num_type`
value, by `next` calls whose arguments meet the preconditions of `next`. -/
inductive core.reachable : core → Prop
  | genesis (n : Nat) (hn : n < 4294967296) :
      core.reachable (core.create_core_for_genesis_block n)
  | next (c : core) (b : block_ref) (q : qc_claim) (hc : core.reachable c)
      (hpre : c.next_pre b q) : core.reachable (c.next b q)

/-- Successive `next` calls on the blocks of the list, every call repeating the
latest QC claim of the core it is made on (the new block brings no newer QC). -/
def next_repeat (c : core) : List block_ref → core
  | [] => c
  | b :: bs => next_repeat (c.next b c.latest_qc_claim) bs

/-- Every call made by `next_repeat` meets the preconditions of `next`. -/
def next_repeat_pre (c : core) : List block_ref → Prop
  | [] => True
  | b :: bs => c.next_pre b c.latest_qc_claim ∧ next_repeat_pre (c.next b c.latest_qc_claim) bs

instance decidableNextRepeatPre : (c : core) → (bs : List block_ref) →
    Decidable (next_repeat_pre c bs)
  | _, [] => isTrue trivial
  | c, b :: bs =>
    have : Decidable (next_repeat_pre (c.next b c.latest_qc_claim) bs) :=
      decidableNextRepeatPre _ bs
    inferInstanceAs (Decidable (c.next_pre b c.latest_qc_claim ∧
      next_repeat_pre (c.next b c.latest_qc_claim) bs))

/-- Shape of the links of a core reached without wrap-around of the block number:
sources count up by one from the first link, targets never decrease and never
exceed their source, and recomputing `new_block_nums` for the latest claim gives
back the two finality numbers of the core. -/
structure core.good (c : core) : Prop where
  ne : c.links ≠ []
  src : ∀ (i : Nat) (l : qc_link), c.links[i]? = some l →
    l.source_block_num = (c.links.headD default).source_block_num + i
  mono : ∀ (i j : Nat) (a b : qc_link), i ≤ j → c.links[i]? = some a → c.links[j]? = some b →
    a.target_block_num ≤ b.target_block_num
  tgt : ∀ l ∈ c.links, l.target_block_num ≤ l.source_block_num
  bound : c.current_block_num < 4294967296
  fsq : c.final_on_strong_qc_block_num ≤ c.latest_qc_claim.block_num
  zero : c.last_final_block_num = 0 → (c.links.headD default).source_block_num = 0
  fix : c.new_block_nums c.latest_qc_claim =
    (c.last_final_block_num, c.final_on_strong_qc_block_num)

/-- Shape of a core after the block number has wrapped around with every claim
still on block 0: at least `2^32` links, the first `2^32` of them with target 0. -/
structure core.wrapped (c : core) : Prop where
  len : 4294967296 ≤ c.links.length
  tgt : ∀ (i : Nat) (l : qc_link), i < 4294967296 → c.links[i]? = some l → l.target_block_num = 0
  src : (c.links.headD default).source_block_num = 0
  fsq : c.final_on_strong_qc_block_num = 0

/-- A core on which no `next` call can meet precondition 3. -/
def core.dead (c : core) : Prop := c.current_block_num < c.latest_qc_claim.block_num

end finality

namespace ordered_diff

/-! ## Ordered diff (`fc/container/ordered_diff.hpp`)

The constant `MAX_NUM_ARRAY_ELEMENTS` is declared outside the sources at hand
and `std::numeric_limits<SizeType>::max()` depends on the template argument
`SizeType`; both are parameters (`max_num_array_elements`, `size_type_max`) of
the embedded functions.  An `FC_ASSERT` that fails throws: the functions return
`none`. -/

/-- Source `ordered_diff::diff_result`. -/
structure diff_result (T : Type) where
  remove_indexes : List Nat
  insert_indexes : List (Nat × T)
deriving DecidableEq, Repr

/-- The `while` loop of `ordered_diff::diff` (lines 43-91) from the state
`(s, t, result)`.  The first argument bounds the number of iterations still
allowed; `diff` passes `source.size() + target.size()`, and every iteration
advances `s` or `t`.  The four cases of the `match` are the three branches on
`s < source.size()`, `t < target.size()` and the exit of the loop. -/
def diff_loop {T : Type} [DecidableEq T] (max_num_array_elements size_type_max : Nat)
    (source target : List T) : Nat → Nat → Nat → diff_result T → Option (diff_result T)
  | 0, s, t, result =>
    if s < source.length ∨ t < target.length then none else some result
  | fuel + 1, s, t, result =>
    match source[s]?, target[t]? with
    | none, none => some result
    | some a, some b =>
      if ¬ (s < size_type_max ∧ t < size_type_max) then none
      else if a = b then
        diff_loop max_num_array_elements size_type_max source target fuel (s + 1) (t + 1) result
      else if s = source.length - 1 ∧ t = target.length - 1 then
        if result.remove_indexes.length < max_num_array_elements ∧
            result.insert_indexes.length < max_num_array_elements then
          diff_loop max_num_array_elements size_type_max source target fuel (s + 1) (t + 1)
            ⟨result.remove_indexes ++ [s], result.insert_indexes ++ [(t, b)]⟩
        else none
      else if source[s + 1]?.isSome ∧ target[t + 1]?.isSome ∧ source[s + 1]? = target[t + 1]? then
        if result.remove_indexes.length < max_num_array_elements ∧
            result.insert_indexes.length < max_num_array_elements then
          diff_loop max_num_array_elements size_type_max source target fuel (s + 1) (t + 1)
            ⟨result.remove_indexes ++ [s], result.insert_indexes ++ [(t, b)]⟩
        else none
      else if target[t + 1]? = some a then
        if result.insert_indexes.length < max_num_array_elements then
          diff_loop max_num_array_elements size_type_max source target fuel s (t + 1)
            ⟨result.remove_indexes, result.insert_indexes ++ [(t, b)]⟩
        else none
      else
        if result.remove_indexes.length < max_num_array_elements then
          diff_loop max_num_array_elements size_type_max source target fuel (s + 1) t
            ⟨result.remove_indexes ++ [s], result.insert_indexes⟩
        else none
    | some _, none =>
      if ¬ (s < size_type_max ∧ t < size_type_max) then none
      else if result.remove_indexes.length < max_num_array_elements then
        diff_loop max_num_array_elements size_type_max source target fuel (s + 1) t
          ⟨result.remove_indexes ++ [s], result.insert_indexes⟩
      else none
    | none, some b =>
      if ¬ (s < size_type_max ∧ t < size_type_max) then none
      else if result.insert_indexes.length < max_num_array_elements then
        diff_loop max_num_array_elements size_type_max source target fuel s (t + 1)
          ⟨result.remove_indexes, result.insert_indexes ++ [(t, b)]⟩
      else none

/-- Source `ordered_diff::diff` (lines 38-94). -/
def diff {T : Type} [DecidableEq T] (max_num_array_elements size_type_max : Nat)
    (source target : List T) : Option (diff_result T) :=
  diff_loop max_num_array_elements size_type_max source target
    (source.length + target.length) 0 0 ⟨[], []⟩

/-- The first loop of `apply_diff` (lines 106-112).  `removed` is the number of
elements erased so far, the negation of the source's `offset`; the check
`index + offset < container.size()` fails when `index + offset` is negative. -/
def remove_loop {T : Type} (container : List T) (removed : Nat) : List Nat → Option (List T)
  | [] => some container
  | index :: rest =>
    if removed ≤ index ∧ index - removed < container.length then
      remove_loop (container.eraseIdx (index - removed)) (removed + 1) rest
    else none

/-- The second loop of `apply_diff` (lines 115-120). -/
def insert_loop {T : Type} (max_num_array_elements : Nat) (container : List T) :
    List (Nat × T) → Option (List T)
  | [] => some container
  | (index, value) :: rest =>
    if index ≤ container.length ∧ container.length < max_num_array_elements then
      insert_loop max_num_array_elements (container.insertIdx index value) rest
    else none

/-- Source `ordered_diff::apply_diff` (lines 101-122). -/
def apply_diff {T : Type} (max_num_array_elements : Nat) (container : List T)
    (d : diff_result T) : Option (List T) :=
  if d.remove_indexes.length ≤ max_num_array_elements ∧
      d.insert_indexes.length ≤ max_num_array_elements then
    (remove_loop container 0 d.remove_indexes).bind
      (fun c => insert_loop max_num_array_elements c d.insert_indexes)
  else none

/-- The round trip `apply_diff(source, diff(source, target))`. -/
def round_trip {T : Type} [DecidableEq T] (max_num_array_elements size_type_max : Nat)
    (source target : List T) : Option (List T) :=
  (diff max_num_array_elements size_type_max source target).bind
    (apply_diff max_num_array_elements source)

/-- What the part of a diff produced from the state `(s, t)` does: erasing the
indexes `removes` from a container that ends in `source[s..]` leaves `kept` in
its place, and inserting `inserts` into a container that ends in `kept` turns
that end into `target[t..]`. -/
def diff_spec {T : Type} (max_num_array_elements : Nat) (source target : List T) (s t : Nat)
    (removes : List Nat) (inserts : List (Nat × T)) (kept : List T) : Prop :=
  (∀ (p : List T) (k : Nat), p.length + k = s →
    remove_loop (p ++ source.drop s) k removes = some (p ++ kept)) ∧
  (∀ q : List T, q.length = t →
    insert_loop max_num_array_elements (q ++ kept) inserts = some (q ++ target.drop t)) ∧
  kept.length + removes.length = source.length - s ∧
  kept.length + inserts.length = target.length - t

end ordered_diff

namespace chain

/-! ## Fork switching (`controller.cpp`, `pop_block` and `maybe_switch_forks`)

The controller state kept here is the head and the fork database; chainbase
(`db.undo()`), the protocol feature manager, logging and the
`forked_branch_cb` callback are left out.  A function returns the state it
leaves behind together with the exception it throws, if any. -/

/-- The part of `block_state_legacy` that fork switching reads: `id`,
`header.previous`, `block_num`, and whether the pointer `block` is set. -/
structure block_state_legacy where
  id : Nat
  previous : Nat
  block_num : Nat
  has_block : Bool
deriving DecidableEq, Repr

/-- Modelled from the spec: the fork database (`fork_database` is not among the
sources): the root and the set of block states other than the root, each
linked to its parent by `previous`. -/
structure fork_database where
  root : block_state_legacy
  index : List block_state_legacy
deriving DecidableEq, Repr

/-- Modelled from the spec: `fork_database::get_block(id)`, the lookup by id
among the blocks other than the root. -/
def fork_database.get_block (f : fork_database) (id : Nat) : Option block_state_legacy :=
  f.index.find? (fun b => b.id = id)

/-- Modelled from the spec: the blocks from the block `id` back towards the root
(the root excluded), following `previous`; at most `fuel` blocks. -/
def fork_database.branch_of (f : fork_database) : Nat → Nat → List block_state_legacy
  | 0, _ => []
  | fuel + 1, id =>
    match f.get_block id with
    | none => []
    | some b => b :: fork_database.branch_of f fuel b.previous

/-- Modelled from the spec: `fork_database::fetch_branch_from(first, second)`, "two
lists representing the symmetric difference from the common ancestor": the
blocks from `first` back to the root that are not on the branch of `second`, and
the blocks from `second` back to the root that are not on the branch of `first`,
each list starting at its tip. -/
def fork_database.fetch_branch_from (f : fork_database) (first second : Nat) :
    List block_state_legacy × List block_state_legacy :=
  ((f.branch_of f.index.length first).filter
      (fun x => !((f.branch_of f.index.length second).map (fun y => y.id)).contains x.id),
    (f.branch_of f.index.length second).filter
      (fun x => !((f.branch_of f.index.length first).map (fun y => y.id)).contains x.id))

/-- Modelled from the spec: `fork_database::remove(id)`, "prune the subtree rooted at
id": a block stays when the block `id` is not on its branch. -/
def fork_database.remove (f : fork_database) (id : Nat) : fork_database :=
  { root := f.root
    index := f.index.filter
      (fun b => !((f.branch_of f.index.length b.id).map (fun y => y.id)).contains id) }

/-- The controller state that fork switching reads and writes. -/
structure controller_state where
  head : block_state_legacy
  fork_db : fork_database
deriving DecidableEq, Repr

/-- The exceptions that leave `maybe_switch_forks`.  `apply_exception b` is the
`fc::exception` or `std::exception` that `apply_block` threw on block `b`;
`back_of_empty` stands for `branches.second.back()` on an empty vector. -/
inductive thrown where
  | bad_alloc
  | apply_exception (b : block_state_legacy)
  | block_validate_exception
  | fork_database_exception
  | log_irreversible_exception
  | back_of_empty
deriving DecidableEq, Repr

/-- What a call of `apply_block` does, as far as fork switching can see: it
returns after `commit_block` has set the head; it throws before the head is set;
it throws after `commit_block` has set the head; or it throws an allocation
failure. -/
inductive apply_result where
  | applied
  | failed
  | failed_after_head_set
  | bad_alloc
deriving DecidableEq, Repr

/-- Source `controller_impl::apply_block` (lines 2514-2642) seen from its caller.  The execution of the
block is the parameter `run`; with status `validated` or `complete`
`commit_block` sets `head = bsp` and does not call `log_irreversible`, and on an
exception `abort_block` leaves the head as it is. -/
def apply_block (run : controller_state → block_state_legacy → apply_result)
    (st : controller_state) (bsp : block_state_legacy) : controller_state × Option thrown :=
  match run st bsp with
  | apply_result.applied => ({ st with head := bsp }, none)
  | apply_result.failed => (st, some (thrown.apply_exception bsp))
  | apply_result.failed_after_head_set =>
    ({ st with head := bsp }, some (thrown.apply_exception bsp))
  | apply_result.bad_alloc => (st, some thrown.bad_alloc)

/-- Source `controller_impl::pop_block` (lines 688-703). -/
def pop_block (st : controller_state) : controller_state × Option thrown :=
  match st.fork_db.get_block st.head.previous with
  | some prev =>
    if st.head.has_block then ({ st with head := prev }, none)
    else (st, some thrown.block_validate_exception)
  | none =>
    if st.fork_db.root.id = st.head.previous then
      if st.head.has_block then ({ st with head := st.fork_db.root }, none)
      else (st, some thrown.block_validate_exception)
    else (st, some thrown.block_validate_exception)

/-- A loop that calls `pop_block` the given number of times. -/
def pop_blocks : Nat → controller_state → controller_state × Option thrown
  | 0, st => (st, none)
  | k + 1, st =>
    match pop_block st with
    | (st1, none) => pop_blocks k st1
    | (st1, some e) => (st1, some e)

/-- The loop "re-apply good blocks" (lines 2867-2870): `apply_block` on every
block of the list, an exception leaving the loop. -/
def apply_blocks (run : controller_state → block_state_legacy → apply_result) :
    controller_state → List block_state_legacy → controller_state × Option thrown
  | st, [] => (st, none)
  | st, b :: rest =>
    match apply_block run st b with
    | (st1, none) => apply_blocks run st1 rest
    | (st1, some e) => (st1, some e)

/-- The body of `if( except )` (lines 2850-2872) for the block `bad` that threw
`e`, after `applied` blocks of the new branch had been applied. -/
def revert_switch (run : controller_state → block_state_legacy → apply_result)
    (second : List block_state_legacy) (st : controller_state) (bad : block_state_legacy)
    (applied : Nat) (e : thrown) : controller_state × Option thrown :=
  match pop_blocks applied { st with fork_db := st.fork_db.remove bad.id } with
  | (st1, some e1) => (st1, some e1)
  | (st1, none) =>
    match second.getLast? with
    | none => (st1, some thrown.back_of_empty)
    | some last =>
      if st1.head.id = last.previous then
        match apply_blocks run st1 second.reverse with
        | (st2, some e2) => (st2, some e2)
        | (st2, none) => (st2, some e)
      else (st1, some thrown.fork_database_exception)

/-- The loop over the new branch (lines 2832-2874), from the state in which
`applied` blocks of it have been applied and `rest` remain, lowest first. -/
def switch_apply (run : controller_state → block_state_legacy → apply_result)
    (second : List block_state_legacy) :
    controller_state → Nat → List block_state_legacy → controller_state × Option thrown
  | st, _, [] => (st, none)
  | st, applied, b :: rest =>
    match apply_block run st b with
    | (st1, none) => switch_apply run second st1 (applied + 1) rest
    | (st1, some thrown.bad_alloc) => (st1, some thrown.bad_alloc)
    | (st1, some e) => revert_switch run second st1 b applied e

/-- The block `if( branches.second.size() > 0 )` (lines 2822-2830). -/
def pop_old_branch (second : List block_state_legacy) (st : controller_state) :
    controller_state × Option thrown :=
  match second.getLast? with
  | none => (st, none)
  | some last =>
    match pop_blocks second.length st with
    | (st1, some e) => (st1, some e)
    | (st1, none) =>
      if st1.head.id = last.previous then (st1, none)
      else (st1, some thrown.fork_database_exception)

/-- Source `controller_impl::maybe_switch_forks` (lines 2799-2881).
`log_irreversible` is a parameter: the state it leaves and whether it threw. -/
def maybe_switch_forks (run : controller_state → block_state_legacy → apply_result)
    (log_irreversible : controller_state → controller_state × Bool)
    (st : controller_state) (new_head : block_state_legacy) :
    controller_state × Option thrown :=
  let finish := fun (s : controller_state) =>
    ((log_irreversible s).1,
      if (log_irreversible s).2 then some thrown.log_irreversible_exception else none)
  if new_head.previous = st.head.id then
    match apply_block run st new_head with
    | (st1, none) => finish st1
    | (st1, some e) => ({ st1 with fork_db := st1.fork_db.remove new_head.id }, some e)
  else if new_head.id ≠ st.head.id then
    match pop_old_branch (st.fork_db.fetch_branch_from new_head.id st.head.id).2 st with
    | (st1, some e) => (st1, some e)
    | (st1, none) =>
      match switch_apply run (st.fork_db.fetch_branch_from new_head.id st.head.id).2 st1 0
          (st.fork_db.fetch_branch_from new_head.id st.head.id).1.reverse with
      | (st2, some e) => (st2, some e)
      | (st2, none) => finish st2
  else (st, none)

/-! ### A fork database with two branches

Root 1; old branch 2, 3 (the head); new branch 12, 13, 14. -/

/-- The example fork database. -/
def example_fork_db : fork_database :=
  { root := ⟨1, 0, 1, true⟩
    index := [⟨2, 1, 2, true⟩, ⟨3, 2, 3, true⟩, ⟨12, 1, 2, true⟩, ⟨13, 12, 3, true⟩,
      ⟨14, 13, 4, true⟩] }

/-- The example controller state: the head is block 3. -/
def example_state : controller_state :=
  { head := ⟨3, 2, 3, true⟩, fork_db := example_fork_db }

/-- In the example `apply_block` throws on block 13 and succeeds on every other
block. -/
def example_run : controller_state → block_state_legacy → apply_result :=
  fun _ b => if b.id = 13 then apply_result.failed else apply_result.applied

end chain

namespace chain

/-! ## Building block and block restore point (`controller.cpp`, lines 322-366, 1919-1935) -/

/-- Source `transaction_receipt` as far as `push_receipt` fills it: the
transaction (or its id), the status, the billed CPU and the net usage words. -/
structure transaction_receipt where
  trx : Nat
  status : Nat
  cpu_usage_us : Nat
  net_usage_words : Nat
deriving DecidableEq, Repr

instance : Inhabited transaction_receipt := ⟨⟨0, 0, 0, 0⟩⟩

/-- Source `building_block_common::checksum_or_digests`, the variant
`std::variant<checksum256_type, digests_t>`. -/
inductive checksum_or_digests where
  | checksum (mroot : Nat)
  | digests (list : List Nat)
deriving DecidableEq, Repr

/-- Source `building_block::building_block_common`; transaction metadata pointers
and digests are numbers. -/
structure building_block_common where
  new_protocol_feature_activations : List Nat
  num_new_protocol_features_that_have_activated : Nat
  pending_trx_metas : List Nat
  pending_trx_receipts : List transaction_receipt
  trx_mroot_or_receipt_digests : checksum_or_digests
  action_receipt_digests : List Nat
deriving DecidableEq, Repr

/-- The member function `resize(n)` of `std::deque` and `std::vector`: the first `n`
elements, filled up with value-initialised elements when there are fewer. -/
def resize {α : Type} [Inhabited α] (l : List α) (n : Nat) : List α :=
  l.take n ++ List.replicate (n - l.length) default

/-- The four sizes captured by the lambda that `make_block_restore_point` returns. -/
structure block_restore_point where
  orig_trx_receipts_size : Nat
  orig_trx_metas_size : Nat
  orig_trx_receipt_digests_size : Nat
  orig_action_receipt_digests_size : Nat
deriving DecidableEq, Repr

/-- Source `building_block_common::make_block_restore_point` (lines 348-353): the
sizes at the time of the call. -/
def building_block_common.make_block_restore_point (bb : building_block_common) :
    block_restore_point :=
  { orig_trx_receipts_size := bb.pending_trx_receipts.length
    orig_trx_metas_size := bb.pending_trx_metas.length
    orig_trx_receipt_digests_size :=
      match bb.trx_mroot_or_receipt_digests with
      | checksum_or_digests.digests list => list.length
      | checksum_or_digests.checksum _ => 0
    orig_action_receipt_digests_size := bb.action_receipt_digests.length }

/-- The body of the lambda returned by `make_block_restore_point` (lines 359-364),
run on the building block as it is when the restore point is invoked. -/
def block_restore_point.restore (rp : block_restore_point) (bb : building_block_common) :
    building_block_common :=
  { new_protocol_feature_activations := bb.new_protocol_feature_activations
    num_new_protocol_features_that_have_activated :=
      bb.num_new_protocol_features_that_have_activated
    pending_trx_receipts := resize bb.pending_trx_receipts rp.orig_trx_receipts_size
    pending_trx_metas := resize bb.pending_trx_metas rp.orig_trx_metas_size
    trx_mroot_or_receipt_digests :=
      match bb.trx_mroot_or_receipt_digests with
      | checksum_or_digests.digests list =>
        checksum_or_digests.digests (resize list rp.orig_trx_receipt_digests_size)
      | checksum_or_digests.checksum mroot => checksum_or_digests.checksum mroot
    action_receipt_digests :=
      resize bb.action_receipt_digests rp.orig_action_receipt_digests_size }

/-- Source `controller_impl::push_receipt` (lines 1919-1935) on the building block of
the pending state: `none` when `net_usage` is not divisible by 8
(`transaction_exception`).  `receipt_digest` is `transaction_receipt::digest`. -/
def push_receipt (receipt_digest : transaction_receipt → Nat) (bb : building_block_common)
    (trx status cpu_usage_us net_usage : Nat) : Option building_block_common :=
  if (net_usage / 8) * 8 = net_usage then
    some
      { new_protocol_feature_activations := bb.new_protocol_feature_activations
        num_new_protocol_features_that_have_activated :=
          bb.num_new_protocol_features_that_have_activated
        pending_trx_metas := bb.pending_trx_metas
        pending_trx_receipts :=
          bb.pending_trx_receipts ++ [⟨trx, status, cpu_usage_us, net_usage / 8⟩]
        trx_mroot_or_receipt_digests :=
          match bb.trx_mroot_or_receipt_digests with
          | checksum_or_digests.digests list =>
            checksum_or_digests.digests
              (list ++ [receipt_digest ⟨trx, status, cpu_usage_us, net_usage / 8⟩])
          | checksum_or_digests.checksum mroot => checksum_or_digests.checksum mroot
        action_receipt_digests := bb.action_receipt_digests }
  else none

/-! ## Exceptions and signals (`controller.cpp`, `emit`, lines 796-816) -/

/-- The exceptions met in the functions below, told apart as far as a `catch` clause
or a caller tells them apart.  `fc_exception` is any other exception derived from
`fc::exception`, `std_exception` any other one derived from `std::exception`, and
`other` one that is derived from neither. -/
inductive exception_type where
  | std_bad_alloc
  | interprocess_bad_alloc
  | controller_emit_signal_exception
  | block_validate_exception
  | fork_database_exception
  | transaction_exception
  | misc_exception
  | protocol_feature_exception
  | protocol_feature_bad_block_exception
  | subjective_block_production_exception
  | fc_exception (code : Nat)
  | bad_variant_access
  | std_exception (what : Nat)
  | other (tag : Nat)
deriving DecidableEq, Repr

/-- Source `controller_impl::emit` (lines 796-816).  The argument is what the call
of the signal `s(a)` throws, if anything; the result is what leaves `emit`.  The
first three `catch` clauses rethrow, the last three log and return. -/
def emit (signal : Option exception_type) : Option exception_type :=
  match signal with
  | none => none
  | some exception_type.std_bad_alloc => some exception_type.std_bad_alloc
  | some exception_type.interprocess_bad_alloc => some exception_type.interprocess_bad_alloc
  | some exception_type.controller_emit_signal_exception =>
    some exception_type.controller_emit_signal_exception
  | some _ => none

/-! ## Block stages and the pending state (`controller.cpp`, lines 118-607) -/

/-- Source `controller::block_status`, with the enumerators this file uses. -/
inductive block_status where
  | irreversible
  | validated
  | complete
  | incomplete
  | ephemeral
deriving DecidableEq, Repr

/-- Source `building_block_common::is_protocol_feature_activated` (lines 339-346). -/
def building_block_common.is_protocol_feature_activated (bb : building_block_common)
    (digest : Nat) (activated_features : List Nat) : Bool :=
  if digest ∈ activated_features then true
  else if bb.num_new_protocol_features_that_have_activated = 0 then false
  else decide (digest ∈ bb.new_protocol_feature_activations.take
    bb.num_new_protocol_features_that_have_activated)

/-- The part of `pending_block_header_state_legacy` that is read here: the block
number, `prev_activated_protocol_features->protocol_features` and the producer
names of `active_schedule.producers`. -/
structure pending_block_header_state_legacy where
  block_num : Nat
  prev_activated_protocol_features : List Nat
  active_schedule : List Nat
deriving DecidableEq, Repr

/-- Source `building_block::building_block_dpos` (lines 369-388); the base class is
the field `common`. -/
structure building_block_dpos where
  common : building_block_common
  pending_block_header_state : pending_block_header_state_legacy
  new_pending_producer_schedule : Option Nat
deriving DecidableEq, Repr

/-- Source `building_block::building_block_if` (lines 391-427); the base class is the
field `common`, and of the constant members the ones read here are kept. -/
structure building_block_if where
  common : building_block_common
  parent_id : Nat
  timestamp : Nat
  prev_activated_protocol_features : List Nat
  block_num : Nat
deriving DecidableEq, Repr

/-- Source `building_block` (line 429): the variant
`std::variant<building_block_dpos, building_block_if>`. -/
inductive building_block where
  | of_dpos (bb : building_block_dpos)
  | of_if (bb : building_block_if)
deriving DecidableEq, Repr

/-- Source `building_block::is_dpos` (line 437). -/
def building_block.is_dpos : building_block → Bool
  | building_block.of_dpos _ => true
  | building_block.of_if _ => false

/-- The base class object of whichever alternative the variant holds. -/
def building_block.common : building_block → building_block_common
  | building_block.of_dpos bb => bb.common
  | building_block.of_if bb => bb.common

/-- Source `building_block::extract_trx_metas` (lines 476-478). -/
def building_block.extract_trx_metas (bb : building_block) : List Nat :=
  bb.common.pending_trx_metas

/-- Source `building_block::is_protocol_feature_activated` (lines 480-482) with the
two overrides of lines 382-385 and 421-423. -/
def building_block.is_protocol_feature_activated (b : building_block) (digest : Nat) : Bool :=
  match b with
  | building_block.of_dpos bb =>
    bb.common.is_protocol_feature_activated digest
      bb.pending_block_header_state.prev_activated_protocol_features
  | building_block.of_if bb =>
    bb.common.is_protocol_feature_activated digest bb.prev_activated_protocol_features

/-- The block that `finalize_block` builds: the header fields that
`make_block_header` is given, and the transactions. -/
structure signed_block where
  block_num : Nat
  transaction_mroot : Nat
  action_mroot : Nat
  new_producers : Option Nat
  new_protocol_feature_activations : List Nat
  transactions : List transaction_receipt
deriving DecidableEq, Repr

/-- Source `assembled_block::assembled_block_dpos` (lines 195-204). -/
structure assembled_block_dpos where
  id : Nat
  pending_block_header_state : pending_block_header_state_legacy
  trx_metas : List Nat
  unsigned_block : signed_block
  new_producer_authority_cache : Option Nat
deriving DecidableEq, Repr

/-- Source `assembled_block::assembled_block_if` (lines 207-215), with the two
sequences it carries over from the building block. -/
structure assembled_block_if where
  trx_metas : List Nat
  trx_receipts : List transaction_receipt
deriving DecidableEq, Repr

/-- Source `assembled_block` (line 217): the variant
`std::variant<assembled_block_dpos, assembled_block_if>`. -/
inductive assembled_block where
  | of_dpos (ab : assembled_block_dpos)
  | of_if (ab : assembled_block_if)
deriving DecidableEq, Repr

/-- Source `assembled_block::extract_trx_metas` (lines 235-237). -/
def assembled_block.extract_trx_metas : assembled_block → List Nat
  | assembled_block.of_dpos ab => ab.trx_metas
  | assembled_block.of_if ab => ab.trx_metas

/-- The part of the instant-finality `block_state` that a completed block reads. -/
structure block_state where
  block_num : Nat
  cached_trxs : List Nat
  activated_protocol_features : List Nat
deriving DecidableEq, Repr

/-- Source `completed_block` (lines 118-193): the variant
`std::variant<block_state_legacy_ptr, block_state_ptr> bsp`.  For the legacy
block state the cached transaction metas and the activated protocol features
stand beside the fields that fork switching reads. -/
inductive completed_block where
  | of_legacy (bsp : block_state_legacy) (cached_trxs : List Nat)
      (activated_protocol_features : List Nat)
  | of_if (bsp : block_state)
deriving DecidableEq, Repr

/-- Source `completed_block::extract_trx_metas` (lines 124-128). -/
def completed_block.extract_trx_metas : completed_block → List Nat
  | completed_block.of_legacy _ cached_trxs _ => cached_trxs
  | completed_block.of_if bsp => bsp.cached_trxs

/-- Source `completed_block::is_protocol_feature_activated` (lines 179-182). -/
def completed_block.is_protocol_feature_activated (cb : completed_block) (digest : Nat) :
    Bool :=
  match cb with
  | completed_block.of_legacy _ _ activated => decide (digest ∈ activated)
  | completed_block.of_if bsp => decide (digest ∈ bsp.activated_protocol_features)

/-- Source `block_stage_type` (line 566): the variant
`std::variant<building_block, assembled_block, completed_block>`. -/
inductive block_stage_type where
  | building (bb : building_block)
  | assembled (ab : assembled_block)
  | completed (cb : completed_block)
deriving DecidableEq, Repr

/-- Source `pending_state` (lines 568-607): the stage and the status; the database
session is left out. -/
structure pending_state where
  _block_stage : block_stage_type
  _block_status : block_status
deriving DecidableEq, Repr

/-- Source `pending_state::extract_trx_metas` (lines 584-586). -/
def pending_state.extract_trx_metas (p : pending_state) : List Nat :=
  match p._block_stage with
  | block_stage_type.building bb => bb.extract_trx_metas
  | block_stage_type.assembled ab => ab.extract_trx_metas
  | block_stage_type.completed cb => cb.extract_trx_metas

/-- Source `pending_state::is_protocol_feature_activated` (lines 588-590); in the
assembled stage the call throws `misc_exception` (lines 239-246). -/
def pending_state.is_protocol_feature_activated (p : pending_state) (digest : Nat) :
    Except exception_type Bool :=
  match p._block_stage with
  | block_stage_type.building bb => Except.ok (bb.is_protocol_feature_activated digest)
  | block_stage_type.assembled _ => Except.error exception_type.misc_exception
  | block_stage_type.completed cb => Except.ok (cb.is_protocol_feature_activated digest)

/-- The part of `controller_impl` that the block pipeline below reads and writes:
the optional pending state, the head and the fork database. -/
structure controller_impl where
  pending : Option pending_state
  head : block_state_legacy
  fork_db : fork_database
deriving DecidableEq, Repr

/-! ## Committing and aborting the pending block (`controller.cpp`, lines 2381-2424, 2883-2891)

What the fork database, the signal handlers, the deep-mind logger,
`log_irreversible`, the pacemaker and the database session do is given by the
fields of `commit_env`: each may throw.  The protocol feature manager
(`popped_blocks_to`) is not part of the state. -/

/-- The environment of `commit_block`: for each call whose code is elsewhere, the
state it leaves and the exception it throws, if any. -/
structure commit_env where
  fork_db_add : fork_database → block_state_legacy → fork_database × Option exception_type
  fork_db_mark_valid : fork_database → block_state_legacy →
    fork_database × Option exception_type
  fork_db_head : fork_database → block_state_legacy
  accepted_block_header : block_state_legacy → Option exception_type
  on_accepted_block : block_state_legacy → Option exception_type
  accepted_block : block_state_legacy → Option exception_type
  log_irreversible : fork_database → fork_database × Option exception_type
  beat : Option exception_type
  push : Option exception_type

/-- Source `controller_impl::abort_block` (lines 2883-2891): the state it leaves
and the transaction metas it returns. -/
def abort_block (c : controller_impl) : controller_impl × List Nat :=
  match c.pending with
  | some p => ({ pending := none, head := c.head, fork_db := c.fork_db }, p.extract_trx_metas)
  | none => (c, [])

/-- The first `if` of the `try` block of `commit_block` (lines 2394-2401). -/
def commit_block_fork_db (env : commit_env) (s : block_status) (c : controller_impl)
    (bsp : block_state_legacy) : controller_impl × Option exception_type :=
  if s = block_status.incomplete then
    match env.fork_db_add c.fork_db bsp with
    | (f1, some e) => ({ pending := c.pending, head := c.head, fork_db := f1 }, some e)
    | (f1, none) =>
      match env.fork_db_mark_valid f1 bsp with
      | (f2, some e) => ({ pending := c.pending, head := c.head, fork_db := f2 }, some e)
      | (f2, none) =>
        match emit (env.accepted_block_header bsp) with
        | some e => ({ pending := c.pending, head := c.head, fork_db := f2 }, some e)
        | none =>
          if bsp = env.fork_db_head f2 then
            ({ pending := c.pending, head := c.head, fork_db := f2 }, none)
          else
            ({ pending := c.pending, head := c.head, fork_db := f2 },
              some exception_type.fork_database_exception)
  else if s ≠ block_status.irreversible then
    match env.fork_db_mark_valid c.fork_db bsp with
    | (f1, e) => ({ pending := c.pending, head := c.head, fork_db := f1 }, e)
  else (c, none)

/-- The last `if` of the `try` block of `commit_block` (lines 2411-2414). -/
def commit_block_log_irreversible (env : commit_env) (s : block_status)
    (c : controller_impl) : controller_impl × Option exception_type :=
  if s = block_status.incomplete then
    match env.log_irreversible c.fork_db with
    | (f1, some e) => ({ pending := c.pending, head := c.head, fork_db := f1 }, some e)
    | (f1, none) => ({ pending := c.pending, head := c.head, fork_db := f1 }, env.beat)
  else (c, none)

/-- The `try` block of `commit_block` (lines 2386-2415) for the pending state `p`:
the state when control leaves the block and the exception that leaves it, if
any. -/
def commit_block_try (env : commit_env) (s : block_status) (c : controller_impl)
    (p : pending_state) : controller_impl × Option exception_type :=
  match p._block_stage with
  | block_stage_type.completed (completed_block.of_legacy bsp _ _) =>
    match commit_block_fork_db env s c bsp with
    | (c1, some e) => (c1, some e)
    | (c1, none) =>
      match env.on_accepted_block bsp with
      | some e => ({ pending := c1.pending, head := bsp, fork_db := c1.fork_db }, some e)
      | none =>
        match emit (env.accepted_block bsp) with
        | some e => ({ pending := c1.pending, head := bsp, fork_db := c1.fork_db }, some e)
        | none =>
          commit_block_log_irreversible env s
            { pending := c1.pending, head := bsp, fork_db := c1.fork_db }
  | block_stage_type.completed (completed_block.of_if _) =>
    (c, some exception_type.bad_variant_access)
  | _ => (c, some exception_type.block_validate_exception)

/-- Source `controller_impl::commit_block` (lines 2381-2424): the state it leaves and
the exception it throws, if any.  After an exception in the `try` block the
handler calls `abort_block` and rethrows; otherwise `pending->push()` runs and
the scoped exit resets `pending`, also when `push` throws.  Without a pending
state the function dereferences an empty optional, which is not modelled: the
state is returned as it is. -/
def commit_block (env : commit_env) (s : block_status) (c : controller_impl) :
    controller_impl × Option exception_type :=
  match c.pending with
  | none => (c, none)
  | some p =>
    match commit_block_try env s c p with
    | (c1, some e) => ((abort_block c1).1, some e)
    | (c1, none) => ({ pending := none, head := c1.head, fork_db := c1.fork_db }, env.push)

/-! ## Finalizing the pending block (`controller.cpp`, lines 2278-2376) -/

/-- The environment of `finalize_block`: the merkle functions (`calculate_merkle`
when instant finality is active, `canonical_merkle` otherwise), the block id
function, and what the resource limit updates and the making of the block
(`make_block_header`, `calculate_id`, `create_block_summary`) throw, if
anything. -/
structure finalize_env where
  calculate_merkle : List Nat → Nat
  canonical_merkle : List Nat → Nat
  calculate_id : signed_block → Nat
  resource_limits : Option exception_type
  make_block : Option exception_type

/-- The building block after `finalize_block` has moved the action receipt digests
and, when the variant holds them, the transaction receipt digests into the
merkle tasks (lines 2289, 2300): a moved-from container is empty. -/
def building_block_common.moved_digests (bb : building_block_common) :
    building_block_common :=
  { new_protocol_feature_activations := bb.new_protocol_feature_activations
    num_new_protocol_features_that_have_activated :=
      bb.num_new_protocol_features_that_have_activated
    pending_trx_metas := bb.pending_trx_metas
    pending_trx_receipts := bb.pending_trx_receipts
    trx_mroot_or_receipt_digests :=
      match bb.trx_mroot_or_receipt_digests with
      | checksum_or_digests.digests _ => checksum_or_digests.digests []
      | checksum_or_digests.checksum mroot => checksum_or_digests.checksum mroot
    action_receipt_digests := [] }

/-- The merkle root of the tasks of lines 2288-2307. -/
def calc_merkle (env : finalize_env) (if_active : Bool) (digests : List Nat) : Nat :=
  if if_active then env.calculate_merkle digests else env.canonical_merkle digests

/-- The lambda given to `bb.apply_dpos<void>` in `finalize_block` (lines 2334-2372):
the assembled block it stores in `pending->_block_stage`. -/
def finalize_block_dpos (env : finalize_env) (bb : building_block_dpos) : assembled_block_dpos :=
  { id := env.calculate_id
      { block_num := bb.pending_block_header_state.block_num
        transaction_mroot :=
          match bb.common.trx_mroot_or_receipt_digests with
          | checksum_or_digests.digests list => calc_merkle env false list
          | checksum_or_digests.checksum mroot => mroot
        action_mroot := calc_merkle env false bb.common.action_receipt_digests
        new_producers := bb.new_pending_producer_schedule
        new_protocol_feature_activations := bb.common.new_protocol_feature_activations
        transactions := bb.common.pending_trx_receipts }
    pending_block_header_state := bb.pending_block_header_state
    trx_metas := bb.common.pending_trx_metas
    unsigned_block :=
      { block_num := bb.pending_block_header_state.block_num
        transaction_mroot :=
          match bb.common.trx_mroot_or_receipt_digests with
          | checksum_or_digests.digests list => calc_merkle env false list
          | checksum_or_digests.checksum mroot => mroot
        action_mroot := calc_merkle env false bb.common.action_receipt_digests
        new_producers := bb.new_pending_producer_schedule
        new_protocol_feature_activations := bb.common.new_protocol_feature_activations
        transactions := bb.common.pending_trx_receipts }
    new_producer_authority_cache := bb.new_pending_producer_schedule }

/-- Source `controller_impl::finalize_block` (lines 2278-2376): the state it leaves
and the exception it throws, if any.  The block is made, and the stage set to
assembled, only inside `bb.apply_dpos<void>(...)`, which does nothing for
`building_block_if`. -/
def finalize_block (env : finalize_env) (c : controller_impl) :
    controller_impl × Option exception_type :=
  match c.pending with
  | none => (c, some exception_type.block_validate_exception)
  | some p =>
    match p._block_stage with
    | block_stage_type.building (building_block.of_dpos bb) =>
      match env.resource_limits with
      | some e =>
        ({ pending := some
            { _block_stage := block_stage_type.building (building_block.of_dpos
                { common := bb.common.moved_digests
                  pending_block_header_state := bb.pending_block_header_state
                  new_pending_producer_schedule := bb.new_pending_producer_schedule })
              _block_status := p._block_status }
           head := c.head
           fork_db := c.fork_db }, some e)
      | none =>
        match env.make_block with
        | some e =>
          ({ pending := some
              { _block_stage := block_stage_type.building (building_block.of_dpos
                  { common := bb.common.moved_digests
                    pending_block_header_state := bb.pending_block_header_state
                    new_pending_producer_schedule := bb.new_pending_producer_schedule })
                _block_status := p._block_status }
             head := c.head
             fork_db := c.fork_db }, some e)
        | none =>
          ({ pending := some
              { _block_stage := block_stage_type.assembled
                  (assembled_block.of_dpos (finalize_block_dpos env bb))
                _block_status := p._block_status }
             head := c.head
             fork_db := c.fork_db }, none)
    | block_stage_type.building (building_block.of_if bb) =>
      ({ pending := some
          { _block_stage := block_stage_type.building (building_block.of_if
              { common := bb.common.moved_digests
                parent_id := bb.parent_id
                timestamp := bb.timestamp
                prev_activated_protocol_features := bb.prev_activated_protocol_features
                block_num := bb.block_num })
            _block_status := p._block_status }
         head := c.head
         fork_db := c.fork_db }, env.resource_limits)
    | _ => (c, some exception_type.block_validate_exception)

/-! ## Making blocks irreversible (`controller.cpp`, `log_irreversible`, lines 829-896) -/

/-- The block log as `log_irreversible` sees it: the id of its head, if it has one,
its first block number, and the blocks appended to it. -/
structure block_log where
  head_id : Option Nat
  first_block_num : Nat
  appended : List block_state_legacy
deriving DecidableEq, Repr

/-- The environment of `log_irreversible`: `block_header::num_from_id`, the fork
database functions `fetch_branch` and `advance_root`, the fork database head
with its `dpos_irreversible_blocknum`, the member `hs_irreversible_block_num`,
whether the read mode is `IRREVERSIBLE`, and what `apply_block`, the handlers of
the signal `irreversible_block`, `blog.append` and `db.commit` throw, if
anything. -/
structure log_irreversible_env where
  num_from_id : Nat → Nat
  fetch_branch : fork_database → Nat → Nat → List block_state_legacy
  advance_root : fork_database → Nat → fork_database
  fork_head : block_state_legacy
  dpos_irreversible_blocknum : Nat
  hs_irreversible_block_num : Nat
  read_mode_irreversible : Bool
  apply_block : block_state_legacy → Option exception_type
  irreversible_block : block_state_legacy → Option exception_type
  blog_append : block_state_legacy → Option exception_type
  db_commit : Nat → Option exception_type

/-- The local `lib_num` of `log_irreversible` (line 835), a `uint32_t`. -/
def log_irreversible_lib_num (env : log_irreversible_env) (blog : block_log) : Nat :=
  match blog.head_id with
  | some id => env.num_from_id id
  | none => (blog.first_block_num + 4294967296 - 1) % 4294967296

/-- The local `new_lib` of `log_irreversible` (lines 848-849). -/
def log_irreversible_new_lib (env : log_irreversible_env) : Nat :=
  if env.hs_irreversible_block_num > 0 then env.hs_irreversible_block_num
  else env.dpos_irreversible_blocknum

/-- The condition of the two `EOS_ASSERT`s of lines 839-845: the fork database root
is the block log head or, with an empty block log, has the number `lib_num`. -/
def log_irreversible_root_ok (env : log_irreversible_env) (f : fork_database)
    (blog : block_log) : Bool :=
  match blog.head_id with
  | some id => decide (f.root.id = id)
  | none => decide (f.root.block_num = log_irreversible_lib_num env blog)

/-- Whether `catch( std::exception& )` catches the exception. -/
def exception_type.is_std_exception : exception_type → Bool
  | exception_type.other _ => false
  | _ => true

/-- The second `for` loop of `log_irreversible` (lines 863-877) over the blocks from
the oldest on: the block log and `root_id` when control leaves the loop, and the
exception that leaves it, if any. -/
def log_irreversible_loop (env : log_irreversible_env) :
    List block_state_legacy → block_log → Nat → block_log × Nat × Option exception_type
  | [], blog, root_id => (blog, root_id, none)
  | b :: rest, blog, root_id =>
    match (if env.read_mode_irreversible then env.apply_block b else none) with
    | some e => (blog, root_id, some e)
    | none =>
      match emit (env.irreversible_block b) with
      | some e => (blog, root_id, some e)
      | none =>
        match env.blog_append b with
        | some e => (blog, root_id, some e)
        | none =>
          match env.db_commit b.block_num with
          | some e =>
            ({ head_id := some b.id, first_block_num := blog.first_block_num,
               appended := blog.appended ++ [b] }, root_id, some e)
          | none =>
            log_irreversible_loop env rest
              { head_id := some b.id, first_block_num := blog.first_block_num,
                appended := blog.appended ++ [b] } b.id

/-- Source `controller_impl::log_irreversible` (lines 829-896): the fork database and
the block log it leaves, and the exception it throws, if any. -/
def log_irreversible (env : log_irreversible_env) (f : fork_database) (blog : block_log) :
    fork_database × block_log × Option exception_type :=
  if ¬ log_irreversible_root_ok env f blog then
    (f, blog, some exception_type.fork_database_exception)
  else if log_irreversible_new_lib env ≤ log_irreversible_lib_num env blog then
    (f, blog, none)
  else
    match log_irreversible_loop env
      (env.fetch_branch f env.fork_head.id (log_irreversible_new_lib env)).reverse
      blog f.root.id with
    | (blog1, root_id, some e) =>
      if e.is_std_exception ∧ root_id ≠ f.root.id then
        (env.advance_root f root_id, blog1, some e)
      else (f, blog1, some e)
    | (blog1, root_id, none) =>
      if root_id ≠ f.root.id then (env.advance_root f root_id, blog1, none)
      else (f, blog1, none)

/-- The blocks of the branch of `h` whose block number is at most
`trim_after_block_num`, the tip first: the function that the examples give as
`fetch_branch`. -/
def example_fetch_branch (f : fork_database) (h trim_after_block_num : Nat) :
    List block_state_legacy :=
  (f.branch_of f.index.length h).filter (fun b => b.block_num ≤ trim_after_block_num)

/-- An example environment: the fork database head is block 14 (number 4) with
`dpos_irreversible_blocknum` 4, `hs_irreversible_block_num` is 2, and nothing
throws. -/
def example_log_irreversible_env : log_irreversible_env :=
  { num_from_id := fun id => id % 10
    fetch_branch := example_fetch_branch
    advance_root := fun f id =>
      match f.get_block id with
      | some b => { root := b, index := f.index }
      | none => f
    fork_head := ⟨14, 13, 4, true⟩
    dpos_irreversible_blocknum := 4
    hs_irreversible_block_num := 2
    read_mode_irreversible := false
    apply_block := fun _ => none
    irreversible_block := fun _ => none
    blog_append := fun _ => none
    db_commit := fun _ => none }

/-- The example environment with `hs_irreversible_block_num` 1, the number of the
root of the example fork database. -/
def example_settled_log_irreversible_env : log_irreversible_env :=
  { num_from_id := fun id => id % 10
    fetch_branch := example_fetch_branch
    advance_root := fun f id =>
      match f.get_block id with
      | some b => { root := b, index := f.index }
      | none => f
    fork_head := ⟨14, 13, 4, true⟩
    dpos_irreversible_blocknum := 4
    hs_irreversible_block_num := 1
    read_mode_irreversible := false
    apply_block := fun _ => none
    irreversible_block := fun _ => none
    blog_append := fun _ => none
    db_commit := fun _ => none }

/-! ## Producer authority thresholds (`controller.cpp`, `update_producers_authority`,
lines 2910-2949) -/

/-- The type `authority`: the threshold, the keys, the accounts with their weights
(the permission of each account is `config::active_name`) and the waits. -/
structure authority where
  threshold : Nat
  keys : List Nat
  accounts : List (Nat × Nat)
  waits : List Nat
deriving DecidableEq, Repr

/-- The `auth` of the three permissions of `config::producers_account_name` that
`update_producers_authority` reads and writes. -/
structure producers_permissions where
  active : authority
  majority_producers : authority
  minority_producers : authority
deriving DecidableEq, Repr

/-- The lambda `calculate_threshold` (lines 2931-2933); `num_producers`, the two
arguments and the result are `uint32_t`. -/
def calculate_threshold (num_producers numerator denominator : Nat) : Nat :=
  ((num_producers * numerator) % 4294967296 / denominator + 1) % 4294967296

/-- The lambda `update_permission` (lines 2917-2929): the `auth` of the permission
afterwards. -/
def update_permission (producers : List Nat) (permission : authority) (threshold : Nat) :
    authority :=
  if permission ≠ ⟨threshold, [], producers.map (fun p => (p, 1)), []⟩ then
    ⟨threshold, [], producers.map (fun p => (p, 1)), []⟩
  else permission

/-- Source `controller_impl::update_producers_authority` (lines 2910-2949): the three
permissions afterwards and the exception thrown, if any (`std::get` on a stage
that is not building).  Without a pending state the function dereferences an
empty optional, which is not modelled. -/
def update_producers_authority (c : controller_impl) (perms : producers_permissions) :
    producers_permissions × Option exception_type :=
  match c.pending with
  | none => (perms, none)
  | some p =>
    match p._block_stage with
    | block_stage_type.building (building_block.of_dpos dpos_header) =>
      ({ active := update_permission dpos_header.pending_block_header_state.active_schedule
           perms.active
           (calculate_threshold
             (dpos_header.pending_block_header_state.active_schedule.length % 4294967296) 2 3)
         majority_producers :=
           update_permission dpos_header.pending_block_header_state.active_schedule
             perms.majority_producers
             (calculate_threshold
               (dpos_header.pending_block_header_state.active_schedule.length % 4294967296) 1 2)
         minority_producers :=
           update_permission dpos_header.pending_block_header_state.active_schedule
             perms.minority_producers
             (calculate_threshold
               (dpos_header.pending_block_header_state.active_schedule.length % 4294967296) 1 3) },
        none)
    | block_stage_type.building (building_block.of_if _) => (perms, none)
    | _ => (perms, some exception_type.bad_variant_access)

/-- The spec's `⌈a / b⌉` for natural numbers. -/
def ceil_div (a b : Nat) : Nat := (a + b - 1) / b

/-! ## Pre-activation of protocol features (`controller.cpp`, lines 3274-3380) -/

/-- Source `protocol_feature_set::recognized_t`. -/
inductive recognized_t where
  | unrecognized
  | disabled
  | too_early
  | ready
deriving DecidableEq, Repr

/-- The environment of `preactivate_feature`: what `pfs.is_recognized` returns for a
digest at the pending block time, `pfs.validate_dependencies`, and the protocol
features activated in the head block. -/
structure preactivate_env where
  is_recognized : Nat → recognized_t
  validate_dependencies : Nat → (Nat → Bool) → Bool
  head_activated_protocol_features : List Nat

/-- Source `controller::is_speculative_block` (lines 3919-3923). -/
def is_speculative_block (c : controller_impl) : Bool :=
  match c.pending with
  | none => false
  | some p =>
    p._block_status = block_status.incomplete || p._block_status = block_status.ephemeral

/-- Source `controller::is_protocol_feature_activated` (lines 3971-3977). -/
def is_protocol_feature_activated (env : preactivate_env) (c : controller_impl)
    (feature_digest : Nat) : Except exception_type Bool :=
  match c.pending with
  | some p => p.is_protocol_feature_activated feature_digest
  | none => Except.ok (decide (feature_digest ∈ env.head_activated_protocol_features))

/-- The lambda `dependency_checker` of `preactivate_feature` (lines 3352-3359). -/
def dependency_checker (env : preactivate_env) (c : controller_impl) (preactivated : List Nat)
    (d : Nat) : Bool :=
  match is_protocol_feature_activated env c d with
  | Except.ok true => true
  | _ => decide (d ∈ preactivated)

/-- Source `controller::preactivate_feature` (lines 3274-3380): the list
`preactivated_protocol_features` of the protocol state object afterwards, and
the exception thrown, if any. -/
def preactivate_feature (env : preactivate_env) (c : controller_impl)
    (preactivated : List Nat) (feature_digest : Nat) : List Nat × Option exception_type :=
  match c.pending with
  | none => (preactivated, some exception_type.block_validate_exception)
  | some _ =>
    match env.is_recognized feature_digest with
    | recognized_t.ready =>
      match is_protocol_feature_activated env c feature_digest with
      | Except.error e => (preactivated, some e)
      | Except.ok true => (preactivated, some exception_type.protocol_feature_exception)
      | Except.ok false =>
        if feature_digest ∈ preactivated then
          (preactivated, some exception_type.protocol_feature_exception)
        else if env.validate_dependencies feature_digest
            (dependency_checker env c preactivated) then
          (preactivated ++ [feature_digest], none)
        else (preactivated, some exception_type.protocol_feature_exception)
    | _ =>
      if is_speculative_block c then
        (preactivated, some exception_type.subjective_block_production_exception)
      else (preactivated, some exception_type.protocol_feature_bad_block_exception)

/-! ## Example states for the block pipeline -/

/-- An empty building block. -/
def example_building_block_common : building_block_common :=
  ⟨[], 0, [], [], checksum_or_digests.digests [], []⟩

/-- A controller whose pending block is a DPoS building block with the four active
producers 1, 2, 3 and 4. -/
def example_dpos_controller : controller_impl :=
  { pending := some
      { _block_stage := block_stage_type.building (building_block.of_dpos
          ⟨example_building_block_common, ⟨4, [], [1, 2, 3, 4]⟩, none⟩)
        _block_status := block_status.incomplete }
    head := ⟨3, 2, 3, true⟩
    fork_db := example_fork_db }

/-- A controller whose pending block is an instant-finality building block. -/
def example_if_controller : controller_impl :=
  { pending := some
      { _block_stage := block_stage_type.building (building_block.of_if
          ⟨⟨[], 0, [7], [⟨1, 0, 10, 2⟩], checksum_or_digests.digests [2], [5]⟩, 3, 100, [], 4⟩)
        _block_status := block_status.incomplete }
    head := ⟨3, 2, 3, true⟩
    fork_db := example_fork_db }

/-- A controller whose pending block is in the assembled stage. -/
def example_assembled_controller : controller_impl :=
  { pending := some
      { _block_stage := block_stage_type.assembled (assembled_block.of_if ⟨[], []⟩)
        _block_status := block_status.incomplete }
    head := ⟨3, 2, 3, true⟩
    fork_db := example_fork_db }

/-- An example environment of `preactivate_feature`: every digest is ready and has
its dependencies met. -/
def example_preactivate_env : preactivate_env :=
  { is_recognized := fun _ => recognized_t.ready
    validate_dependencies := fun _ _ => true
    head_activated_protocol_features := [] }

/-- An example environment of `finalize_block` in which nothing throws. -/
def example_finalize_env : finalize_env :=
  { calculate_merkle := fun l => l.sum
    canonical_merkle := fun l => l.sum + 1
    calculate_id := fun b => b.block_num
    resource_limits := none
    make_block := none }

/-- The three permissions before the example call: thresholds 1 and no accounts. -/
def example_permissions : producers_permissions :=
  ⟨⟨1, [], [], []⟩, ⟨1, [], [], []⟩, ⟨1, [], [], []⟩⟩

end chain

namespace chain

/-! ## Light validation (`controller.cpp`, lines 3806-3831) -/

/-- Source `validation_mode`. -/
inductive validation_mode where
  | FULL
  | LIGHT
deriving DecidableEq, Repr

/-- The members and configuration values that `light_validation_allowed` reads
beside the pending state: `in_trx_requiring_checks`, `conf.force_all_checks`,
`conf.block_validation_mode` and `trusted_producer_light_validation`. -/
structure validation_flags where
  in_trx_requiring_checks : Bool
  force_all_checks : Bool
  block_validation_mode : validation_mode
  trusted_producer_light_validation : Bool
deriving DecidableEq, Repr

/-- Source `controller::light_validation_allowed` (lines 3806-3823). -/
def light_validation_allowed (c : controller_impl) (flags : validation_flags) : Bool :=
  match c.pending with
  | none => false
  | some p =>
    if flags.in_trx_requiring_checks then false
    else
      ((p._block_status = block_status.irreversible ∨ p._block_status = block_status.validated) ∧
          flags.force_all_checks = false) ||
        (p._block_status = block_status.complete ∧
          (flags.block_validation_mode = validation_mode.LIGHT ∨
            flags.trusted_producer_light_validation = true))

/-- Source `controller::skip_auth_check` (lines 3826-3828). -/
def skip_auth_check (c : controller_impl) (flags : validation_flags) : Bool :=
  light_validation_allowed c flags

/-- Source `controller::skip_trx_checks` (lines 3830-3832). -/
def skip_trx_checks (c : controller_impl) (flags : validation_flags) : Bool :=
  light_validation_allowed c flags

end chain

namespace webassembly

/-! ## Length check of `bls_g1_exp` (`crypto.cpp`, lines 311-333) -/

/-- What a call of `bls_g1_exp` does: it returns `return_code::success` or
`return_code::failure`, or it reads bytes outside one of its spans. -/
inductive outcome where
  | success
  | failure
  | out_of_bounds
deriving DecidableEq, Repr

/-- Reading `len` bytes at `data() + offset` of a span: the bytes, when the range
lies inside the span. -/
def read_span (span : List Nat) (offset len : Nat) : Option (List Nat) :=
  if offset + len ≤ span.length then some ((span.drop offset).take len) else none

/-- The `for` loop of `bls_g1_exp` (lines 319-329) with `remaining` iterations to go
from index `i` on; `i*144` and `i*32` are `uint32_t` products.
`from_jacobian_bytes` tells whether `g1::fromJacobianBytesLE` returns a point for
the 144 bytes. -/
def bls_g1_exp_loop (from_jacobian_bytes : List Nat → Bool) (points scalars : List Nat) :
    Nat → Nat → outcome
  | 0, _ => outcome.success
  | remaining + 1, i =>
    match read_span points ((i * 144) % 4294967296) 144 with
    | none => outcome.out_of_bounds
    | some p =>
      if from_jacobian_bytes p = false then outcome.failure
      else
        match read_span scalars ((i * 32) % 4294967296) 32 with
        | none => outcome.out_of_bounds
        | some _ => bls_g1_exp_loop from_jacobian_bytes points scalars remaining (i + 1)

/-- The length check of `bls_g1_exp` (line 313): `n*144` and `n*32` are products of
the `uint32_t` value `n`, computed modulo `2^32`. -/
def bls_g1_exp_length_check (points_size scalars_size n result_size : Nat) : Bool :=
  !(points_size != (n * 144) % 4294967296 || scalars_size != (n * 32) % 4294967296 ||
    result_size != 144)

/-- Source `interface::bls_g1_exp` (lines 311-333), as far as its return code and
its reads of the two input spans go. -/
def bls_g1_exp (from_jacobian_bytes : List Nat → Bool) (points scalars : List Nat) (n : Nat)
    (result_size : Nat) : outcome :=
  if bls_g1_exp_length_check points.length scalars.length n result_size = false then
    outcome.failure
  else bls_g1_exp_loop from_jacobian_bytes points scalars n 0

end webassembly

namespace chain

/-! ## Finalizer policy change (`finalizer_update_tests.cpp`, lines 153-231) -/

/-- The type `finalizer_policy`: the generation and the finalizer keys. -/
structure finalizer_policy where
  generation : Nat
  finalizers : List Nat
deriving DecidableEq, Repr

/-- Modelled from the spec: a finalizer policy on its way to becoming active
(`block_header_state`, which keeps these, is not among the sources): its
finalizer keys, the number of the block in which it was proposed, and, once it is
pending, the number of the block in which it became pending. -/
structure policy_in_flight where
  finalizers : List Nat
  proposed_block : Nat
  pending_block : Option Nat
deriving DecidableEq, Repr

/-- Modelled from the spec: the finalizer policies a block carries in its header
state: the active policy and the policies proposed in this block or an earlier
one that are not active yet, oldest first. -/
structure policy_state where
  block_num : Nat
  active_finalizer_policy : finalizer_policy
  in_flight : List policy_in_flight
deriving DecidableEq, Repr

/-- Modelled from the spec: finality "under normal progress", where a block "is made
final by its third-descendant QC chain": block `b` is final as of block `k` when
`k` is its third descendant or a later one. -/
def final_as_of (b k : Nat) : Bool := decide (b + 3 ≤ k)

/-- Modelled from the spec: whether the policy becomes active in block `k`: it
"becomes active when the pending block itself is made final". -/
def policy_in_flight.becomes_active (p : policy_in_flight) (k : Nat) : Bool :=
  match p.pending_block with
  | some pending_block => final_as_of pending_block k
  | none => false

/-- Modelled from the spec: whether the policy becomes pending in block `k`: "a new
proposed policy proposed in block B becomes pending when B is made final". -/
def policy_in_flight.becomes_pending (p : policy_in_flight) (k : Nat) : Bool :=
  match p.pending_block with
  | some _ => false
  | none => final_as_of p.proposed_block k

/-- Modelled from the spec: the policy as block `k` carries it, when it does not
become active in that block. -/
def policy_in_flight.next (p : policy_in_flight) (k : Nat) : policy_in_flight :=
  if p.becomes_pending k then ⟨p.finalizers, p.proposed_block, some k⟩ else p

/-- Modelled from the spec: the active policy after the policy `p` has had its turn
in block `k`: a policy that becomes active takes the next generation. -/
def policy_in_flight.activate (k : Nat) (active : finalizer_policy) (p : policy_in_flight) :
    finalizer_policy :=
  if p.becomes_active k then ⟨active.generation + 1, p.finalizers⟩ else active

/-- Modelled from the spec: the policies of the next block, which may propose a new
policy (a block carries at most one proposed finalizer policy).  Every policy in
flight moves on its own: "a new proposed policy proposed in block B becomes
pending when B is made final ..., and becomes active when the pending block
itself is made final". -/
def policy_state.next (s : policy_state) (new_finalizer_policy : Option (List Nat)) :
    policy_state :=
  { block_num := s.block_num + 1
    active_finalizer_policy :=
      s.in_flight.foldl (policy_in_flight.activate (s.block_num + 1)) s.active_finalizer_policy
    in_flight :=
      ((s.in_flight.filter (fun p => !p.becomes_active (s.block_num + 1))).map
        (fun p => p.next (s.block_num + 1))) ++
      (match new_finalizer_policy with
       | some finalizers => [⟨finalizers, s.block_num + 1, none⟩]
       | none => []) }

/-- Modelled from the spec: the blocks that follow, one for each element of the
list, which says what policy the block proposes, if any. -/
def policy_state.produce_blocks (s : policy_state) : List (Option (List Nat)) → policy_state
  | [] => s
  | new_finalizer_policy :: rest => (s.next new_finalizer_policy).produce_blocks rest

/-- Modelled from the spec: the policies of a block with no policy in flight. -/
def policy_state.start (block_num : Nat) (active : finalizer_policy) : policy_state :=
  ⟨block_num, active, []⟩

/-- The policy is where its two block numbers say in the state of block `n`:
proposed in `n` or earlier; if not pending, its block of proposal is not final
yet; if pending, it became pending in the third block after its proposal and that
block is not final yet. -/
def policy_in_flight.wf (n : Nat) (p : policy_in_flight) : Prop :=
  p.proposed_block ≤ n ∧
  (p.pending_block = none → n < p.proposed_block + 3) ∧
  (∀ pending_block, p.pending_block = some pending_block →
    pending_block = p.proposed_block + 3 ∧ n < pending_block + 3)

/-- The policies in flight were proposed in different blocks and are listed oldest
first, each one where its block numbers say. -/
def policy_state.wf (s : policy_state) : Prop :=
  s.in_flight.Pairwise (fun a b => a.proposed_block < b.proposed_block) ∧
  ∀ p ∈ s.in_flight, p.wf s.block_num

end chain

namespace finality

/-! ## Cores reached in a given number of calls -/

/-- Cores reached from `create_core_for_genesis_block(n)` by `k` calls of `next`
whose arguments meet the preconditions of `next`. -/
inductive core.reachable_in (n : Nat) : Nat → core → Prop
  | genesis : core.reachable_in n 0 (core.create_core_for_genesis_block n)
  | next (k : Nat) (c : core) (b : block_ref) (q : qc_claim) (hc : core.reachable_in n k c)
      (hpre : c.next_pre b q) : core.reachable_in n (k + 1) (c.next b q)

end finality

namespace ordered_diff

/-! ## Shape of a diff result -/

/-- What holds of the result built so far when the loop of `diff` is at `(s, t)`:
the removed indexes increase strictly and are below `s`, the inserted indexes
increase strictly and are below `t`, every inserted pair carries the element of
the target at its index, and the lengths of the two lists differ as `s` and `t`
do. -/
def diff_invariant {T : Type} (target : List T) (s t : Nat) (result : diff_result T) : Prop :=
  result.remove_indexes.Pairwise (fun a b => a < b) ∧
  (∀ x ∈ result.remove_indexes, x < s) ∧
  (result.insert_indexes.map Prod.fst).Pairwise (fun a b => a < b) ∧
  (∀ p ∈ result.insert_indexes, p.1 < t ∧ target[p.1]? = some p.2) ∧
  result.remove_indexes.length ≤ s ∧
  t + result.remove_indexes.length = s + result.insert_indexes.length

end ordered_diff

namespace chain

/-! ## Actor whitelist and blacklist (`controller.cpp`, `check_actor_list`, lines 2988-3071)

A `flat_set<account_name>` is the list of its elements in ascending order, an
account name a number. -/

/-- The two exceptions of `check_actor_list`. -/
inductive actor_list_exception where
  | actor_whitelist_exception
  | actor_blacklist_exception
deriving DecidableEq, Repr

/-- The call `std::lower_bound(first, last, value)` on a sorted range, given and
returned as the rest of the range from the iterator on: the rest from the first
element that is not less than `value`. -/
def lower_bound (range : List Nat) (value : Nat) : List Nat :=
  range.dropWhile (fun x => decide (x < value))

/-- The `for` loop over the actors of the whitelist branch (lines 2999-3011) from the
iterator `lower_bound` on: the value of `is_subset` after it. -/
def whitelist_loop : List Nat → List Nat → Bool
  | [], _ => true
  | actor :: rest, lower =>
    match lower_bound lower actor with
    | [] => false
    | found :: next => if found ≠ actor then false else whitelist_loop rest next

/-- The `for` loop over the actors of the blacklist branch (lines 3036-3051) from the
iterator `lower_bound` on: the value of `intersects` after it. -/
def blacklist_loop : List Nat → List Nat → Bool
  | [], _ => false
  | actor :: rest, lower =>
    match lower_bound lower actor with
    | [] => false
    | found :: next => if found = actor then true else blacklist_loop rest (found :: next)

/-- Source `controller_impl::check_actor_list` (lines 2988-3071): the exception it
throws, if any. -/
def check_actor_list (actors actor_whitelist actor_blacklist : List Nat) :
    Option actor_list_exception :=
  if actors.length = 0 then none
  else if actor_whitelist.length > 0 then
    if (if actors.headD 0 ≥ actor_whitelist.headD 0 ∧
          actors.getLastD 0 ≤ actor_whitelist.getLastD 0 then
        whitelist_loop actors actor_whitelist
      else false) = true then none
    else some actor_list_exception.actor_whitelist_exception
  else if actor_blacklist.length > 0 then
    if (if actors.headD 0 ≤ actor_blacklist.getLastD 0 ∧
          actors.getLastD 0 ≥ actor_blacklist.headD 0 then
        blacklist_loop actors actor_blacklist
      else false) = true then some actor_list_exception.actor_blacklist_exception
    else none
  else none

/-- The plain tests that `check_actor_list` is compared with: with a non-empty
whitelist the actors must be a subset of it; otherwise, with a non-empty
blacklist, the actors must not intersect it. -/
def check_actor_list_plain (actors actor_whitelist actor_blacklist : List Nat) :
    Option actor_list_exception :=
  if actors = [] then none
  else if actor_whitelist ≠ [] then
    if ∀ a ∈ actors, a ∈ actor_whitelist then none
    else some actor_list_exception.actor_whitelist_exception
  else if actor_blacklist ≠ [] then
    if ∃ a ∈ actors, a ∈ actor_blacklist then
      some actor_list_exception.actor_blacklist_exception
    else none
  else none

end chain

namespace chain

/-! ## Starting a block (`controller.cpp`, `start_block`, lines 2099-2276) -/

/-- The part of a `protocol_feature` that `start_block` reads. -/
structure protocol_feature where
  preactivation_required : Bool
  builtin_feature : Option Nat
deriving DecidableEq, Repr

/-- The part of the `protocol_state_object` that `start_block` reads and writes: the
pre-activated digests and the activated digests with their activation block
numbers. -/
structure protocol_state_object where
  preactivated_protocol_features : List Nat
  activated_protocol_features : List (Nat × Nat)
deriving DecidableEq, Repr

/-- The environment of `start_block`: what the handlers of the signal `block_start`
throw; `skip_db_sessions(s)`; whether `db.revision() == head->block_num`; the
header state `head->next(when, confirm_block_count)` of the new block;
`pfs.get_protocol_feature`, `trigger_activation_handler` and
`protocol_features.activate_feature`, each of which may throw; the proposed
producer schedule that is promoted, if any; and what the rest of the function
(the promotion, the on-block transaction, `clear_expired_input_transactions`,
`update_producers_authority`) throws, if anything. -/
structure start_block_env where
  block_start : Option exception_type
  skip_db_sessions : Bool
  db_revision_ok : Bool
  next_header : pending_block_header_state_legacy
  get_protocol_feature : Nat → Except exception_type protocol_feature
  trigger_activation_handler : Nat → Option exception_type
  activate_feature : Nat → Nat → Option exception_type
  promoted_schedule : Option Nat
  rest : Option exception_type

/-- The call `emplace(key, value)` on the local
`flat_map<digest_type, bool> activated_protocol_features`, kept as an association
list in which the first entry of a key holds its value: the map afterwards. -/
def flat_map_emplace (m : List (Nat × Bool)) (key : Nat) (value : Bool) : List (Nat × Bool) :=
  match m.lookup key with
  | some _ => m
  | none => (key, value) :: m

/-- The map filled by the loop of lines 2155-2157: every pre-activated digest with
the value `false`. -/
def preactivated_map (preactivated : List Nat) : List (Nat × Bool) :=
  preactivated.foldl (fun m feature_digest => flat_map_emplace m feature_digest false) []

/-- The calls of lines 2182-2186 for one feature: the activation handler of a builtin
feature and `activate_feature`. -/
def start_block_activate (env : start_block_env) (block_num : Nat) (f : protocol_feature)
    (feature_digest : Nat) : Option exception_type :=
  match (match f.builtin_feature with
      | some builtin => env.trigger_activation_handler builtin
      | none => none) with
  | some e => some e
  | none => env.activate_feature feature_digest block_num

/-- The loop over `new_protocol_feature_activations` (lines 2162-2189): the value of
`num_preactivated_features_that_have_activated` after it, or the exception that
leaves it. -/
def start_block_activations (env : start_block_env) (block_num : Nat) :
    List Nat → List (Nat × Bool) → Nat → Except exception_type Nat
  | [], _, count => Except.ok count
  | feature_digest :: rest, activated, count =>
    match env.get_protocol_feature feature_digest with
    | Except.error e => Except.error e
    | Except.ok f =>
      match activated.lookup feature_digest with
      | none =>
        if f.preactivation_required then
          Except.error exception_type.protocol_feature_exception
        else
          match start_block_activate env block_num f feature_digest with
          | some e => Except.error e
          | none =>
            start_block_activations env block_num rest ((feature_digest, true) :: activated)
              count
      | some true => Except.error exception_type.block_validate_exception
      | some false =>
        match start_block_activate env block_num f feature_digest with
        | some e => Except.error e
        | none =>
          start_block_activations env block_num rest ((feature_digest, true) :: activated)
            (count + 1)

/-- The protocol feature part of `start_block` (lines 2147-2205): the protocol state
object afterwards, or the exception thrown. -/
def start_block_protocol_features (env : start_block_env) (pso : protocol_state_object)
    (new_protocol_feature_activations : List Nat) : Except exception_type protocol_state_object :=
  if new_protocol_feature_activations.length > 0 then
    match start_block_activations env env.next_header.block_num
        new_protocol_feature_activations (preactivated_map pso.preactivated_protocol_features)
        0 with
    | Except.error e => Except.error e
    | Except.ok count =>
      if pso.preactivated_protocol_features.length = 0 ∨
          count = pso.preactivated_protocol_features.length then
        Except.ok
          { preactivated_protocol_features := []
            activated_protocol_features := pso.activated_protocol_features ++
              new_protocol_feature_activations.map
                (fun digest => (digest, env.next_header.block_num)) }
      else Except.error exception_type.block_validate_exception
  else if pso.preactivated_protocol_features.length = 0 then Except.ok pso
  else Except.error exception_type.block_validate_exception

/-- Source `controller_impl::start_block` (lines 2099-2276): the controller state and
the protocol state object it leaves, and the exception it throws, if any.  After
an exception the scoped exit resets `pending`, and the database session, when
there is one, undoes the changes of the protocol state object.
`database_exception` is `fc_exception 0`. -/
def start_block (env : start_block_env) (c : controller_impl) (pso : protocol_state_object)
    (new_protocol_feature_activations : List Nat) (s : block_status) :
    controller_impl × protocol_state_object × Option exception_type :=
  if c.pending.isSome then (c, pso, some exception_type.block_validate_exception)
  else
    match emit env.block_start with
    | some e => (c, pso, some e)
    | none =>
      if env.skip_db_sessions = false ∧ env.db_revision_ok = false then
        (c, pso, some (exception_type.fc_exception 0))
      else if s = block_status.ephemeral then
        ({ pending := some
            { _block_stage := block_stage_type.building (building_block.of_dpos
                ⟨⟨new_protocol_feature_activations, 0, [], [], checksum_or_digests.digests [],
                  []⟩, env.next_header, none⟩)
              _block_status := s }
           head := c.head
           fork_db := c.fork_db }, pso, none)
      else
        match start_block_protocol_features env pso new_protocol_feature_activations with
        | Except.error e => (c, pso, some e)
        | Except.ok pso1 =>
          match env.rest with
          | some e => (c, if env.skip_db_sessions then pso1 else pso, some e)
          | none =>
            ({ pending := some
                { _block_stage := block_stage_type.building (building_block.of_dpos
                    ⟨⟨new_protocol_feature_activations,
                      new_protocol_feature_activations.length, [], [],
                      checksum_or_digests.digests [], []⟩, env.next_header,
                      env.promoted_schedule⟩)
                  _block_status := s }
               head := c.head
               fork_db := c.fork_db }, pso1, none)

/-- An example environment of `start_block` in which nothing throws; feature 2
requires pre-activation. -/
def example_start_block_env : start_block_env :=
  { block_start := none
    skip_db_sessions := false
    db_revision_ok := true
    next_header := ⟨4, [], [1, 2, 3, 4]⟩
    get_protocol_feature := fun digest => Except.ok ⟨decide (digest = 2), none⟩
    trigger_activation_handler := fun _ => none
    activate_feature := fun _ _ => none
    promoted_schedule := none
    rest := none }

/-- A controller without a pending block. -/
def example_idle_controller : controller_impl :=
  { pending := none, head := ⟨3, 2, 3, true⟩, fork_db := example_fork_db }

end chain

namespace finality

/-! ## Theorems about the finality core -/

theorem headD_append_singleton {α : Type} (l : List α) (x d : α) (h : l ≠ []) :
    (l ++ [x]).headD d = l.headD d := by
  cases l with
  | nil => exact absurd rfl h
  | cons a t => rfl

theorem target_le_of_chain (a : qc_link) (t : List qc_link)
    (h : neighbours (fun a b : qc_link =>
      block_num_succ a.source_block_num = b.source_block_num ∧
        a.target_block_num ≤ b.target_block_num) (a :: t)) :
    ∀ x ∈ t, a.target_block_num ≤ x.target_block_num := by
  induction t generalizing a with
  | nil => intro x hx; cases hx
  | cons b t ih =>
    intro x hx
    have hab := h.1
    have htl := h.2
    rcases List.mem_cons.mp hx with rfl | hx
    · exact hab.2
    · exact le_trans hab.2 (ih b htl x hx)

theorem headD_target_le_of_mem (l : List qc_link)
    (h : neighbours (fun a b : qc_link =>
      block_num_succ a.source_block_num = b.source_block_num ∧
        a.target_block_num ≤ b.target_block_num) l)
    (x : qc_link) (hx : x ∈ l) :
    (l.headD default).target_block_num ≤ x.target_block_num := by
  cases l with
  | nil => cases hx
  | cons a t =>
    rcases List.mem_cons.mp hx with rfl | hx
    · exact le_refl _
    · exact target_le_of_chain a t h x hx

/-- C7: for every block number `n`, `create_core_for_genesis_block(n)` satisfies
all nine invariants, has exactly the one link `(n, n, not strong)`, no refs, and
`final_on_strong_qc_block_num`, `last_final_block_num()` and
`current_block_num()` all equal to `n`. -/
theorem genesis_core_invariants (n : Nat) :
    (core.create_core_for_genesis_block n).invariants ∧
    (core.create_core_for_genesis_block n).links = [⟨n, n, false⟩] ∧
    (core.create_core_for_genesis_block n).refs = [] ∧
    (core.create_core_for_genesis_block n).final_on_strong_qc_block_num = n ∧
    (core.create_core_for_genesis_block n).last_final_block_num = n ∧
    (core.create_core_for_genesis_block n).current_block_num = n := by
  refine ⟨?_, rfl, rfl, rfl, rfl, rfl⟩
  refine ⟨?_, ?_, ?_, ?_, ?_, ?_, ?_, ?_, ?_⟩
  · simp [core.inv1, core.create_core_for_genesis_block]
  · simp [core.inv2, core.create_core_for_genesis_block, core.last_final_block_num,
      core.latest_qc_claim]
  · intro _
    simp [core.create_core_for_genesis_block, core.last_final_block_num]
  · intro h
    exact absurd rfl h
  · intro h
    exact absurd rfl h
  · exact trivial
  · exact trivial
  · simp [core.inv8, core.create_core_for_genesis_block, core.last_final_block_num,
      core.current_block_num, block_num_sub]
  · simp [core.inv9, core.create_core_for_genesis_block, core.current_block_num, block_num_sub]

/-- C8 (as stated, refuted): two cores satisfy all nine invariants and have
`final_on_strong_qc_block_num == last_final_block_num() == 0`, yet differ from
`create_core_for_genesis_block(0)`: the core whose single link `(0, 0)` is strong,
and the core returned by one `next` call on the genesis core. -/
theorem genesis_core_not_unique :
    ((⟨[⟨0, 0, true⟩], [], 0⟩ : core).invariants ∧
      (⟨[⟨0, 0, true⟩], [], 0⟩ : core).final_on_strong_qc_block_num = 0 ∧
      (⟨[⟨0, 0, true⟩], [], 0⟩ : core).last_final_block_num = 0 ∧
      (⟨[⟨0, 0, true⟩], [], 0⟩ : core) ≠ core.create_core_for_genesis_block 0) ∧
    (((core.create_core_for_genesis_block 0).next ⟨⟨0, 0⟩, 0⟩ ⟨0, false⟩).invariants ∧
      ((core.create_core_for_genesis_block 0).next ⟨⟨0, 0⟩, 0⟩
        ⟨0, false⟩).final_on_strong_qc_block_num = 0 ∧
      ((core.create_core_for_genesis_block 0).next ⟨⟨0, 0⟩, 0⟩
        ⟨0, false⟩).last_final_block_num = 0 ∧
      (core.create_core_for_genesis_block 0).next ⟨⟨0, 0⟩, 0⟩ ⟨0, false⟩ ≠
        core.create_core_for_genesis_block 0) := by
  decide

/-- C8 (amended): `create_core_for_genesis_block(n)` is the only core that
satisfies all nine invariants, has empty refs, a latest QC claim that is not
strong, and `final_on_strong_qc_block_num == last_final_block_num() == n`. -/
theorem genesis_core_unique_of_refs_empty (n : Nat) (c : core) (hinv : c.invariants)
    (hrefs : c.refs = []) (hweak : c.latest_qc_claim.is_strong_qc = false)
    (hfsq : c.final_on_strong_qc_block_num = n) (hlf : c.last_final_block_num = n) :
    c = core.create_core_for_genesis_block n := by
  obtain ⟨links, refs, fsq⟩ := c
  obtain ⟨_, _, h3, _⟩ := hinv
  obtain ⟨hlen, htgt, hsrc, _⟩ := h3 hrefs
  simp only [core.latest_qc_claim, core.last_final_block_num] at hlen htgt hsrc hweak hlf
  simp only at hrefs hfsq
  cases links with
  | nil => simp at hlen
  | cons l t =>
    cases t with
    | cons l2 t2 => simp at hlen
    | nil =>
      obtain ⟨s, tg, str⟩ := l
      simp only [List.getLastD, List.headD, List.getLast_singleton] at htgt hsrc hweak hlf
      simp only [core.create_core_for_genesis_block, core.mk.injEq, List.cons.injEq,
        qc_link.mk.injEq, and_true]
      refine ⟨⟨?_, ?_, hweak⟩, hrefs, hfsq⟩ <;> omega

theorem genesis_core_unique_of_refs_empty_witness :
    (⟨[⟨3, 3, false⟩], [], 3⟩ : core).invariants ∧
    (⟨[⟨3, 3, false⟩], [], 3⟩ : core).refs = [] ∧
    (⟨[⟨3, 3, false⟩], [], 3⟩ : core) = core.create_core_for_genesis_block 3 :=
  ⟨by decide, rfl,
    genesis_core_unique_of_refs_empty 3 ⟨[⟨3, 3, false⟩], [], 3⟩ (by decide) rfl rfl rfl rfl⟩

/-- C9: the core returned by `next` has `current_block_num()` equal to the input's
`current_block_num() + 1` (the `block_num_type` sum of line 241) and
`latest_qc_claim()` equal to the claim passed in; its last link is
`(current_block_num() + 1, claim.block_num, claim.is_strong_qc)`.  This holds
for every core and all arguments, in particular those that meet the
invariants and the preconditions. -/
theorem next_current_block_num_and_claim (c : core) (b : block_ref) (q : qc_claim) :
    (c.next b q).current_block_num = block_num_succ c.current_block_num ∧
    (c.next b q).latest_qc_claim = q ∧
    (c.next b q).links.getLast? =
      some ⟨block_num_succ c.current_block_num, q.block_num, q.is_strong_qc⟩ := by
  simp [core.next, core.current_block_num, core.latest_qc_claim]

/-- C5: for a core satisfying the invariants and arguments meeting the
preconditions, a weak claim (`is_strong_qc == false`) makes `next` return a core
with the same `last_final_block_num()` and the same
`final_on_strong_qc_block_num`. -/
theorem next_weak_claim_keeps_finality (c : core) (b : block_ref) (q : qc_claim)
    (hinv : c.invariants) (_hpre : c.next_pre b q) (hweak : q.is_strong_qc = false) :
    (c.next b q).last_final_block_num = c.last_final_block_num ∧
    (c.next b q).final_on_strong_qc_block_num = c.final_on_strong_qc_block_num := by
  have hne : c.links ≠ [] := hinv.1
  have hnb : c.new_block_nums q = (c.last_final_block_num, c.final_on_strong_qc_block_num) := by
    simp [core.new_block_nums, hweak]
  have hidx : c.next_links_index q = 0 := by
    simp [core.next_links_index, hnb]
  constructor
  · simp only [core.next, core.last_final_block_num, hidx, List.drop_zero]
    rw [headD_append_singleton _ _ _ hne]
  · simp [core.next, hnb]

theorem next_weak_claim_keeps_finality_witness :
    (core.create_core_for_genesis_block 7).invariants ∧
    (core.create_core_for_genesis_block 7).next_pre (block_at 7) ⟨7, false⟩ ∧
    ((core.create_core_for_genesis_block 7).next (block_at 7) ⟨7, false⟩).last_final_block_num
      = (core.create_core_for_genesis_block 7).last_final_block_num ∧
    ((core.create_core_for_genesis_block 7).next (block_at 7)
      ⟨7, false⟩).final_on_strong_qc_block_num
      = (core.create_core_for_genesis_block 7).final_on_strong_qc_block_num :=
  ⟨by decide, by decide,
    next_weak_claim_keeps_finality (core.create_core_for_genesis_block 7) (block_at 7) ⟨7, false⟩
      (by decide) (by decide) rfl⟩

/-- C3 (as stated, refuted): the core with links `(5,3,strong), (6,3,strong),
(7,6,strong)`, refs for blocks 3..6 and `final_on_strong_qc_block_num == 6`
satisfies the nine invariants, the call `next(block 7, (6, strong))` meets the
preconditions, and the returned core has `final_on_strong_qc_block_num == 3`. -/
theorem next_final_on_strong_qc_can_decrease :
    (⟨[⟨5, 3, true⟩, ⟨6, 3, true⟩, ⟨7, 6, true⟩],
      [block_at 3, block_at 4, block_at 5, block_at 6], 6⟩ : core).invariants ∧
    (⟨[⟨5, 3, true⟩, ⟨6, 3, true⟩, ⟨7, 6, true⟩],
      [block_at 3, block_at 4, block_at 5, block_at 6], 6⟩ : core).next_pre
        (block_at 7) ⟨6, true⟩ ∧
    ((⟨[⟨5, 3, true⟩, ⟨6, 3, true⟩, ⟨7, 6, true⟩],
      [block_at 3, block_at 4, block_at 5, block_at 6], 6⟩ : core).next
        (block_at 7) ⟨6, true⟩).final_on_strong_qc_block_num = 3 ∧
    ¬ (6 ≤ ((⟨[⟨5, 3, true⟩, ⟨6, 3, true⟩, ⟨7, 6, true⟩],
      [block_at 3, block_at 4, block_at 5, block_at 6], 6⟩ : core).next
        (block_at 7) ⟨6, true⟩).final_on_strong_qc_block_num) := by
  decide

theorem headD_append_singleton_mem {α : Type} (l : List α) (x d : α) :
    (l ++ [x]).headD d = x ∧ l = [] ∨ (l ++ [x]).headD d ∈ l := by
  cases l with
  | nil => exact Or.inl ⟨rfl, rfl⟩
  | cons a t => exact Or.inr (List.mem_cons_self a t)

theorem new_block_nums_snd_cases (c : core) (q : qc_claim) :
    (c.new_block_nums q).2 = c.final_on_strong_qc_block_num ∨
    (q.is_strong_qc = true ∧ (c.links.headD default).source_block_num ≤ q.block_num ∧
      (c.new_block_nums q).2 = (c.get_qc_link_from q.block_num).target_block_num) := by
  unfold core.new_block_nums
  by_cases hs : q.is_strong_qc = false
  · left; rw [if_pos hs]
  · by_cases h1 : q.block_num < (c.links.headD default).source_block_num
    · left; rw [if_neg hs, if_pos h1]
    · right
      refine ⟨by simpa using hs, by omega, ?_⟩
      rw [if_neg hs, if_neg h1]
      dsimp only
      split_ifs <;> rfl

theorem next_last_final_ge_of_invariants (c : core) (b : block_ref) (q : qc_claim)
    (hinv : c.invariants) (hpre : c.next_pre b q) :
    c.last_final_block_num ≤ (c.next b q).last_final_block_num := by
  obtain ⟨_, h2, _, _, _, _, h7, _, _⟩ := hinv
  show (c.links.headD default).target_block_num ≤
    ((c.links.drop (c.next_links_index q) ++ [_]).headD default).target_block_num
  rcases headD_append_singleton_mem (c.links.drop (c.next_links_index q))
    ⟨block_num_succ c.current_block_num, q.block_num, q.is_strong_qc⟩ default with h | h
  · rw [h.1]
    have h3 := hpre.2.2.1.1
    have h2a := h2.1
    have h2b := h2.2
    simp only [core.last_final_block_num] at h2a
    show (c.links.headD default).target_block_num ≤ q.block_num
    omega
  · exact headD_target_le_of_mem c.links h7 _ (List.mem_of_mem_drop h)

/-- C1 (evaluation of the code at the failing input): from
`create_core_for_genesis_block(0)`, the seven `next` calls with claims
`(0,weak) (0,weak) (1,weak) (3,strong) (4,strong) (5,weak) (5,strong)` all meet
the preconditions, the core before the seventh call satisfies the nine
invariants, and the core the seventh call returns has
`last_final_block_num() == 5` above `final_on_strong_qc_block_num == 4`, so
invariant 2 fails. -/
theorem next_chain_breaks_invariant_two :
    next_chain_pre (core.create_core_for_genesis_block 0)
      [⟨0, false⟩, ⟨0, false⟩, ⟨1, false⟩, ⟨3, true⟩, ⟨4, true⟩, ⟨5, false⟩, ⟨5, true⟩] ∧
    (next_chain (core.create_core_for_genesis_block 0)
      [⟨0, false⟩, ⟨0, false⟩, ⟨1, false⟩, ⟨3, true⟩, ⟨4, true⟩, ⟨5, false⟩]).invariants ∧
    (next_chain (core.create_core_for_genesis_block 0)
      [⟨0, false⟩, ⟨0, false⟩, ⟨1, false⟩, ⟨3, true⟩, ⟨4, true⟩, ⟨5, false⟩,
        ⟨5, true⟩]).last_final_block_num = 5 ∧
    (next_chain (core.create_core_for_genesis_block 0)
      [⟨0, false⟩, ⟨0, false⟩, ⟨1, false⟩, ⟨3, true⟩, ⟨4, true⟩, ⟨5, false⟩,
        ⟨5, true⟩]).final_on_strong_qc_block_num = 4 ∧
    ¬ (next_chain (core.create_core_for_genesis_block 0)
      [⟨0, false⟩, ⟨0, false⟩, ⟨1, false⟩, ⟨3, true⟩, ⟨4, true⟩, ⟨5, false⟩,
        ⟨5, true⟩]).inv2 ∧
    ¬ (next_chain (core.create_core_for_genesis_block 0)
      [⟨0, false⟩, ⟨0, false⟩, ⟨1, false⟩, ⟨3, true⟩, ⟨4, true⟩, ⟨5, false⟩,
        ⟨5, true⟩]).invariants := by
  decide

/-- C4 (evaluation of the code at the failing input): starting from
`create_core_for_genesis_block(0)` with a strong claim on the parent in every
call, all calls meet the preconditions; `last_final_block_num()` is 0 after
calls one to three and 1 after the fourth call, but 3 after the fifth call (a
rise of two) and still 3 after the sixth (no rise). -/
theorem strong_chain_last_final_block_nums :
    strong_chain_pre 0 6 ∧
    (strong_chain 0 1).last_final_block_num = 0 ∧
    (strong_chain 0 2).last_final_block_num = 0 ∧
    (strong_chain 0 3).last_final_block_num = 0 ∧
    (strong_chain 0 4).last_final_block_num = 1 ∧
    (strong_chain 0 5).last_final_block_num = 3 ∧
    (strong_chain 0 6).last_final_block_num = 3 := by
  decide

theorem block_num_sub_eq (a b : Nat) (hba : b ≤ a) (ha : a < 4294967296) :
    block_num_sub a b = a - b := by
  unfold block_num_sub; omega

theorem block_num_succ_eq (a : Nat) (ha : a + 1 < 4294967296) :
    block_num_succ a = a + 1 := by
  unfold block_num_succ; omega

theorem headD_eq_of_getElem? {α : Type} (l : List α) (d x : α) (h : l[0]? = some x) :
    l.headD d = x := by
  cases l with
  | nil => simp at h
  | cons a t => simpa using h

theorem getLastD_eq_of_getElem? {α : Type} (l : List α) (d x : α)
    (h : l[l.length - 1]? = some x) : l.getLastD d = x := by
  rw [List.getLastD_eq_getLast?, List.getLast?_eq_getElem?, h]; rfl

theorem exists_getElem?_of_lt {α : Type} (l : List α) (i : Nat) (h : i < l.length) :
    ∃ x, l[i]? = some x := ⟨l[i], List.getElem?_eq_getElem h⟩

/-- The five ways `new_block_nums` computes its result. -/
theorem new_block_nums_cases (c : core) (q : qc_claim) :
    (q.is_strong_qc = false ∧
      c.new_block_nums q = (c.last_final_block_num, c.final_on_strong_qc_block_num)) ∨
    (q.is_strong_qc = true ∧ q.block_num < (c.links.headD default).source_block_num ∧
      c.new_block_nums q = (c.last_final_block_num, c.final_on_strong_qc_block_num)) ∨
    (q.is_strong_qc = true ∧ (c.links.headD default).source_block_num ≤ q.block_num ∧
      (c.get_qc_link_from q.block_num).is_link_strong = false ∧
      c.new_block_nums q =
        (c.last_final_block_num, (c.get_qc_link_from q.block_num).target_block_num)) ∨
    (q.is_strong_qc = true ∧ (c.links.headD default).source_block_num ≤ q.block_num ∧
      (c.get_qc_link_from q.block_num).is_link_strong = true ∧
      (c.get_qc_link_from q.block_num).target_block_num <
        (c.links.headD default).source_block_num ∧
      c.new_block_nums q =
        (c.last_final_block_num, (c.get_qc_link_from q.block_num).target_block_num)) ∨
    (q.is_strong_qc = true ∧ (c.links.headD default).source_block_num ≤ q.block_num ∧
      (c.get_qc_link_from q.block_num).is_link_strong = true ∧
      (c.links.headD default).source_block_num ≤
        (c.get_qc_link_from q.block_num).target_block_num ∧
      c.new_block_nums q =
        ((c.get_qc_link_from (c.get_qc_link_from q.block_num).target_block_num).target_block_num,
          (c.get_qc_link_from q.block_num).target_block_num)) := by
  unfold core.new_block_nums
  by_cases hs : q.is_strong_qc = false
  · left; exact ⟨hs, by rw [if_pos hs]⟩
  · have hs' : q.is_strong_qc = true := by simpa using hs
    right
    by_cases h1 : q.block_num < (c.links.headD default).source_block_num
    · left; exact ⟨hs', h1, by rw [if_neg hs, if_pos h1]⟩
    · right
      rw [if_neg hs, if_neg h1]
      dsimp only
      by_cases h2 : (c.get_qc_link_from q.block_num).is_link_strong = false
      · left; exact ⟨hs', by omega, h2, by rw [if_pos h2]⟩
      · have h2' : (c.get_qc_link_from q.block_num).is_link_strong = true := by simpa using h2
        right
        by_cases h3 : (c.get_qc_link_from q.block_num).target_block_num <
            (c.links.headD default).source_block_num
        · left; exact ⟨hs', by omega, h2', h3, by rw [if_neg h2, if_pos h3]⟩
        · right; exact ⟨hs', by omega, h2', by omega, by rw [if_neg h2, if_neg h3]⟩

/-- In a good core the last link is the one at distance `length - 1` from the
first: `current_block_num` is the first source plus `length - 1`. -/
theorem core.good.current_eq {c : core} (hg : c.good) :
    c.current_block_num = (c.links.headD default).source_block_num + (c.links.length - 1) := by
  have hlen : c.links.length - 1 < c.links.length := by
    have := List.length_pos.mpr hg.ne
    omega
  obtain ⟨x, hx⟩ := exists_getElem?_of_lt c.links _ hlen
  unfold core.current_block_num
  rw [getLastD_eq_of_getElem? _ _ _ hx]
  exact hg.src _ _ hx

/-- In a good core, `get_qc_link_from(bn)` for a block number between the first
source and `current_block_num()` is the link at index `bn - first source`; its
source is `bn`. -/
theorem core.good.lookup_link {c : core} (hg : c.good) (bn : Nat)
    (h1 : (c.links.headD default).source_block_num ≤ bn) (h2 : bn ≤ c.current_block_num) :
    c.links[bn - (c.links.headD default).source_block_num]? = some (c.get_qc_link_from bn) ∧
    (c.get_qc_link_from bn).source_block_num = bn := by
  have hcur := hg.current_eq
  have hb := hg.bound
  have hpos := List.length_pos.mpr hg.ne
  have hidx : bn - (c.links.headD default).source_block_num < c.links.length := by omega
  obtain ⟨x, hx⟩ := exists_getElem?_of_lt c.links _ hidx
  have hget : c.get_qc_link_from bn = x := by
    unfold core.get_qc_link_from
    rw [block_num_sub_eq _ _ h1 (by omega), List.getD_eq_getElem?_getD, hx]
    rfl
  rw [hget]
  refine ⟨hx, ?_⟩
  have := hg.src _ _ hx
  omega

theorem core.good.head_link {c : core} (hg : c.good) :
    c.links[0]? = some (c.links.headD default) := by
  cases h : c.links with
  | nil => exact absurd h hg.ne
  | cons a t => simp

theorem core.good.lf_le_src {c : core} (hg : c.good) :
    c.last_final_block_num ≤ (c.links.headD default).source_block_num :=
  hg.tgt _ (List.getElem?_mem hg.head_link)

theorem core.good.last_link {c : core} (hg : c.good) :
    c.links[c.links.length - 1]? = some (c.links.getLastD default) := by
  have hlen : c.links.length - 1 < c.links.length := by
    have := List.length_pos.mpr hg.ne
    omega
  obtain ⟨x, hx⟩ := exists_getElem?_of_lt c.links _ hlen
  rw [getLastD_eq_of_getElem? _ _ _ hx]
  exact hx

/-- In a good core every link target is at most the block number of the latest
QC claim. -/
theorem core.good.target_le_latest {c : core} (hg : c.good) (l : qc_link) (hl : l ∈ c.links) :
    l.target_block_num ≤ c.latest_qc_claim.block_num := by
  obtain ⟨i, hi⟩ := List.mem_iff_getElem?.mp hl
  have hlt : i < c.links.length := by
    rcases List.getElem?_eq_some.mp hi with ⟨h, _⟩
    exact h
  exact hg.mono i (c.links.length - 1) l _ (by omega) hi hg.last_link

/-- In a good core every link target is at least `last_final_block_num()`. -/
theorem core.good.lf_le_target {c : core} (hg : c.good) (l : qc_link) (hl : l ∈ c.links) :
    c.last_final_block_num ≤ l.target_block_num := by
  obtain ⟨i, hi⟩ := List.mem_iff_getElem?.mp hl
  exact hg.mono 0 i _ l (Nat.zero_le _) hg.head_link hi

theorem new_block_nums_snd_of_strong (c : core) (q : qc_claim) (hs : q.is_strong_qc = true)
    (h1 : (c.links.headD default).source_block_num ≤ q.block_num) :
    (c.new_block_nums q).2 = (c.get_qc_link_from q.block_num).target_block_num := by
  rcases new_block_nums_cases c q with h | h | h | h | h
  · rw [h.1] at hs; cases hs
  · omega
  · rw [h.2.2.2]
  · rw [h.2.2.2.2]
  · rw [h.2.2.2.2]

theorem new_block_nums_fst_cases (c : core) (q : qc_claim) :
    (c.new_block_nums q).1 = c.last_final_block_num ∨
    (q.is_strong_qc = true ∧ (c.links.headD default).source_block_num ≤ q.block_num ∧
      (c.get_qc_link_from q.block_num).is_link_strong = true ∧
      (c.links.headD default).source_block_num ≤
        (c.get_qc_link_from q.block_num).target_block_num ∧
      (c.new_block_nums q).1 =
        (c.get_qc_link_from (c.get_qc_link_from q.block_num).target_block_num).target_block_num)
    := by
  rcases new_block_nums_cases c q with h | h | h | h | h
  · left; rw [h.2]
  · left; rw [h.2.2]
  · left; rw [h.2.2.2]
  · left; rw [h.2.2.2.2]
  · right; exact ⟨h.1, h.2.1, h.2.2.1, h.2.2.2.1, by rw [h.2.2.2.2]⟩

/-- In a good core, for a claim not above `current_block_num()`, the new
`final_on_strong_qc_block_num` is at most the claimed block number. -/
theorem core.good.new_fsq_le {c : core} (hg : c.good) (q : qc_claim)
    (h3 : c.latest_qc_claim.block_num ≤ q.block_num) (h4 : q.block_num ≤ c.current_block_num) :
    (c.new_block_nums q).2 ≤ q.block_num := by
  rcases new_block_nums_snd_cases c q with h | ⟨_, hge, h⟩
  · rw [h]; exact le_trans hg.fsq h3
  · rw [h]
    obtain ⟨hmem, hsrc⟩ := hg.lookup_link q.block_num hge h4
    have := hg.tgt _ (List.getElem?_mem hmem)
    omega

/-- The facts of the branch of `new_block_nums` that raises the last final block
number, in a good core. -/
theorem core.good.raise {c : core} (hg : c.good) (q : qc_claim)
    (h4 : q.block_num ≤ c.current_block_num)
    (hlt : c.last_final_block_num < (c.new_block_nums q).1) :
    (c.links.headD default).source_block_num ≤
        (c.get_qc_link_from q.block_num).target_block_num ∧
    (c.get_qc_link_from q.block_num).target_block_num ≤ q.block_num ∧
    (c.new_block_nums q).2 = (c.get_qc_link_from q.block_num).target_block_num ∧
    c.links[(c.get_qc_link_from q.block_num).target_block_num -
        (c.links.headD default).source_block_num]? =
      some (c.get_qc_link_from (c.get_qc_link_from q.block_num).target_block_num) ∧
    (c.new_block_nums q).1 =
      (c.get_qc_link_from (c.get_qc_link_from q.block_num).target_block_num).target_block_num ∧
    (c.new_block_nums q).1 ≤ (c.get_qc_link_from q.block_num).target_block_num ∧
    c.next_links_index q =
      (c.get_qc_link_from q.block_num).target_block_num - c.last_final_block_num := by
  rcases new_block_nums_fst_cases c q with h | ⟨hs, h1, _, h2, h⟩
  · omega
  · obtain ⟨hmem1, hsrc1⟩ := hg.lookup_link q.block_num h1 h4
    have ht1 := hg.tgt _ (List.getElem?_mem hmem1)
    have hle1 : (c.get_qc_link_from q.block_num).target_block_num ≤ q.block_num := by omega
    obtain ⟨hmem2, hsrc2⟩ := hg.lookup_link _ h2 (le_trans hle1 h4)
    have ht2 := hg.tgt _ (List.getElem?_mem hmem2)
    have hsnd := new_block_nums_snd_of_strong c q hs h1
    have hb := hg.bound
    have hlf := hg.lf_le_src
    refine ⟨h2, hle1, hsnd, hmem2, h, by omega, ?_⟩
    unfold core.next_links_index
    rw [if_pos hlt, hsnd, block_num_sub_eq _ _ (by omega) (by omega)]

theorem getElem?_drop_append_lt {α : Type} (L : List α) (k i : Nat) (x : α)
    (h : k + i < L.length) : (L.drop k ++ [x])[i]? = L[k + i]? := by
  rw [List.getElem?_append_left (by rw [List.length_drop]; omega), List.getElem?_drop]

theorem getElem?_drop_append_cases {α : Type} (L : List α) (k i : Nat) (x y : α)
    (h : (L.drop k ++ [x])[i]? = some y) :
    (k + i < L.length ∧ L[k + i]? = some y) ∨ (y = x ∧ i = L.length - k) := by
  by_cases hlt : k + i < L.length
  · left
    rw [getElem?_drop_append_lt L k i x hlt] at h
    exact ⟨hlt, h⟩
  · right
    have hlen : (L.drop k).length ≤ i := by rw [List.length_drop]; omega
    rw [List.getElem?_append_right hlen, List.length_drop] at h
    have hi : i - (L.length - k) = 0 := by
      by_contra hne
      rw [List.getElem?_eq_none (by simp; omega)] at h
      cases h
    rw [hi] at h
    simp at h
    exact ⟨h.symm, by omega⟩

theorem headD_drop_append_lt {α : Type} (L : List α) (k : Nat) (x d y : α)
    (h : L[k]? = some y) : (L.drop k ++ [x]).headD d = y := by
  apply headD_eq_of_getElem?
  have hlt : k < L.length := (List.getElem?_eq_some.mp h).1
  rw [getElem?_drop_append_lt L k 0 x (by omega)]
  exact h

theorem headD_drop_append_ge {α : Type} (L : List α) (k : Nat) (x d : α)
    (h : L.length ≤ k) : (L.drop k ++ [x]).headD d = x := by
  rw [List.drop_eq_nil_of_le h]; rfl

/-- The links of the core returned by `next`. -/
theorem next_links (c : core) (b : block_ref) (q : qc_claim) :
    (c.next b q).links = c.links.drop (c.next_links_index q) ++
      [⟨block_num_succ c.current_block_num, q.block_num, q.is_strong_qc⟩] := rfl

/-- In the core returned by `next` on a good core, a block number between the
new first source and the old `current_block_num()` is looked up to the same link
as in the old core. -/
theorem core.good.next_lookup {c : core} (hg : c.good) (b : block_ref) (q : qc_claim)
    (hw : c.current_block_num + 1 < 4294967296) (bn : Nat)
    (h1 : ((c.next b q).links.headD default).source_block_num ≤ bn)
    (h2 : bn ≤ c.current_block_num) :
    (c.next b q).get_qc_link_from bn = c.get_qc_link_from bn ∧
    (c.links.headD default).source_block_num ≤ bn := by
  have hcur := hg.current_eq
  have hpos := List.length_pos.mpr hg.ne
  by_cases hlt : c.next_links_index q < c.links.length
  · obtain ⟨x, hx⟩ := exists_getElem?_of_lt c.links _ hlt
    have hhead : (c.next b q).links.headD default = x := by
      rw [next_links]; exact headD_drop_append_lt _ _ _ _ _ hx
    have hxs := hg.src _ _ hx
    rw [hhead] at h1
    have hge : (c.links.headD default).source_block_num ≤ bn := by omega
    refine ⟨?_, hge⟩
    obtain ⟨hmem, _⟩ := hg.lookup_link bn hge h2
    unfold core.get_qc_link_from
    rw [hhead, block_num_sub_eq _ _ h1 (by omega), List.getD_eq_getElem?_getD, next_links,
      getElem?_drop_append_lt _ _ _ _ (by omega)]
    have hidx : c.next_links_index q + (bn - x.source_block_num) =
        bn - (c.links.headD default).source_block_num := by omega
    rw [hidx, hmem]
    unfold core.get_qc_link_from
    rfl
  · have hhead : (c.next b q).links.headD default =
        ⟨block_num_succ c.current_block_num, q.block_num, q.is_strong_qc⟩ := by
      rw [next_links]; exact headD_drop_append_ge _ _ _ _ (by omega)
    rw [hhead, block_num_succ_eq _ hw] at h1
    simp only at h1
    omega

theorem next_current_block_num (c : core) (b : block_ref) (q : qc_claim) :
    (c.next b q).current_block_num = block_num_succ c.current_block_num := by
  simp [core.next, core.current_block_num]

theorem next_latest_qc_claim (c : core) (b : block_ref) (q : qc_claim) :
    (c.next b q).latest_qc_claim = q := by
  simp [core.next, core.latest_qc_claim]

theorem next_links_index_of_not_lt (c : core) (q : qc_claim)
    (h : ¬ c.last_final_block_num < (c.new_block_nums q).1) : c.next_links_index q = 0 := by
  unfold core.next_links_index; rw [if_neg h]

theorem next_head_of_index_zero (c : core) (b : block_ref) (q : qc_claim) (hne : c.links ≠ [])
    (h : c.next_links_index q = 0) :
    (c.next b q).links.headD default = c.links.headD default := by
  rw [next_links, h, List.drop_zero]
  exact headD_append_singleton _ _ _ hne

/-- A `next` call that meets precondition 3 and does not wrap the block number
around takes a good core to a good core. -/
theorem core.good.next_good {c : core} (hg : c.good) (b : block_ref) (q : qc_claim)
    (h3 : c.latest_qc_claim.block_num ≤ q.block_num) (h4 : q.block_num ≤ c.current_block_num)
    (hw : c.current_block_num + 1 < 4294967296) : (c.next b q).good := by
  have hcur := hg.current_eq
  have hpos := List.length_pos.mpr hg.ne
  have hsucc := block_num_succ_eq _ hw
  have hlfs := hg.lf_le_src
  refine ⟨?_, ?_, ?_, ?_, ?_, ?_, ?_, ?_⟩
  · rw [next_links]; simp
  · intro i l hl
    rw [next_links] at hl
    by_cases hlt : c.next_links_index q < c.links.length
    · obtain ⟨x, hx⟩ := exists_getElem?_of_lt c.links _ hlt
      have hhead : (c.next b q).links.headD default = x := by
        rw [next_links]; exact headD_drop_append_lt _ _ _ _ _ hx
      have hxs := hg.src _ _ hx
      rw [hhead]
      rcases getElem?_drop_append_cases _ _ _ _ _ hl with ⟨_, h⟩ | ⟨h, hi⟩
      · have := hg.src _ _ h
        omega
      · rw [h]; simp only; omega
    · have hhead : (c.next b q).links.headD default =
          ⟨block_num_succ c.current_block_num, q.block_num, q.is_strong_qc⟩ := by
        rw [next_links]; exact headD_drop_append_ge _ _ _ _ (by omega)
      rw [hhead]
      rcases getElem?_drop_append_cases _ _ _ _ _ hl with ⟨h, _⟩ | ⟨h, hi⟩
      · omega
      · rw [h]; simp only; omega
  · intro i j x y hij hx hy
    rw [next_links] at hx hy
    rcases getElem?_drop_append_cases _ _ _ _ _ hx with ⟨_, hx⟩ | ⟨hx, hi⟩
    · rcases getElem?_drop_append_cases _ _ _ _ _ hy with ⟨_, hy⟩ | ⟨hy, hj⟩
      · exact hg.mono _ _ _ _ (by omega) hx hy
      · rw [hy]
        exact le_trans (hg.target_le_latest _ (List.getElem?_mem hx)) h3
    · rcases getElem?_drop_append_cases _ _ _ _ _ hy with ⟨hlt, _⟩ | ⟨hy, hj⟩
      · omega
      · rw [hx, hy]
  · intro l hl
    rw [next_links] at hl
    rcases List.mem_append.mp hl with h | h
    · exact hg.tgt _ (List.mem_of_mem_drop h)
    · rw [List.mem_singleton.mp h]; simp only; omega
  · rw [next_current_block_num]; unfold block_num_succ; omega
  · rw [next_latest_qc_claim]
    exact hg.new_fsq_le q h3 h4
  · intro hz
    unfold core.last_final_block_num at hz
    by_cases hlt : c.last_final_block_num < (c.new_block_nums q).1
    · obtain ⟨_, hle1, _, hmem2, hnlf, _, hidx⟩ := hg.raise q h4 hlt
      by_cases hlen : c.next_links_index q < c.links.length
      · obtain ⟨x, hx⟩ := exists_getElem?_of_lt c.links _ hlen
        have hhead : (c.next b q).links.headD default = x := by
          rw [next_links]; exact headD_drop_append_lt _ _ _ _ _ hx
        rw [hhead] at hz
        have := hg.mono _ _ _ _ (by omega) hmem2 hx
        omega
      · have hhead : (c.next b q).links.headD default =
            ⟨block_num_succ c.current_block_num, q.block_num, q.is_strong_qc⟩ := by
          rw [next_links]; exact headD_drop_append_ge _ _ _ _ (by omega)
        rw [hhead] at hz
        simp only at hz
        omega
    · rw [next_head_of_index_zero c b q hg.ne (next_links_index_of_not_lt c q hlt)] at hz ⊢
      exact hg.zero hz
  · rw [next_latest_qc_claim]
    have hfsq : (c.next b q).final_on_strong_qc_block_num = (c.new_block_nums q).2 := rfl
    have hsame : ∀ (hs : q.is_strong_qc = true)
        (h1 : ((c.next b q).links.headD default).source_block_num ≤ q.block_num),
        ((c.next b q).get_qc_link_from q.block_num).target_block_num =
          (c.next b q).final_on_strong_qc_block_num := by
      intro hs h1
      obtain ⟨he, hge⟩ := hg.next_lookup b q hw q.block_num h1 h4
      rw [he, hfsq, new_block_nums_snd_of_strong c q hs hge]
    rcases new_block_nums_cases (c.next b q) q with h | h | h | h | h
    · exact h.2
    · exact h.2.2
    · rw [h.2.2.2, hsame h.1 h.2.1]
    · rw [h.2.2.2.2, hsame h.1 h.2.1]
    · obtain ⟨hs, h1, hstr, h2, hnb⟩ := h
      have hsnd := hsame hs h1
      obtain ⟨he1, hge1⟩ := hg.next_lookup b q hw q.block_num h1 h4
      rw [hnb, he1]
      rw [he1] at hstr h2 hsnd
      obtain ⟨hmem1, hsrc1⟩ := hg.lookup_link q.block_num hge1 h4
      have ht1 := hg.tgt _ (List.getElem?_mem hmem1)
      obtain ⟨he2, hge2⟩ := hg.next_lookup b q hw
        (c.get_qc_link_from q.block_num).target_block_num h2 (by omega)
      rw [he2]
      obtain ⟨hmem2, _⟩ := hg.lookup_link _ hge2 (by omega)
      have hnlf : (c.new_block_nums q).1 =
          (c.get_qc_link_from (c.get_qc_link_from q.block_num).target_block_num).target_block_num
          := by
        rcases new_block_nums_fst_cases c q with h | h
        · rcases new_block_nums_cases c q with k | k | k | k | k
          · rw [k.1] at hs; cases hs
          · omega
          · rw [k.2.2.1] at hstr; cases hstr
          · omega
          · rw [k.2.2.2.2]
        · exact h.2.2.2.2
      refine Prod.ext ?_ hsnd
      show (c.get_qc_link_from (c.get_qc_link_from q.block_num).target_block_num).target_block_num
        = ((c.next b q).links.headD default).target_block_num
      by_cases hlt : c.last_final_block_num < (c.new_block_nums q).1
      · obtain ⟨_, _, _, _, _, _, hidx⟩ := hg.raise q h4 hlt
        by_cases hlen : c.next_links_index q < c.links.length
        · obtain ⟨x, hx⟩ := exists_getElem?_of_lt c.links _ hlen
          have hhead : (c.next b q).links.headD default = x := by
            rw [next_links]; exact headD_drop_append_lt _ _ _ _ _ hx
          have hxs := hg.src _ _ hx
          rw [hhead] at h2 ⊢
          have hi : c.next_links_index q = (c.get_qc_link_from q.block_num).target_block_num -
              (c.links.headD default).source_block_num := by omega
          rw [hi, hmem2] at hx
          rw [← Option.some.inj hx]
        · have hhead : (c.next b q).links.headD default =
              ⟨block_num_succ c.current_block_num, q.block_num, q.is_strong_qc⟩ := by
            rw [next_links]; exact headD_drop_append_ge _ _ _ _ (by omega)
          rw [hhead] at h2
          simp only at h2
          omega
      · rw [next_head_of_index_zero c b q hg.ne (next_links_index_of_not_lt c q hlt)]
        have := hg.lf_le_target _ (List.getElem?_mem hmem2)
        unfold core.last_final_block_num at hlt this
        omega

theorem genesis_good (n : Nat) (hn : n < 4294967296) :
    (core.create_core_for_genesis_block n).good := by
  refine ⟨?_, ?_, ?_, ?_, hn, le_refl _, ?_, ?_⟩
  · simp [core.create_core_for_genesis_block]
  · intro i l hl
    cases i with
    | zero =>
      simp [core.create_core_for_genesis_block] at hl ⊢
      rw [← hl]
    | succ k => simp [core.create_core_for_genesis_block] at hl
  · intro i j a b _ ha hb
    have hi : i = 0 := by
      rcases List.getElem?_eq_some.mp ha with ⟨h, _⟩
      simp [core.create_core_for_genesis_block] at h
      exact h
    have hj : j = 0 := by
      rcases List.getElem?_eq_some.mp hb with ⟨h, _⟩
      simp [core.create_core_for_genesis_block] at h
      exact h
    subst hi hj
    rw [ha] at hb
    rw [Option.some.inj hb]
  · intro l hl
    simp [core.create_core_for_genesis_block] at hl
    rw [hl]
  · intro h
    exact h
  · rfl

/-- In a wrapped core every lookup returns a link with target 0. -/
theorem core.wrapped.lookup_target {c : core} (hwr : c.wrapped) (bn : Nat) :
    (c.get_qc_link_from bn).target_block_num = 0 := by
  have hidx : block_num_sub bn (c.links.headD default).source_block_num < 4294967296 := by
    unfold block_num_sub; omega
  obtain ⟨x, hx⟩ := exists_getElem?_of_lt c.links _ (lt_of_lt_of_le hidx hwr.len)
  unfold core.get_qc_link_from
  rw [List.getD_eq_getElem?_getD, hx]
  exact hwr.tgt _ _ hidx hx

theorem core.wrapped.links_ne {c : core} (hwr : c.wrapped) : c.links ≠ [] := by
  intro h
  have := hwr.len
  rw [h] at this
  simp at this

theorem core.wrapped.lf_zero {c : core} (hwr : c.wrapped) : c.last_final_block_num = 0 := by
  obtain ⟨x, hx⟩ := exists_getElem?_of_lt c.links 0 (lt_of_lt_of_le (by omega) hwr.len)
  unfold core.last_final_block_num
  rw [headD_eq_of_getElem? _ _ _ hx]
  exact hwr.tgt _ _ (by omega) hx

theorem core.wrapped.new_block_nums_zero {c : core} (hwr : c.wrapped) (q : qc_claim) :
    c.new_block_nums q = (0, 0) := by
  have hlf := hwr.lf_zero
  have hfsq := hwr.fsq
  rcases new_block_nums_cases c q with h | h | h | h | h
  · rw [h.2, hlf, hfsq]
  · rw [h.2.2, hlf, hfsq]
  · rw [h.2.2.2, hlf, hwr.lookup_target]
  · rw [h.2.2.2.2, hlf, hwr.lookup_target]
  · rw [h.2.2.2.2, hwr.lookup_target, hwr.lookup_target]

/-- A `next` call takes a wrapped core to a wrapped core. -/
theorem core.wrapped.next_wrapped {c : core} (hwr : c.wrapped) (b : block_ref) (q : qc_claim) :
    (c.next b q).wrapped := by
  have hnb := hwr.new_block_nums_zero q
  have hidx : c.next_links_index q = 0 := by
    apply next_links_index_of_not_lt
    rw [hnb, hwr.lf_zero]
    omega
  have hlinks : (c.next b q).links = c.links ++
      [⟨block_num_succ c.current_block_num, q.block_num, q.is_strong_qc⟩] := by
    rw [next_links, hidx, List.drop_zero]
  refine ⟨?_, ?_, ?_, ?_⟩
  · rw [hlinks, List.length_append]
    have := hwr.len
    omega
  · intro i l hi hl
    rw [hlinks, List.getElem?_append_left (lt_of_lt_of_le hi hwr.len)] at hl
    exact hwr.tgt i l hi hl
  · rw [next_head_of_index_zero c b q hwr.links_ne hidx]
    exact hwr.src
  · show (c.new_block_nums q).2 = 0
    rw [hnb]

/-- A good core at the largest block number whose claims are all on block 0 is
wrapped. -/
theorem core.good.wrapped_of_max {c : core} (hg : c.good)
    (hmax : c.current_block_num + 1 = 4294967296) (hz : c.latest_qc_claim.block_num = 0) :
    c.wrapped := by
  have hcur := hg.current_eq
  have hlf : c.last_final_block_num = 0 := by
    have := hg.target_le_latest _ (List.getElem?_mem hg.head_link)
    unfold core.last_final_block_num
    omega
  have hsrc := hg.zero hlf
  refine ⟨by omega, ?_, hsrc, ?_⟩
  · intro i l _ hl
    have := hg.target_le_latest _ (List.getElem?_mem hl)
    omega
  · have := hg.fsq
    omega

/-- The invariant of reachable cores: good, wrapped or dead. -/
theorem core.reachable.shape {c : core} (hr : c.reachable) : c.good ∨ c.wrapped ∨ c.dead := by
  induction hr with
  | genesis n hn => exact Or.inl (genesis_good n hn)
  | next c b q _ hpre ih =>
    obtain ⟨_, _, ⟨h3, h4⟩, _⟩ := hpre
    rcases ih with hg | hwr | hd
    · by_cases hw : c.current_block_num + 1 < 4294967296
      · exact Or.inl (hg.next_good b q h3 h4 hw)
      · have hb := hg.bound
        by_cases hq : q.block_num = 0
        · exact Or.inr (Or.inl ((hg.wrapped_of_max (by omega) (by omega)).next_wrapped b q))
        · right; right
          unfold core.dead
          rw [next_current_block_num, next_latest_qc_claim]
          unfold block_num_succ
          omega
    · exact Or.inr (Or.inl (hwr.next_wrapped b q))
    · unfold core.dead at hd
      omega

/-- In every reachable core, a link whose source is not below the block of the
latest QC claim has a target not below `final_on_strong_qc_block_num` (the bound
lines 173-174 leave to be shown). -/
theorem core.reachable.claim_bound {c : core} (hr : c.reachable) :
    ∀ l ∈ c.links, c.latest_qc_claim.block_num ≤ l.source_block_num →
      c.final_on_strong_qc_block_num ≤ l.target_block_num := by
  induction hr with
  | genesis n hn =>
    intro l hl _
    simp only [core.create_core_for_genesis_block, List.mem_singleton] at hl
    subst hl
    exact Nat.le_refl _
  | next c b q hc hpre ih =>
    obtain ⟨_, _, ⟨h3, h4⟩, _⟩ := hpre
    intro l hl hq
    rw [next_latest_qc_claim] at hq
    show (c.new_block_nums q).2 ≤ l.target_block_num
    rcases hc.shape with hg | hwr | hd
    · rw [next_links] at hl
      rcases List.mem_append.mp hl with hl | hl
      · have hl := List.mem_of_mem_drop hl
        rcases new_block_nums_snd_cases c q with h | ⟨_, hge, h⟩
        · rw [h]
          exact ih l hl (le_trans h3 hq)
        · rw [h]
          obtain ⟨hmem, hsrc⟩ := hg.lookup_link q.block_num hge h4
          obtain ⟨j, hj⟩ := List.mem_iff_getElem?.mp hl
          have hls := hg.src j l hj
          exact hg.mono _ j _ l (by omega) hmem hj
      · rw [List.mem_singleton.mp hl]
        exact hg.new_fsq_le q h3 h4
    · rw [hwr.new_block_nums_zero]
      exact Nat.zero_le _
    · unfold core.dead at hd
      omega

/-- C3 (amended): for every core reachable from `create_core_for_genesis_block` by
`next` calls that meet the preconditions, and arguments meeting the preconditions
of `next`, the returned core has `last_final_block_num()` not below the input's
and `final_on_strong_qc_block_num` not below the input's; for every core that
satisfies the nine invariants, reachable or not, `last_final_block_num()` of the
returned core is not below the input's. -/
theorem next_finality_monotone (c : core) (b : block_ref) (q : qc_claim)
    (hpre : c.next_pre b q) :
    (c.reachable →
      c.last_final_block_num ≤ (c.next b q).last_final_block_num ∧
      c.final_on_strong_qc_block_num ≤ (c.next b q).final_on_strong_qc_block_num) ∧
    (c.invariants → c.last_final_block_num ≤ (c.next b q).last_final_block_num) := by
  refine ⟨fun hr => ?_, fun hinv => next_last_final_ge_of_invariants c b q hinv hpre⟩
  have hk := hr.claim_bound
  obtain ⟨_, _, ⟨h3, h4⟩, _⟩ := hpre
  rcases hr.shape with hg | hwr | hd
  · constructor
    · show c.last_final_block_num ≤
        ((c.links.drop (c.next_links_index q) ++ [_]).headD default).target_block_num
      rcases headD_append_singleton_mem (c.links.drop (c.next_links_index q))
        ⟨block_num_succ c.current_block_num, q.block_num, q.is_strong_qc⟩ default with h | h
      · rw [h.1]
        have := hg.target_le_latest _ (List.getElem?_mem hg.head_link)
        show (c.links.headD default).target_block_num ≤ q.block_num
        omega
      · exact hg.lf_le_target _ (List.mem_of_mem_drop h)
    · show c.final_on_strong_qc_block_num ≤ (c.new_block_nums q).2
      rcases new_block_nums_snd_cases c q with h | ⟨_, hge, h⟩
      · exact le_of_eq h.symm
      · rw [h]
        obtain ⟨hmem, hsrc⟩ := hg.lookup_link q.block_num hge h4
        exact hk _ (List.getElem?_mem hmem) (by omega)
  · constructor
    · rw [hwr.lf_zero]
      exact Nat.zero_le _
    · rw [hwr.fsq]
      exact Nat.zero_le _
  · unfold core.dead at hd
    omega

theorem next_finality_monotone_witness :
    (strong_chain 0 4).next_pre (block_at 4) ⟨4, true⟩ ∧
    ((strong_chain 0 4).last_final_block_num = 1 ∧
      (strong_chain 0 4).final_on_strong_qc_block_num = 2 ∧
      ((strong_chain 0 4).next (block_at 4) ⟨4, true⟩).final_on_strong_qc_block_num = 3) ∧
    ((strong_chain 0 4).last_final_block_num ≤
        ((strong_chain 0 4).next (block_at 4) ⟨4, true⟩).last_final_block_num ∧
      (strong_chain 0 4).final_on_strong_qc_block_num ≤
        ((strong_chain 0 4).next (block_at 4) ⟨4, true⟩).final_on_strong_qc_block_num) ∧
    (strong_chain 0 4).last_final_block_num ≤
      ((strong_chain 0 4).next (block_at 4) ⟨4, true⟩).last_final_block_num :=
  ⟨by decide, by decide,
    (next_finality_monotone (strong_chain 0 4) (block_at 4) ⟨4, true⟩ (by decide)).1
      (core.reachable.next _ _ _ (core.reachable.next _ _ _ (core.reachable.next _ _ _
        (core.reachable.next _ _ _ (core.reachable.genesis 0 (by decide)) (by decide))
        (by decide)) (by decide)) (by decide)),
    (next_finality_monotone (strong_chain 0 4) (block_at 4) ⟨4, true⟩ (by decide)).2
      (by decide)⟩

/-- When `new_block_nums` returns the two finality numbers of the core itself,
`next` keeps both. -/
theorem next_keeps_of_new_block_nums (c : core) (b : block_ref) (q : qc_claim)
    (hne : c.links ≠ [])
    (hnb : c.new_block_nums q = (c.last_final_block_num, c.final_on_strong_qc_block_num)) :
    (c.next b q).last_final_block_num = c.last_final_block_num ∧
    (c.next b q).final_on_strong_qc_block_num = c.final_on_strong_qc_block_num := by
  have hidx : c.next_links_index q = 0 := by
    apply next_links_index_of_not_lt
    rw [hnb]
    omega
  constructor
  · unfold core.last_final_block_num
    rw [next_head_of_index_zero c b q hne hidx]
  · show (c.new_block_nums q).2 = _
    rw [hnb]

theorem next_same_claim_step (c : core) (b : block_ref)
    (hs : c.good ∨ c.wrapped ∨ c.dead) (hpre : c.next_pre b c.latest_qc_claim) :
    (c.next b c.latest_qc_claim).last_final_block_num = c.last_final_block_num ∧
    (c.next b c.latest_qc_claim).final_on_strong_qc_block_num =
      c.final_on_strong_qc_block_num := by
  rcases hs with hg | hwr | hd
  · exact next_keeps_of_new_block_nums c b _ hg.ne hg.fix
  · apply next_keeps_of_new_block_nums c b _ hwr.links_ne
    rw [hwr.new_block_nums_zero, hwr.lf_zero, hwr.fsq]
  · have := hpre.2.2.1.2
    unfold core.dead at hd
    omega

/-- C6: for every core reachable from a genesis core by `next` calls that meet
the preconditions, any number of further `next` calls that each repeat the
core's own latest QC claim (and meet the preconditions) returns a core with
unchanged `last_final_block_num()` and unchanged
`final_on_strong_qc_block_num`; a single call is the list of one block. -/
theorem next_same_claim_keeps_finality (c : core) (bs : List block_ref)
    (hr : c.reachable) (hpre : next_repeat_pre c bs) :
    (next_repeat c bs).last_final_block_num = c.last_final_block_num ∧
    (next_repeat c bs).final_on_strong_qc_block_num = c.final_on_strong_qc_block_num := by
  induction bs generalizing c with
  | nil => exact ⟨rfl, rfl⟩
  | cons b bs ih =>
    obtain ⟨h1, h2⟩ := next_same_claim_step c b hr.shape hpre.1
    obtain ⟨h3, h4⟩ := ih (c.next b c.latest_qc_claim) (core.reachable.next c b _ hr hpre.1) hpre.2
    exact ⟨h3.trans h1, h4.trans h2⟩

theorem next_same_claim_keeps_finality_witness :
    next_repeat_pre (strong_chain 0 4) [block_at 4, block_at 5, block_at 6] ∧
    (next_repeat (strong_chain 0 4) [block_at 4, block_at 5, block_at 6]).last_final_block_num =
      (strong_chain 0 4).last_final_block_num ∧
    (next_repeat (strong_chain 0 4)
      [block_at 4, block_at 5, block_at 6]).final_on_strong_qc_block_num =
      (strong_chain 0 4).final_on_strong_qc_block_num :=
  ⟨by decide,
    next_same_claim_keeps_finality (strong_chain 0 4) [block_at 4, block_at 5, block_at 6]
      (core.reachable.next _ _ _ (core.reachable.next _ _ _ (core.reachable.next _ _ _
        (core.reachable.next _ _ _ (core.reachable.genesis 0 (by decide)) (by decide))
        (by decide)) (by decide)) (by decide))
      (by decide)⟩

end finality

namespace ordered_diff

/-! ## Theorems about the ordered diff -/

theorem eraseIdx_append_cons {T : Type} (p : List T) (a : T) (x : List T) :
    (p ++ a :: x).eraseIdx p.length = p ++ x := by
  induction p with
  | nil => rfl
  | cons h t ih => simp [List.eraseIdx_cons_succ, ih]

theorem insertIdx_append {T : Type} (q : List T) (b : T) (k : List T) :
    (q ++ k).insertIdx q.length b = q ++ b :: k := by
  induction q with
  | nil => simp [List.insertIdx_zero]
  | cons h t ih => simp [List.insertIdx_succ_cons, ih]

theorem drop_of_getElem? {T : Type} (l : List T) (i : Nat) (a : T) (h : l[i]? = some a) :
    l.drop i = a :: l.drop (i + 1) := by
  obtain ⟨hlt, ha⟩ := List.getElem?_eq_some.mp h
  rw [List.drop_eq_getElem_cons hlt, ha]

theorem lt_length_of_getElem? {T : Type} (l : List T) (i : Nat) (a : T) (h : l[i]? = some a) :
    i < l.length := (List.getElem?_eq_some.mp h).1

theorem diff_spec_done {T : Type} (m : Nat) (source target : List T) (s t : Nat)
    (hs : source[s]? = none) (ht : target[t]? = none) :
    diff_spec m source target s t [] [] [] := by
  have hs' : source.length ≤ s := List.getElem?_eq_none_iff.mp hs
  have ht' : target.length ≤ t := List.getElem?_eq_none_iff.mp ht
  refine ⟨?_, ?_, ?_, ?_⟩
  · intro p k _
    rw [List.drop_eq_nil_of_le hs']; rfl
  · intro q _
    rw [List.drop_eq_nil_of_le ht']; rfl
  · simp; omega
  · simp; omega

theorem diff_spec_keep {T : Type} (m : Nat) (source target : List T) (s t : Nat) (a : T)
    (removes : List Nat) (inserts : List (Nat × T)) (kept : List T)
    (hs : source[s]? = some a) (ht : target[t]? = some a)
    (h : diff_spec m source target (s + 1) (t + 1) removes inserts kept) :
    diff_spec m source target s t removes inserts (a :: kept) := by
  obtain ⟨h1, h2, h3, h4⟩ := h
  have hsl := lt_length_of_getElem? _ _ _ hs
  have htl := lt_length_of_getElem? _ _ _ ht
  refine ⟨?_, ?_, ?_, ?_⟩
  · intro p k hp
    have := h1 (p ++ [a]) k (by simp; omega)
    rw [drop_of_getElem? _ _ _ hs]
    simpa using this
  · intro q hq
    have := h2 (q ++ [a]) (by simp; omega)
    rw [drop_of_getElem? _ _ _ ht]
    simpa using this
  · simp only [List.length_cons]; omega
  · simp only [List.length_cons]; omega

theorem diff_spec_remove {T : Type} (m : Nat) (source target : List T) (s t : Nat) (a : T)
    (removes : List Nat) (inserts : List (Nat × T)) (kept : List T)
    (hs : source[s]? = some a)
    (h : diff_spec m source target (s + 1) t removes inserts kept) :
    diff_spec m source target s t (s :: removes) inserts kept := by
  obtain ⟨h1, h2, h3, h4⟩ := h
  have hsl := lt_length_of_getElem? _ _ _ hs
  refine ⟨?_, h2, ?_, h4⟩
  · intro p k hp
    rw [drop_of_getElem? _ _ _ hs]
    have hidx : s - k = p.length := by omega
    have hcond : k ≤ s ∧ s - k < (p ++ a :: List.drop (s + 1) source).length := by
      constructor
      · omega
      · simp; omega
    unfold remove_loop
    rw [if_pos hcond, hidx, eraseIdx_append_cons]
    exact h1 p (k + 1) (by omega)
  · simp only [List.length_cons]; omega

theorem diff_spec_insert {T : Type} (m : Nat) (source target : List T) (s t : Nat) (b : T)
    (removes : List Nat) (inserts : List (Nat × T)) (kept : List T)
    (ht : target[t]? = some b) (hm : target.length ≤ m)
    (h : diff_spec m source target s (t + 1) removes inserts kept) :
    diff_spec m source target s t removes ((t, b) :: inserts) kept := by
  obtain ⟨h1, h2, h3, h4⟩ := h
  have htl := lt_length_of_getElem? _ _ _ ht
  refine ⟨h1, ?_, h3, ?_⟩
  · intro q hq
    rw [drop_of_getElem? _ _ _ ht]
    have hcond : t ≤ (q ++ kept).length ∧ (q ++ kept).length < m := by
      constructor
      · simp; omega
      · simp; omega
    have hins : (q ++ kept).insertIdx t b = q ++ b :: kept := by
      rw [← hq, insertIdx_append]
    unfold insert_loop
    rw [if_pos hcond, hins]
    have := h2 (q ++ [b]) (by simp; omega)
    simpa using this
  · simp only [List.length_cons]; omega

theorem diff_loop_spec {T : Type} [DecidableEq T] (m zmax : Nat) (source target : List T)
    (hsm : source.length ≤ m) (htm : target.length ≤ m)
    (hsz : source.length < zmax) (htz : target.length < zmax) :
    ∀ (fuel s t : Nat) (res : diff_result T),
      (source.length - s) + (target.length - t) ≤ fuel →
      s ≤ source.length → t ≤ target.length →
      res.remove_indexes.length ≤ s → res.insert_indexes.length ≤ t →
      ∃ (removes : List Nat) (inserts : List (Nat × T)) (kept : List T),
        diff_loop m zmax source target fuel s t res =
          some ⟨res.remove_indexes ++ removes, res.insert_indexes ++ inserts⟩ ∧
        diff_spec m source target s t removes inserts kept := by
  intro fuel
  induction fuel with
  | zero =>
    intro s t res hfuel _ _ _ _
    refine ⟨[], [], [], ?_, ?_⟩
    · unfold diff_loop
      rw [if_neg (by omega)]
      simp
    · exact diff_spec_done m source target s t
        (List.getElem?_eq_none_iff.mpr (by omega)) (List.getElem?_eq_none_iff.mpr (by omega))
  | succ fuel ih =>
    intro s t res hfuel hsle htle hr hi
    have keep : ∀ a, source[s]? = some a → target[t]? = some a →
        ∃ (removes : List Nat) (inserts : List (Nat × T)) (kept : List T),
          diff_loop m zmax source target fuel (s + 1) (t + 1) res =
            some ⟨res.remove_indexes ++ removes, res.insert_indexes ++ inserts⟩ ∧
          diff_spec m source target s t removes inserts kept := by
      intro a hs ht
      have hsl := lt_length_of_getElem? _ _ _ hs
      have htl := lt_length_of_getElem? _ _ _ ht
      obtain ⟨R, I, K, h1, h2⟩ := ih (s + 1) (t + 1) res (by omega) (by omega) (by omega) (by omega) (by omega)
      exact ⟨R, I, a :: K, h1, diff_spec_keep m source target s t a R I K hs ht h2⟩
    have replace : ∀ a b, source[s]? = some a → target[t]? = some b →
        ∃ (removes : List Nat) (inserts : List (Nat × T)) (kept : List T),
          diff_loop m zmax source target fuel (s + 1) (t + 1)
            ⟨res.remove_indexes ++ [s], res.insert_indexes ++ [(t, b)]⟩ =
            some ⟨res.remove_indexes ++ removes, res.insert_indexes ++ inserts⟩ ∧
          diff_spec m source target s t removes inserts kept := by
      intro a b hs ht
      have hsl := lt_length_of_getElem? _ _ _ hs
      have htl := lt_length_of_getElem? _ _ _ ht
      obtain ⟨R, I, K, h1, h2⟩ := ih (s + 1) (t + 1)
        ⟨res.remove_indexes ++ [s], res.insert_indexes ++ [(t, b)]⟩ (by omega) (by omega) (by omega)
        (by simp; omega) (by simp; omega)
      refine ⟨s :: R, (t, b) :: I, K, ?_, ?_⟩
      · rw [h1]; simp
      · exact diff_spec_remove m source target s t a _ _ K hs
          (diff_spec_insert m source target (s + 1) t b R I K ht htm h2)
    have insert : ∀ b, target[t]? = some b →
        ∃ (removes : List Nat) (inserts : List (Nat × T)) (kept : List T),
          diff_loop m zmax source target fuel s (t + 1)
            ⟨res.remove_indexes, res.insert_indexes ++ [(t, b)]⟩ =
            some ⟨res.remove_indexes ++ removes, res.insert_indexes ++ inserts⟩ ∧
          diff_spec m source target s t removes inserts kept := by
      intro b ht
      have htl := lt_length_of_getElem? _ _ _ ht
      obtain ⟨R, I, K, h1, h2⟩ := ih s (t + 1)
        ⟨res.remove_indexes, res.insert_indexes ++ [(t, b)]⟩ (by omega) (by omega) (by omega)
        (by simp; omega) (by simp; omega)
      refine ⟨R, (t, b) :: I, K, ?_, ?_⟩
      · rw [h1]; simp
      · exact diff_spec_insert m source target s t b R I K ht htm h2
    have remove : ∀ a, source[s]? = some a →
        ∃ (removes : List Nat) (inserts : List (Nat × T)) (kept : List T),
          diff_loop m zmax source target fuel (s + 1) t
            ⟨res.remove_indexes ++ [s], res.insert_indexes⟩ =
            some ⟨res.remove_indexes ++ removes, res.insert_indexes ++ inserts⟩ ∧
          diff_spec m source target s t removes inserts kept := by
      intro a hs
      have hsl := lt_length_of_getElem? _ _ _ hs
      obtain ⟨R, I, K, h1, h2⟩ := ih (s + 1) t
        ⟨res.remove_indexes ++ [s], res.insert_indexes⟩ (by omega) (by omega) (by omega)
        (by simp; omega) (by simp; omega)
      refine ⟨s :: R, I, K, ?_, ?_⟩
      · rw [h1]; simp
      · exact diff_spec_remove m source target s t a R I K hs h2
    unfold diff_loop
    cases hs : source[s]? with
    | none =>
      cases ht : target[t]? with
      | none =>
        refine ⟨[], [], [], ?_, diff_spec_done m source target s t hs ht⟩
        simp
      | some b =>
        have htl := lt_length_of_getElem? _ _ _ ht
        have hsl : source.length ≤ s := List.getElem?_eq_none_iff.mp hs
        dsimp only
        rw [if_neg (by omega), if_pos (by omega)]
        exact insert b ht
    | some a =>
      have hsl := lt_length_of_getElem? _ _ _ hs
      cases ht : target[t]? with
      | none =>
        have htl : target.length ≤ t := List.getElem?_eq_none_iff.mp ht
        dsimp only
        rw [if_neg (by omega), if_pos (by omega)]
        exact remove a hs
      | some b =>
        have htl := lt_length_of_getElem? _ _ _ ht
        dsimp only
        rw [if_neg (by omega)]
        by_cases hab : a = b
        · rw [if_pos hab]
          exact keep a hs (by rw [ht, hab])
        · rw [if_neg hab]
          have hboth : res.remove_indexes.length < m ∧ res.insert_indexes.length < m := by
            constructor <;> omega
          by_cases h1 : s = source.length - 1 ∧ t = target.length - 1
          · rw [if_pos h1, if_pos hboth]
            exact replace a b hs ht
          · rw [if_neg h1]
            by_cases h2 : source[s + 1]?.isSome ∧ target[t + 1]?.isSome ∧
                source[s + 1]? = target[t + 1]?
            · rw [if_pos h2, if_pos hboth]
              exact replace a b hs ht
            · rw [if_neg h2]
              by_cases h3 : target[t + 1]? = some a
              · rw [if_pos h3, if_pos hboth.2]
                exact insert b ht
              · rw [if_neg h3, if_pos hboth.1]
                exact remove a hs

theorem diff_loop_too_many_removes {T : Type} [DecidableEq T] (m zmax : Nat) (source : List T)
    (hlen : source.length = m + 1) :
    ∀ (fuel s : Nat) (res : diff_result T), res.remove_indexes.length = s → s ≤ m →
      diff_loop m zmax source [] fuel s 0 res = none := by
  intro fuel
  induction fuel with
  | zero =>
    intro s res _ hs
    unfold diff_loop
    rw [if_pos (Or.inl (by omega))]
  | succ fuel ih =>
    intro s res hres hs
    obtain ⟨a, ha⟩ : ∃ a, source[s]? = some a :=
      ⟨source[s], List.getElem?_eq_getElem (by omega)⟩
    unfold diff_loop
    rw [ha]
    simp only [List.getElem?_nil]
    split_ifs with h1 h2
    all_goals first
      | rfl
      | exact ih (s + 1) _ (by simp only [List.length_append, List.length_singleton]; omega)
          (by omega)

/-- C2 (as stated, refuted): whatever the values of `MAX_NUM_ARRAY_ELEMENTS` and
of `std::numeric_limits<SizeType>::max()`, the round trip
`apply_diff(source, diff(source, target))` does not return the target for every
source and target: for a source of `MAX_NUM_ARRAY_ELEMENTS + 1` elements and an
empty target `diff` throws. -/
theorem round_trip_not_total :
    ¬ ∃ m zmax : Nat, ∀ source target : List Nat,
      round_trip m zmax source target = some target := by
  rintro ⟨m, zmax, h⟩
  have hnone : diff m zmax (List.replicate (m + 1) 0) ([] : List Nat) = none :=
    diff_loop_too_many_removes m zmax (List.replicate (m + 1) 0) (by simp) _ 0 ⟨[], []⟩ rfl
      (Nat.zero_le m)
  have := h (List.replicate (m + 1) 0) []
  unfold round_trip at this
  rw [hnone] at this
  cases this

/-- C2 (amended): for every source and target sequence whose lengths are at most
`MAX_NUM_ARRAY_ELEMENTS` and below `std::numeric_limits<SizeType>::max()`,
`apply_diff(source, diff(source, target))` returns a sequence equal to target. -/
theorem round_trip_of_bounds {T : Type} [DecidableEq T] (m zmax : Nat) (source target : List T)
    (hsm : source.length ≤ m) (htm : target.length ≤ m)
    (hsz : source.length < zmax) (htz : target.length < zmax) :
    round_trip m zmax source target = some target := by
  obtain ⟨R, I, K, hd, h1, h2, h3, h4⟩ :=
    diff_loop_spec m zmax source target hsm htm hsz htz (source.length + target.length) 0 0
      ⟨[], []⟩ (by omega) (Nat.zero_le _) (Nat.zero_le _) (Nat.le_refl _) (Nat.le_refl _)
  have hr := h1 [] 0 rfl
  have hi := h2 [] rfl
  simp only [List.nil_append, List.drop_zero] at hr hi hd
  unfold round_trip diff
  rw [hd]
  show apply_diff m source ⟨R, I⟩ = some target
  unfold apply_diff
  rw [if_pos (by constructor <;> simp only <;> omega), hr]
  exact hi

theorem round_trip_of_bounds_witness :
    ['a', 'b', 'f', 'c', 'd'].length ≤ 1048576 ∧
    ['b', 'f', 'c', 'd', 'e', 'h'].length ≤ 1048576 ∧
    round_trip 1048576 18446744073709551615 ['a', 'b', 'f', 'c', 'd']
      ['b', 'f', 'c', 'd', 'e', 'h'] = some ['b', 'f', 'c', 'd', 'e', 'h'] :=
  ⟨by decide, by decide,
    round_trip_of_bounds 1048576 18446744073709551615 ['a', 'b', 'f', 'c', 'd']
      ['b', 'f', 'c', 'd', 'e', 'h'] (by decide) (by decide) (by decide) (by decide)⟩

end ordered_diff

namespace chain

/-! ## Theorems about fork switching -/

theorem apply_block_cases (run : controller_state → block_state_legacy → apply_result)
    (st : controller_state) (b : block_state_legacy) :
    (apply_block run st b).1.fork_db = st.fork_db ∧
    (((apply_block run st b).2 = none ∧ (apply_block run st b).1.head = b) ∨
      (apply_block run st b).2 = some thrown.bad_alloc ∨
      (apply_block run st b).2 = some (thrown.apply_exception b)) := by
  unfold apply_block
  cases run st b <;> simp

theorem pop_block_cases (st : controller_state) :
    (pop_block st).1.fork_db = st.fork_db ∧
    ((pop_block st).2 = none ∨ (pop_block st).2 = some thrown.block_validate_exception) := by
  unfold pop_block
  cases st.fork_db.get_block st.head.previous with
  | some prev =>
    dsimp only
    split_ifs <;> simp
  | none =>
    dsimp only
    split_ifs <;> simp

theorem pop_blocks_cases (k : Nat) (st : controller_state) :
    (pop_blocks k st).1.fork_db = st.fork_db ∧
    ((pop_blocks k st).2 = none ∨ (pop_blocks k st).2 = some thrown.block_validate_exception)
    := by
  induction k generalizing st with
  | zero => simp [pop_blocks]
  | succ k ih =>
    unfold pop_blocks
    obtain ⟨h1, h2⟩ := pop_block_cases st
    rcases hp : pop_block st with ⟨st1, _ | e⟩
    · rw [hp] at h1
      dsimp only at h1 ⊢
      rw [← h1]
      exact ih st1
    · rw [hp] at h1 h2
      dsimp only at h1 h2 ⊢
      exact ⟨h1, h2⟩

theorem apply_blocks_cases (run : controller_state → block_state_legacy → apply_result)
    (l : List block_state_legacy) (st : controller_state) :
    (apply_blocks run st l).1.fork_db = st.fork_db ∧
    (((apply_blocks run st l).2 = none ∧
        ∀ x, l.getLast? = some x → (apply_blocks run st l).1.head = x) ∨
      (apply_blocks run st l).2 = some thrown.bad_alloc ∨
      ∃ b ∈ l, (apply_blocks run st l).2 = some (thrown.apply_exception b)) := by
  induction l generalizing st with
  | nil => simp [apply_blocks]
  | cons b rest ih =>
    unfold apply_blocks
    obtain ⟨h1, h2⟩ := apply_block_cases run st b
    rcases hp : apply_block run st b with ⟨st1, _ | e⟩
    · rw [hp] at h1 h2
      dsimp only at h1 h2 ⊢
      obtain ⟨k1, k2⟩ := ih st1
      refine ⟨k1.trans h1, ?_⟩
      rcases k2 with ⟨k2, k3⟩ | k2 | ⟨x, hx, k2⟩
      · left
        refine ⟨k2, ?_⟩
        intro x hx
        cases rest with
        | nil =>
          simp only [List.getLast?_singleton, Option.some.injEq] at hx
          simp only [apply_blocks]
          rcases h2 with ⟨_, h2⟩ | h2 | h2
          · rw [h2, hx]
          · cases h2
          · cases h2
        | cons c rest2 =>
          apply k3
          rw [List.getLast?_cons_cons] at hx
          exact hx
      · right; left; exact k2
      · right; right; exact ⟨x, List.mem_cons_of_mem _ hx, k2⟩
    · rw [hp] at h1 h2
      dsimp only at h1 h2 ⊢
      refine ⟨h1, ?_⟩
      rcases h2 with ⟨h2, _⟩ | h2 | h2
      · cases h2
      · right; left; exact h2
      · right; right; exact ⟨b, List.mem_cons_self _ _, h2⟩

theorem head?_reverse_getLast? {α : Type} (l : List α) : l.reverse.getLast? = l.head? := by
  simp

/-- When the reversal of a failed switch ends by rethrowing the exception of
the bad block, the fork database has lost exactly the subtree of the bad
block and the head is the tip of the old branch. -/
theorem revert_switch_rethrow (run : controller_state → block_state_legacy → apply_result)
    (second : List block_state_legacy) (st st' : controller_state)
    (bad B : block_state_legacy) (applied : Nat) (hB : B ∉ second)
    (h : revert_switch run second st bad applied (thrown.apply_exception bad) =
      (st', some (thrown.apply_exception B))) :
    B = bad ∧ st'.fork_db = st.fork_db.remove bad.id ∧
    ∀ x, second.head? = some x → st'.head = x := by
  unfold revert_switch at h
  obtain ⟨p1, p2⟩ := pop_blocks_cases applied { st with fork_db := st.fork_db.remove bad.id }
  rcases hp : pop_blocks applied { st with fork_db := st.fork_db.remove bad.id }
    with ⟨st1, _ | e1⟩
  · rw [hp] at h p1
    dsimp only at h p1
    cases hl : second.getLast? with
    | none =>
      rw [hl] at h
      simp at h
    | some last =>
      rw [hl] at h
      dsimp only at h
      split_ifs at h with hid
      · obtain ⟨a1, a2⟩ := apply_blocks_cases run second.reverse st1
        rcases ha : apply_blocks run st1 second.reverse with ⟨st2, _ | e2⟩
        · rw [ha] at h a1 a2
          dsimp only at h a1 a2
          simp only [Prod.mk.injEq, Option.some.injEq, thrown.apply_exception.injEq] at h
          obtain ⟨hst, hb⟩ := h
          subst hst
          refine ⟨hb.symm, a1.trans p1, ?_⟩
          intro x hx
          rcases a2 with ⟨_, a3⟩ | a2 | ⟨b, _, a2⟩
          · exact a3 x (by rw [head?_reverse_getLast?]; exact hx)
          · cases a2
          · cases a2
        · rw [ha] at h a2
          dsimp only at h a2
          simp only [Prod.mk.injEq, Option.some.injEq] at h
          obtain ⟨_, he⟩ := h
          rcases a2 with ⟨a2, _⟩ | a2 | ⟨b, hb, a2⟩
          · cases a2
          · rw [he] at a2; simp at a2
          · rw [he] at a2
            simp only [Option.some.injEq, thrown.apply_exception.injEq] at a2
            rw [a2] at hB
            exact absurd (List.mem_reverse.mp hb) hB
      · simp at h
  · rw [hp] at h p2
    dsimp only at h p2
    simp only [Prod.mk.injEq, Option.some.injEq] at h
    rcases p2 with p2 | p2
    · cases p2
    · rw [h.2] at p2; simp at p2

/-- When the loop over the new branch ends with the exception that `apply_block`
threw on a block `B` that is not on the old branch, the fork database has lost
exactly the subtree of `B` and the head is the tip of the old branch. -/
theorem switch_apply_rethrow (run : controller_state → block_state_legacy → apply_result)
    (second : List block_state_legacy) (B : block_state_legacy) (hB : B ∉ second)
    (l : List block_state_legacy) :
    ∀ (st st' : controller_state) (applied : Nat),
      switch_apply run second st applied l = (st', some (thrown.apply_exception B)) →
      st'.fork_db = st.fork_db.remove B.id ∧ ∀ x, second.head? = some x → st'.head = x := by
  induction l with
  | nil =>
    intro st st' applied h
    simp [switch_apply] at h
  | cons b rest ih =>
    intro st st' applied h
    unfold switch_apply at h
    obtain ⟨a1, a2⟩ := apply_block_cases run st b
    rcases ha : apply_block run st b with ⟨st1, _ | e⟩
    · rw [ha] at h a1
      dsimp only at h a1
      obtain ⟨k1, k2⟩ := ih st1 st' (applied + 1) h
      rw [a1] at k1
      exact ⟨k1, k2⟩
    · rw [ha] at h a1 a2
      dsimp only at a1 a2
      rcases a2 with ⟨a2, _⟩ | a2 | a2
      · cases a2
      · simp only [Option.some.injEq] at a2
        subst a2
        simp at h
      · simp only [Option.some.injEq] at a2
        subst a2
        dsimp only at h
        obtain ⟨r1, r2, r3⟩ := revert_switch_rethrow run second st1 st' b B applied hB h
        rw [a1, ← r1] at r2
        exact ⟨r2, r3⟩

theorem pop_old_branch_cases (second : List block_state_legacy) (st : controller_state) :
    (pop_old_branch second st).1.fork_db = st.fork_db ∧
    ((pop_old_branch second st).2 = none ∨
      (pop_old_branch second st).2 = some thrown.block_validate_exception ∨
      (pop_old_branch second st).2 = some thrown.fork_database_exception) := by
  unfold pop_old_branch
  cases second.getLast? with
  | none => simp
  | some last =>
    dsimp only
    obtain ⟨p1, p2⟩ := pop_blocks_cases second.length st
    rcases hp : pop_blocks second.length st with ⟨st1, _ | e⟩
    · rw [hp] at p1
      dsimp only at p1 ⊢
      split_ifs <;> simp [p1]
    · rw [hp] at p1 p2
      dsimp only at p1 p2 ⊢
      rcases p2 with p2 | p2
      · cases p2
      · exact ⟨p1, Or.inr (Or.inl p2)⟩

theorem contains_id_of_mem (l : List block_state_legacy) (x : block_state_legacy)
    (hx : x ∈ l) : (l.map (fun y => y.id)).contains x.id = true := by
  rw [List.contains_iff_exists_mem_beq]
  exact ⟨x.id, List.mem_map.mpr ⟨x, hx, rfl⟩, by simp⟩

/-- The two branches returned by `fetch_branch_from` share no block. -/
theorem fetch_branch_from_disjoint (f : fork_database) (a b : Nat) (x : block_state_legacy)
    (hx : x ∈ (f.fetch_branch_from a b).1) : x ∉ (f.fetch_branch_from a b).2 := by
  unfold fork_database.fetch_branch_from at hx ⊢
  have h1 := (List.mem_filter.mp hx).2
  intro h2
  have h3 := contains_id_of_mem _ x (List.mem_filter.mp h2).1
  rw [h3] at h1
  cases h1

theorem branch_of_succ (f : fork_database) (n id : Nat) (b : block_state_legacy)
    (h : f.get_block id = some b) :
    f.branch_of (n + 1) id = b :: f.branch_of n b.previous := by
  simp only [fork_database.branch_of, h]

/-- The old branch returned by `fetch_branch_from` starts at the head when the
head is in the fork database and is not on the branch of the new head. -/
theorem fetch_branch_from_second_head (f : fork_database) (new_id : Nat)
    (head : block_state_legacy) (hhead : f.get_block head.id = some head)
    (hnot : ((f.branch_of f.index.length new_id).map (fun y => y.id)).contains head.id = false) :
    (f.fetch_branch_from new_id head.id).2.head? = some head := by
  have hpos : 0 < f.index.length := by
    unfold fork_database.get_block at hhead
    cases hidx : f.index with
    | nil => rw [hidx] at hhead; simp at hhead
    | cons a t => simp
  obtain ⟨n, hn⟩ : ∃ n, f.index.length = n + 1 := ⟨f.index.length - 1, by omega⟩
  unfold fork_database.fetch_branch_from
  rw [hn] at hnot ⊢
  rw [branch_of_succ f n head.id head hhead]
  rw [List.filter_cons_of_pos (by rw [hnot]; rfl)]
  rfl

/-- C10: in `maybe_switch_forks` on the fork-switching path (the new head is not
the child of the head), with the head in the fork database and not on the
branch of the new head: if the call ends by throwing the non-allocation
exception that `apply_block` threw on a block `B` of the new branch, then the
head is the head from before the call, the root of the fork database is
unchanged, and the fork database is the old one without the subtree of `B`: a
block is in it exactly when it was in the old one and `B` is not on its branch. -/
theorem maybe_switch_forks_failed_switch
    (run : controller_state → block_state_legacy → apply_result)
    (log_irreversible : controller_state → controller_state × Bool)
    (st st' : controller_state) (new_head B : block_state_legacy)
    (hprev : new_head.previous ≠ st.head.id)
    (hhead : st.fork_db.get_block st.head.id = some st.head)
    (hnot : ((st.fork_db.branch_of st.fork_db.index.length new_head.id).map
      (fun y => y.id)).contains st.head.id = false)
    (hB : B ∈ (st.fork_db.fetch_branch_from new_head.id st.head.id).1)
    (hres : maybe_switch_forks run log_irreversible st new_head =
      (st', some (thrown.apply_exception B))) :
    st'.head = st.head ∧ st'.fork_db.root = st.fork_db.root ∧
    st'.fork_db = st.fork_db.remove B.id ∧
    ∀ b, b ∈ st'.fork_db.index ↔
      (b ∈ st.fork_db.index ∧
        ((st.fork_db.branch_of st.fork_db.index.length b.id).map
          (fun y => y.id)).contains B.id = false) := by
  have hdis := fetch_branch_from_disjoint st.fork_db new_head.id st.head.id B hB
  have hsnd := fetch_branch_from_second_head st.fork_db new_head.id st.head hhead hnot
  unfold maybe_switch_forks at hres
  rw [if_neg hprev] at hres
  dsimp only at hres
  split_ifs at hres with hid
  · obtain ⟨p1, p2⟩ := pop_old_branch_cases
      (st.fork_db.fetch_branch_from new_head.id st.head.id).2 st
    rcases hp : pop_old_branch (st.fork_db.fetch_branch_from new_head.id st.head.id).2 st
      with ⟨st1, _ | e⟩
    · rw [hp] at hres p1
      dsimp only at hres p1
      rcases hs : switch_apply run (st.fork_db.fetch_branch_from new_head.id st.head.id).2 st1 0
        (st.fork_db.fetch_branch_from new_head.id st.head.id).1.reverse with ⟨st2, _ | e2⟩
      · rw [hs] at hres
        dsimp only at hres
        simp only [Prod.mk.injEq] at hres
        split_ifs at hres <;> simp at hres
      · rw [hs] at hres
        dsimp only at hres
        simp only [Prod.mk.injEq, Option.some.injEq] at hres
        obtain ⟨h1, h2⟩ := hres
        subst h1 h2
        obtain ⟨k1, k2⟩ := switch_apply_rethrow run _ B hdis _ st1 st2 0 hs
        rw [p1] at k1
        refine ⟨k2 _ hsnd, ?_, k1, ?_⟩
        · rw [k1]; rfl
        · intro b
          rw [k1]
          simp [fork_database.remove, List.mem_filter]
    · rw [hp] at hres p2
      dsimp only at hres p2
      simp only [Prod.mk.injEq, Option.some.injEq] at hres
      rcases p2 with p2 | p2 | p2
      · cases p2
      · rw [hres.2] at p2; simp at p2
      · rw [hres.2] at p2; simp at p2
  · simp at hres

theorem maybe_switch_forks_failed_switch_witness :
    maybe_switch_forks example_run (fun s => (s, false)) example_state ⟨14, 13, 4, true⟩ =
      (⟨⟨3, 2, 3, true⟩, ⟨⟨1, 0, 1, true⟩, [⟨2, 1, 2, true⟩, ⟨3, 2, 3, true⟩, ⟨12, 1, 2, true⟩]⟩⟩,
        some (thrown.apply_exception ⟨13, 12, 3, true⟩)) ∧
    (⟨⟨3, 2, 3, true⟩, ⟨⟨1, 0, 1, true⟩,
      [⟨2, 1, 2, true⟩, ⟨3, 2, 3, true⟩, ⟨12, 1, 2, true⟩]⟩⟩ : controller_state).head =
      example_state.head :=
  ⟨by decide,
    (maybe_switch_forks_failed_switch example_run (fun s => (s, false)) example_state
      ⟨⟨3, 2, 3, true⟩, ⟨⟨1, 0, 1, true⟩, [⟨2, 1, 2, true⟩, ⟨3, 2, 3, true⟩, ⟨12, 1, 2, true⟩]⟩⟩
      ⟨14, 13, 4, true⟩ ⟨13, 12, 3, true⟩ (by decide) (by decide) (by decide) (by decide)
      (by decide)).1⟩

end chain

namespace chain

/-! ## Theorems about the block restore point -/

theorem resize_append_length {α : Type} [Inhabited α] (l extra : List α) :
    resize (l ++ extra) l.length = l := by
  unfold resize
  simp

/-- C11: when a restore point is made on a building block and afterwards elements
are only appended to `pending_trx_receipts`, `pending_trx_metas`,
`action_receipt_digests` and, while `trx_mroot_or_receipt_digests` holds a digest
list, to that list, invoking the restore point gives back the building block as
it was when the restore point was made; and a `trx_mroot_or_receipt_digests`
that holds a checksum is left as it is by any restore point. -/
theorem restore_point_restores (bb later : building_block_common)
    (metas : List Nat) (receipts : List transaction_receipt) (actions : List Nat)
    (hf : later.new_protocol_feature_activations = bb.new_protocol_feature_activations)
    (hn : later.num_new_protocol_features_that_have_activated =
      bb.num_new_protocol_features_that_have_activated)
    (hm : later.pending_trx_metas = bb.pending_trx_metas ++ metas)
    (hr : later.pending_trx_receipts = bb.pending_trx_receipts ++ receipts)
    (ha : later.action_receipt_digests = bb.action_receipt_digests ++ actions)
    (ht : (∃ list extra, bb.trx_mroot_or_receipt_digests = checksum_or_digests.digests list ∧
        later.trx_mroot_or_receipt_digests = checksum_or_digests.digests (list ++ extra)) ∨
      (∃ mroot, bb.trx_mroot_or_receipt_digests = checksum_or_digests.checksum mroot ∧
        later.trx_mroot_or_receipt_digests = checksum_or_digests.checksum mroot)) :
    bb.make_block_restore_point.restore later = bb ∧
    ∀ (rp : block_restore_point) (other : building_block_common) (mroot : Nat),
      other.trx_mroot_or_receipt_digests = checksum_or_digests.checksum mroot →
      (rp.restore other).trx_mroot_or_receipt_digests = checksum_or_digests.checksum mroot := by
  constructor
  · obtain ⟨f, n, m, r, t, a⟩ := bb
    obtain ⟨f2, n2, m2, r2, t2, a2⟩ := later
    simp only at hf hn hm hr ha ht
    subst hf hn hm hr ha
    rcases ht with ⟨list, extra, h1, h2⟩ | ⟨mroot, h1, h2⟩
    · subst h1 h2
      simp [block_restore_point.restore, building_block_common.make_block_restore_point,
        resize_append_length]
    · subst h1 h2
      simp [block_restore_point.restore, building_block_common.make_block_restore_point,
        resize_append_length]
  · intro rp other mroot h
    simp [block_restore_point.restore, h]

theorem restore_point_restores_witness :
    push_receipt (fun r => r.trx + 1) ⟨[], 0, [7], [⟨1, 0, 10, 2⟩], checksum_or_digests.digests [2], [5]⟩
      3 0 20 16 =
      some ⟨[], 0, [7], [⟨1, 0, 10, 2⟩, ⟨3, 0, 20, 2⟩], checksum_or_digests.digests [2, 4], [5]⟩ ∧
    (building_block_common.make_block_restore_point
      ⟨[], 0, [7], [⟨1, 0, 10, 2⟩], checksum_or_digests.digests [2], [5]⟩).restore
      ⟨[], 0, [7, 8], [⟨1, 0, 10, 2⟩, ⟨3, 0, 20, 2⟩], checksum_or_digests.digests [2, 4], [5, 6]⟩ =
      ⟨[], 0, [7], [⟨1, 0, 10, 2⟩], checksum_or_digests.digests [2], [5]⟩ :=
  ⟨by decide,
    (restore_point_restores
      ⟨[], 0, [7], [⟨1, 0, 10, 2⟩], checksum_or_digests.digests [2], [5]⟩
      ⟨[], 0, [7, 8], [⟨1, 0, 10, 2⟩, ⟨3, 0, 20, 2⟩], checksum_or_digests.digests [2, 4], [5, 6]⟩
      [8] [⟨3, 0, 20, 2⟩] [6] rfl rfl rfl rfl rfl
      (Or.inl ⟨[2], [4], rfl, rfl⟩)).1⟩

end chain
namespace ordered_diff

/-! ## Theorems about `diff` on equal and on nearly equal sequences -/

theorem diff_loop_source_too_long {T : Type} [DecidableEq T] (m zmax : Nat) (source : List T)
    (hlen : zmax < source.length) :
    ∀ (fuel s : Nat) (res : diff_result T), s ≤ zmax →
      diff_loop m zmax source source fuel s s res = none := by
  intro fuel
  induction fuel with
  | zero =>
    intro s res hs
    unfold diff_loop
    rw [if_pos (Or.inl (by omega))]
  | succ fuel ih =>
    intro s res hs
    obtain ⟨a, ha⟩ : ∃ a, source[s]? = some a :=
      ⟨source[s], List.getElem?_eq_getElem (by omega)⟩
    unfold diff_loop
    rw [ha]
    dsimp only
    by_cases hz : s < zmax
    · rw [if_neg (by simp [hz]), if_pos rfl]
      exact ih (s + 1) res (by omega)
    · rw [if_pos (by simp [hz])]

theorem diff_loop_equal_tail {T : Type} [DecidableEq T] (m zmax : Nat) (source target : List T)
    (hsz : source.length ≤ zmax) :
    ∀ (fuel s : Nat) (res : diff_result T), source.length - s ≤ fuel →
      (∀ k, s ≤ k → source[k]? = target[k]?) →
      diff_loop m zmax source target fuel s s res = some res := by
  intro fuel
  induction fuel with
  | zero =>
    intro s res hf heq
    have hs : ¬ s < source.length := by omega
    have ht : ¬ s < target.length := by
      intro h
      have h1 := heq s (Nat.le_refl s)
      rw [List.getElem?_eq_none (by omega), List.getElem?_eq_getElem h] at h1
      cases h1
    unfold diff_loop
    rw [if_neg (by simp [hs, ht])]
  | succ fuel ih =>
    intro s res hf heq
    have h1 := heq s (Nat.le_refl s)
    unfold diff_loop
    rw [← h1]
    cases hs : source[s]? with
    | none => rfl
    | some a =>
      dsimp only
      have hlt : s < source.length := by
        by_contra hcon
        rw [List.getElem?_eq_none (by omega)] at hs
        cases hs
      rw [if_neg (by simp; omega), if_pos rfl]
      exact ih (s + 1) res (by omega) (fun k hk => heq k (by omega))

theorem diff_loop_equal_head {T : Type} [DecidableEq T] (m zmax : Nat) (source target : List T)
    (i : Nat) (hi : i < source.length) (hiz : i ≤ zmax)
    (heq : ∀ k, k < i → source[k]? = target[k]?) :
    ∀ (d fuel s : Nat) (res : diff_result T), s + d = i →
      diff_loop m zmax source target (fuel + d) s s res =
        diff_loop m zmax source target fuel i i res := by
  intro d
  induction d with
  | zero =>
    intro fuel s res hs
    have : s = i := by omega
    subst this
    rfl
  | succ d ih =>
    intro fuel s res hs
    have h1 := heq s (by omega)
    obtain ⟨a, ha⟩ : ∃ a, source[s]? = some a :=
      ⟨source[s], List.getElem?_eq_getElem (by omega)⟩
    rw [show fuel + (d + 1) = (fuel + d) + 1 by omega]
    conv_lhs => unfold diff_loop
    rw [← h1, ha]
    dsimp only
    rw [if_neg (by simp; omega), if_pos rfl]
    exact ih fuel (s + 1) res (by omega)

theorem diff_loop_replaced {T : Type} [DecidableEq T] (m zmax : Nat) (source : List T)
    (i : Nat) (v : T) (hi : i < source.length) (hv : v ≠ source[i])
    (hsz : source.length ≤ zmax) (hm : 1 ≤ m) (fuel : Nat) :
    diff_loop m zmax source (source.set i v) (fuel + 1) i i ⟨[], []⟩ =
      diff_loop m zmax source (source.set i v) fuel (i + 1) (i + 1) ⟨[i], [(i, v)]⟩ := by
  have hs : source[i]? = some source[i] := List.getElem?_eq_getElem hi
  have ht : (source.set i v)[i]? = some v := by
    rw [List.getElem?_set_self hi]
  have hnext : (source.set i v)[i + 1]? = source[i + 1]? := by
    rw [List.getElem?_set_ne (by omega)]
  conv_lhs => unfold diff_loop
  rw [hs, ht]
  dsimp only
  rw [if_neg (by simp; omega), if_neg (fun h => hv h.symm)]
  by_cases hend : i = source.length - 1
  · rw [if_pos (by simp [List.length_set]; exact hend), if_pos (by simp; omega)]
    rfl
  · rw [if_neg (by simp [List.length_set]; exact hend)]
    have hsome : source[i + 1]?.isSome = true := by
      rw [List.getElem?_eq_getElem (by omega)]
      rfl
    rw [if_pos ⟨hsome, by rw [hnext]; exact hsome, hnext.symm⟩, if_pos (by simp; omega)]
    rfl

/-- C19 (as stated, refuted): whatever the values of `MAX_NUM_ARRAY_ELEMENTS` and
of `std::numeric_limits<SizeType>::max()`, it is not so that `diff(x, x)` returns
two empty lists for every sequence `x`: on a sequence of more than
`std::numeric_limits<SizeType>::max()` elements `diff(x, x)` throws. -/
theorem diff_same_not_total :
    ¬ ∃ m zmax : Nat, ∀ x : List Nat, diff m zmax x x = some ⟨[], []⟩ := by
  rintro ⟨m, zmax, h⟩
  have hnone : diff m zmax (List.replicate (zmax + 1) 0) (List.replicate (zmax + 1) 0) = none :=
    diff_loop_source_too_long m zmax (List.replicate (zmax + 1) 0) (by simp) _ 0 ⟨[], []⟩
      (Nat.zero_le zmax)
  have := h (List.replicate (zmax + 1) 0)
  rw [hnone] at this
  cases this

/-- C19 (amended): for every sequence `x` of at most
`std::numeric_limits<SizeType>::max()` elements, `diff(x, x)` returns a result
whose `remove_indexes` and `insert_indexes` are both empty. -/
theorem diff_same_empty {T : Type} [DecidableEq T] (m zmax : Nat) (x : List T)
    (hx : x.length ≤ zmax) :
    diff m zmax x x = some ⟨[], []⟩ := by
  unfold diff
  exact diff_loop_equal_tail m zmax x x hx _ 0 ⟨[], []⟩ (by omega) (fun _ _ => rfl)

theorem diff_same_empty_witness :
    diff 4 255 ['a', 'b', 'f', 'c', 'd'] ['a', 'b', 'f', 'c', 'd'] = some ⟨[], []⟩ :=
  diff_same_empty 4 255 ['a', 'b', 'f', 'c', 'd'] (by decide)

/-- C20 (as stated, refuted): whatever the values of `MAX_NUM_ARRAY_ELEMENTS` and
of `std::numeric_limits<SizeType>::max()`, it is not so that for every source,
index `i` and value `v` different from `source[i]` the call
`diff(source, target)`, with target the source with position `i` replaced by `v`,
returns one remove and one insert: on a source of more than
`std::numeric_limits<SizeType>::max()` elements, replaced at its last position,
`diff` throws. -/
theorem diff_replace_not_total :
    ¬ ∃ m zmax : Nat, ∀ (source : List Nat) (i v : Nat) (hi : i < source.length),
      v ≠ source[i] → diff m zmax source (source.set i v) = some ⟨[i], [(i, v)]⟩ := by
  rintro ⟨m, zmax, h⟩
  have hlen : zmax < (List.replicate (zmax + 1) 0).length := by simp
  have h1 := h (List.replicate (zmax + 1) 0) zmax 1 hlen (by simp)
  have hhead := diff_loop_equal_head m zmax (List.replicate (zmax + 1) 0)
    ((List.replicate (zmax + 1) 0).set zmax 1) zmax hlen (Nat.le_refl zmax)
    (fun k hk => by rw [List.getElem?_set_ne (by omega)]) zmax (zmax + 1 + 1) 0 ⟨[], []⟩
    (Nat.zero_add zmax)
  have hs : (List.replicate (zmax + 1) 0)[zmax]? = some 0 := by
    rw [List.getElem?_eq_getElem hlen]
    simp
  have ht : ((List.replicate (zmax + 1) 0).set zmax 1)[zmax]? = some 1 := by
    rw [List.getElem?_set_self hlen]
  have hstep : diff_loop m zmax (List.replicate (zmax + 1) 0)
      ((List.replicate (zmax + 1) 0).set zmax 1) (zmax + 1 + 1) zmax zmax ⟨[], []⟩ = none := by
    conv_lhs => unfold diff_loop
    rw [hs, ht]
    dsimp only
    rw [if_pos (by simp)]
  unfold diff at h1
  rw [show (List.replicate (zmax + 1) 0).length +
      ((List.replicate (zmax + 1) 0).set zmax 1).length = zmax + 1 + 1 + zmax by
    simp only [List.length_set, List.length_replicate]; omega] at h1
  rw [hhead, hstep] at h1
  cases h1

/-- C20 (amended): for every source of at most
`std::numeric_limits<SizeType>::max()` elements, every index `i < source.size()`
and every value `v != source[i]`, provided `MAX_NUM_ARRAY_ELEMENTS >= 1`, if
target is source with the element at position `i` replaced by `v`, then
`diff(source, target)` has `remove_indexes == [i]` and
`insert_indexes == [(i, v)]`. -/
theorem diff_replace_one {T : Type} [DecidableEq T] (m zmax : Nat) (source : List T)
    (i : Nat) (v : T) (hi : i < source.length) (hv : v ≠ source[i])
    (hsz : source.length ≤ zmax) (hm : 1 ≤ m) :
    diff m zmax source (source.set i v) = some ⟨[i], [(i, v)]⟩ := by
  unfold diff
  rw [show source.length + (source.set i v).length = (source.length + source.length - i - 1) + 1 + i by
    simp only [List.length_set]; omega]
  rw [diff_loop_equal_head m zmax source (source.set i v) i hi (by omega)
    (fun k hk => by rw [List.getElem?_set_ne (by omega)]) i _ 0 ⟨[], []⟩ (Nat.zero_add i)]
  rw [diff_loop_replaced m zmax source i v hi hv hsz hm]
  exact diff_loop_equal_tail m zmax source (source.set i v) hsz _ (i + 1) _ (by omega)
    (fun k hk => by rw [List.getElem?_set_ne (by omega)])

theorem diff_replace_one_witness :
    (1 : Nat) < ['k', 'l', 'm'].length ∧
    diff 4 255 ['k', 'l', 'm'] (['k', 'l', 'm'].set 1 'x') = some ⟨[1], [(1, 'x')]⟩ :=
  ⟨by decide, diff_replace_one 4 255 ['k', 'l', 'm'] 1 'x' (by decide) (by decide) (by decide)
    (by decide)⟩

end ordered_diff
namespace chain

/-! ## Theorems about `emit` -/

/-- C18 (as stated, refuted): a `controller_emit_signal_exception` thrown by a signal
handler is not an allocation failure, and `emit` does not return normally on it:
it propagates to the caller. -/
theorem emit_rethrows_controller_emit_signal_exception :
    exception_type.controller_emit_signal_exception ≠ exception_type.std_bad_alloc ∧
    exception_type.controller_emit_signal_exception ≠ exception_type.interprocess_bad_alloc ∧
    emit (some exception_type.controller_emit_signal_exception) =
      some exception_type.controller_emit_signal_exception := by
  decide

/-- C18 (amended): `emit` swallows every exception thrown by a signal handler except
`std::bad_alloc`, `boost::interprocess::bad_alloc` and
`controller_emit_signal_exception`: for any other exception `emit` returns
normally, and each of these three propagates to the caller; without an
exception `emit` returns normally. -/
theorem emit_swallows_all_but_three (e : exception_type) :
    emit none = none ∧
    (emit (some e) = none ↔
      (e ≠ exception_type.std_bad_alloc ∧ e ≠ exception_type.interprocess_bad_alloc ∧
        e ≠ exception_type.controller_emit_signal_exception)) ∧
    (emit (some e) ≠ none → emit (some e) = some e) := by
  cases e <;> simp [emit]

/-! ## Theorems about `commit_block` -/

theorem commit_block_fork_db_pending (env : commit_env) (s : block_status)
    (c : controller_impl) (bsp : block_state_legacy) :
    (commit_block_fork_db env s c bsp).1.pending = c.pending := by
  unfold commit_block_fork_db
  split_ifs
  · split
    · rfl
    · split
      · rfl
      · split
        · rfl
        · split_ifs <;> rfl
  · split
    rfl
  · rfl

theorem commit_block_log_irreversible_pending (env : commit_env) (s : block_status)
    (c : controller_impl) :
    (commit_block_log_irreversible env s c).1.pending = c.pending := by
  unfold commit_block_log_irreversible
  split_ifs
  · split <;> rfl
  · rfl

theorem commit_block_try_pending (env : commit_env) (s : block_status) (c : controller_impl)
    (p : pending_state) : (commit_block_try env s c p).1.pending = c.pending := by
  unfold commit_block_try
  split
  · rename_i bsp _ _ _
    have h := commit_block_fork_db_pending env s c bsp
    split
    · rename_i c1 e h1
      rw [h1] at h
      exact h
    · rename_i c1 h1
      rw [h1] at h
      split
      · exact h
      · split
        · exact h
        · rw [commit_block_log_irreversible_pending]
          exact h
  · rfl
  · rfl

/-- C12: for every block status `s` and every pending state, after `commit_block(s)`
returns or throws there is no pending block; and when the pending stage is not
completed it throws `block_validate_exception` and leaves the state that
`abort_block` leaves. -/
theorem commit_block_clears_pending (env : commit_env) (s : block_status)
    (c : controller_impl) (p : pending_state) (hp : c.pending = some p) :
    (commit_block env s c).1.pending = none ∧
    ((∀ cb, p._block_stage ≠ block_stage_type.completed cb) →
      commit_block env s c =
        ((abort_block c).1, some exception_type.block_validate_exception) ∧
      (abort_block c).1.pending = none) := by
  constructor
  · unfold commit_block
    rw [hp]
    dsimp only
    have h := commit_block_try_pending env s c p
    split
    · rename_i c1 e h1
      rw [h1, hp] at h
      dsimp only at h ⊢
      unfold abort_block
      rw [h]
    · rfl
  · intro hstage
    have htry : commit_block_try env s c p =
        (c, some exception_type.block_validate_exception) := by
      unfold commit_block_try
      split
      · rename_i bsp a b hst
        exact absurd hst (hstage _)
      · rename_i bsp hst
        exact absurd hst (hstage _)
      · rfl
    constructor
    · unfold commit_block
      rw [hp]
      dsimp only
      rw [htry]
    · unfold abort_block
      rw [hp]

theorem commit_block_clears_pending_witness :
    (commit_block ⟨fun f _ => (f, none), fun f _ => (f, none), fun _ => ⟨3, 2, 3, true⟩,
        fun _ => none, fun _ => none, fun _ => none, fun f => (f, none), none, none⟩
      block_status.incomplete example_dpos_controller).1.pending = none ∧
    (commit_block ⟨fun f _ => (f, none), fun f _ => (f, none), fun _ => ⟨3, 2, 3, true⟩,
        fun _ => none, fun _ => none, fun _ => none, fun f => (f, none), none, none⟩
      block_status.incomplete example_dpos_controller).2 =
      some exception_type.block_validate_exception :=
  have h := commit_block_clears_pending
    ⟨fun f _ => (f, none), fun f _ => (f, none), fun _ => ⟨3, 2, 3, true⟩,
      fun _ => none, fun _ => none, fun _ => none, fun f => (f, none), none, none⟩
    block_status.incomplete example_dpos_controller _ rfl
  ⟨h.1, by rw [(h.2 (by intro cb hcb; cases hcb)).1]⟩

/-! ## Theorems about `finalize_block` -/

/-- C13 (as stated, refuted): on the controller whose pending stage is a building
block of the instant-finality variant, a `finalize_block` in which nothing throws
returns without error and leaves the stage building, with the digests moved out:
`bb.apply_dpos<void>(...)` does nothing for `building_block_if`. -/
theorem finalize_block_if_stays_building :
    example_if_controller.pending =
      some ⟨block_stage_type.building (building_block.of_if
        ⟨⟨[], 0, [7], [⟨1, 0, 10, 2⟩], checksum_or_digests.digests [2], [5]⟩, 3, 100, [], 4⟩),
        block_status.incomplete⟩ ∧
    (finalize_block example_finalize_env example_if_controller).2 = none ∧
    (finalize_block example_finalize_env example_if_controller).1.pending =
      some ⟨block_stage_type.building (building_block.of_if
        ⟨⟨[], 0, [7], [⟨1, 0, 10, 2⟩], checksum_or_digests.digests [], []⟩, 3, 100, [], 4⟩),
        block_status.incomplete⟩ :=
  ⟨rfl, rfl, rfl⟩

/-- C13 (amended): for every pending state whose stage is a building block of the
DPoS variant, a `finalize_block` that returns without error leaves the pending
stage assembled, holding the block made from that building block, and keeps the
block status; for every pending state whose stage is a building block of the
instant-finality variant, a `finalize_block` that returns without error leaves
the stage building. -/
theorem finalize_block_dpos_assembled (env : finalize_env) (c : controller_impl)
    (p : pending_state) (hp : c.pending = some p)
    (hok : (finalize_block env c).2 = none) :
    (∀ bb : building_block_dpos,
      p._block_stage = block_stage_type.building (building_block.of_dpos bb) →
      (finalize_block env c).1.pending =
        some ⟨block_stage_type.assembled (assembled_block.of_dpos (finalize_block_dpos env bb)),
          p._block_status⟩) ∧
    (∀ bb : building_block_if,
      p._block_stage = block_stage_type.building (building_block.of_if bb) →
      (finalize_block env c).1.pending =
        some ⟨block_stage_type.building (building_block.of_if
          ⟨bb.common.moved_digests, bb.parent_id, bb.timestamp,
            bb.prev_activated_protocol_features, bb.block_num⟩), p._block_status⟩) := by
  constructor
  · intro bb hs
    unfold finalize_block at hok ⊢
    rw [hp] at hok ⊢
    simp only [hs] at hok ⊢
    cases hr : env.resource_limits with
    | some e => rw [hr] at hok; cases hok
    | none =>
      rw [hr] at hok
      cases hm : env.make_block with
      | some e => rw [hm] at hok; cases hok
      | none => rfl
  · intro bb hs
    unfold finalize_block
    rw [hp]
    simp only [hs]

theorem finalize_block_dpos_assembled_witness :
    (finalize_block example_finalize_env example_dpos_controller).2 = none ∧
    (finalize_block example_finalize_env example_dpos_controller).1.pending =
      some ⟨block_stage_type.assembled (assembled_block.of_dpos
        ⟨4, ⟨4, [], [1, 2, 3, 4]⟩, [], ⟨4, 1, 1, none, [], []⟩, none⟩),
        block_status.incomplete⟩ :=
  ⟨rfl,
    (finalize_block_dpos_assembled example_finalize_env example_dpos_controller _ rfl rfl).1
      _ rfl⟩

/-! ## Theorems about `log_irreversible` -/

theorem log_irreversible_loop_appended (env : log_irreversible_env) :
    ∀ (l : List block_state_legacy) (blog : block_log) (root_id : Nat),
      (∃ k, (log_irreversible_loop env l blog root_id).1.appended =
        blog.appended ++ l.take k) ∧
      ((log_irreversible_loop env l blog root_id).2.2 = none →
        (log_irreversible_loop env l blog root_id).1.appended = blog.appended ++ l) := by
  intro l
  induction l with
  | nil =>
    intro blog root_id
    exact ⟨⟨0, by simp [log_irreversible_loop]⟩, fun _ => by simp [log_irreversible_loop]⟩
  | cons b rest ih =>
    intro blog root_id
    unfold log_irreversible_loop
    split
    · exact ⟨⟨0, by simp⟩, fun h => by cases h⟩
    · split
      · exact ⟨⟨0, by simp⟩, fun h => by cases h⟩
      · split
        · exact ⟨⟨0, by simp⟩, fun h => by cases h⟩
        · split
          · exact ⟨⟨1, by simp⟩, fun h => by cases h⟩
          · obtain ⟨⟨k, hk⟩, hall⟩ := ih
              { head_id := some b.id, first_block_num := blog.first_block_num,
                appended := blog.appended ++ [b] } b.id
            refine ⟨⟨k + 1, ?_⟩, fun h => ?_⟩
            · rw [hk]
              simp
            · rw [hall h]
              simp

/-- C14 (as stated, refuted): with `hs_irreversible_block_num == 2` and a fork
database head (block 14, number 4) whose `dpos_irreversible_blocknum` is 4, the
block log head being block 1, `log_irreversible` makes the head branch
irreversible up to block number 2 and not up to `max(4, 2) == 4`: only block 12
(number 2) is appended to the block log. -/
theorem log_irreversible_not_max :
    log_irreversible_new_lib example_log_irreversible_env ≠
      max example_log_irreversible_env.dpos_irreversible_blocknum
        example_log_irreversible_env.hs_irreversible_block_num ∧
    (log_irreversible example_log_irreversible_env example_fork_db ⟨some 1, 1, []⟩).2.1.appended =
      [⟨12, 1, 2, true⟩] ∧
    (example_fetch_branch example_fork_db 14 4).reverse =
      [⟨12, 1, 2, true⟩, ⟨13, 12, 3, true⟩, ⟨14, 13, 4, true⟩] := by
  decide

/-- C14 (amended): in `log_irreversible` the block number up to which the head
branch is made irreversible is `hs_irreversible_block_num` when that is greater
than 0 and the `dpos_irreversible_blocknum` of the fork database head otherwise:
the blocks appended to the block log are the first blocks, from the oldest on,
of the branch fetched up to that number, and all of them when the number is
greater than the block log head number and nothing throws; nothing is made
irreversible when that number is `<=` the block log head number. -/
theorem log_irreversible_up_to_new_lib (env : log_irreversible_env) (f : fork_database)
    (blog : block_log) :
    (∃ k, (log_irreversible env f blog).2.1.appended = blog.appended ++
      ((env.fetch_branch f env.fork_head.id
        (if env.hs_irreversible_block_num > 0 then env.hs_irreversible_block_num
          else env.dpos_irreversible_blocknum)).reverse.take k)) ∧
    ((log_irreversible env f blog).2.2 = none →
      log_irreversible_lib_num env blog <
        (if env.hs_irreversible_block_num > 0 then env.hs_irreversible_block_num
          else env.dpos_irreversible_blocknum) →
      (log_irreversible env f blog).2.1.appended = blog.appended ++
        (env.fetch_branch f env.fork_head.id
          (if env.hs_irreversible_block_num > 0 then env.hs_irreversible_block_num
            else env.dpos_irreversible_blocknum)).reverse) ∧
    ((if env.hs_irreversible_block_num > 0 then env.hs_irreversible_block_num
        else env.dpos_irreversible_blocknum) ≤ log_irreversible_lib_num env blog →
      (log_irreversible env f blog).1 = f ∧ (log_irreversible env f blog).2.1 = blog) := by
  have hloop := log_irreversible_loop_appended env
    (env.fetch_branch f env.fork_head.id (log_irreversible_new_lib env)).reverse blog f.root.id
  have hnew : (if env.hs_irreversible_block_num > 0 then env.hs_irreversible_block_num
      else env.dpos_irreversible_blocknum) = log_irreversible_new_lib env := rfl
  rw [hnew]
  unfold log_irreversible
  generalize log_irreversible_loop env
    (env.fetch_branch f env.fork_head.id (log_irreversible_new_lib env)).reverse blog
    f.root.id = res at hloop ⊢
  obtain ⟨blog1, root_id, e⟩ := res
  obtain ⟨⟨k, hk⟩, hall⟩ := hloop
  dsimp only at hk hall
  by_cases h1 : ¬ (log_irreversible_root_ok env f blog = true)
  · rw [if_pos h1]
    exact ⟨⟨0, by simp⟩, fun h => (by cases h), fun _ => ⟨rfl, rfl⟩⟩
  · rw [if_neg h1]
    by_cases h2 : log_irreversible_new_lib env ≤ log_irreversible_lib_num env blog
    · rw [if_pos h2]
      exact ⟨⟨0, by simp⟩, fun _ hlt => (by omega), fun _ => ⟨rfl, rfl⟩⟩
    · rw [if_neg h2]
      cases e with
      | none =>
        refine ⟨⟨k, ?_⟩, fun _ _ => ?_, fun hle => absurd hle h2⟩
        · dsimp only
          split_ifs <;> exact hk
        · dsimp only
          split_ifs <;> exact hall rfl
      | some e =>
        refine ⟨⟨k, ?_⟩, fun h _ => ?_, fun hle => absurd hle h2⟩
        · dsimp only
          split_ifs <;> exact hk
        · dsimp only at h
          split_ifs at h

theorem log_irreversible_up_to_new_lib_witness :
    ((log_irreversible example_log_irreversible_env example_fork_db ⟨some 2, 1, []⟩).1 =
        example_fork_db ∧
      (log_irreversible example_log_irreversible_env example_fork_db ⟨some 2, 1, []⟩).2.1 =
        ⟨some 2, 1, []⟩) ∧
    (log_irreversible_root_ok example_settled_log_irreversible_env example_fork_db
        ⟨some 1, 1, []⟩ = true ∧
      (log_irreversible example_settled_log_irreversible_env example_fork_db
        ⟨some 1, 1, []⟩).2.2 = none ∧
      (log_irreversible example_settled_log_irreversible_env example_fork_db
        ⟨some 1, 1, []⟩).1 = example_fork_db ∧
      (log_irreversible example_settled_log_irreversible_env example_fork_db
        ⟨some 1, 1, []⟩).2.1 = ⟨some 1, 1, []⟩) ∧
    (log_irreversible example_log_irreversible_env example_fork_db ⟨some 1, 1, []⟩).2.1.appended =
      [] ++ [⟨12, 1, 2, true⟩] :=
  ⟨(log_irreversible_up_to_new_lib example_log_irreversible_env example_fork_db
      ⟨some 2, 1, []⟩).2.2 (by decide),
    ⟨by decide, by decide,
      (log_irreversible_up_to_new_lib example_settled_log_irreversible_env example_fork_db
        ⟨some 1, 1, []⟩).2.2 (by decide)⟩,
    (log_irreversible_up_to_new_lib example_log_irreversible_env example_fork_db
      ⟨some 1, 1, []⟩).2.1 (by decide) (by decide)⟩

/-! ## Theorems about `update_producers_authority` -/

/-- C15 (as stated, refuted): with the four active producers 1, 2, 3 and 4,
`update_producers_authority` sets the thresholds of the active, majority and
minority permissions to 3, 3 and 2, whereas `ceil(2N/3)+1`, `ceil(N/2)+1` and
`ceil(N/3)+1` are 4, 3 and 3. -/
theorem update_producers_authority_not_ceil :
    (update_producers_authority example_dpos_controller example_permissions).1.active.threshold
      ≠ ceil_div (2 * 4) 3 + 1 ∧
    (update_producers_authority example_dpos_controller
      example_permissions).1.minority_producers.threshold ≠ ceil_div 4 3 + 1 ∧
    update_producers_authority example_dpos_controller example_permissions =
      (⟨⟨3, [], [(1, 1), (2, 1), (3, 1), (4, 1)], []⟩,
        ⟨3, [], [(1, 1), (2, 1), (3, 1), (4, 1)], []⟩,
        ⟨2, [], [(1, 1), (2, 1), (3, 1), (4, 1)], []⟩⟩, none) := by
  decide

theorem update_permission_eq (producers : List Nat) (permission : authority) (threshold : Nat) :
    update_permission producers permission threshold =
      ⟨threshold, [], producers.map (fun p => (p, 1)), []⟩ := by
  unfold update_permission
  split_ifs with h
  · rfl
  · exact not_not.mp h

/-- C15 (amended): for a pending DPoS building block with `N` active producers,
`2 * N < 2^32`, `update_producers_authority` sets the threshold of the producers
account's active permission to `floor(2N/3)+1`, of its majority permission to
`floor(N/2)+1` and of its minority permission to `floor(N/3)+1`, each authority
listing every active producer with weight 1. -/
theorem update_producers_authority_thresholds (c : controller_impl) (p : pending_state)
    (dpos_header : building_block_dpos) (perms : producers_permissions)
    (hp : c.pending = some p)
    (hstage : p._block_stage = block_stage_type.building (building_block.of_dpos dpos_header))
    (hn : 2 * dpos_header.pending_block_header_state.active_schedule.length < 4294967296) :
    update_producers_authority c perms =
      (⟨⟨2 * dpos_header.pending_block_header_state.active_schedule.length / 3 + 1, [],
          dpos_header.pending_block_header_state.active_schedule.map (fun a => (a, 1)), []⟩,
        ⟨dpos_header.pending_block_header_state.active_schedule.length / 2 + 1, [],
          dpos_header.pending_block_header_state.active_schedule.map (fun a => (a, 1)), []⟩,
        ⟨dpos_header.pending_block_header_state.active_schedule.length / 3 + 1, [],
          dpos_header.pending_block_header_state.active_schedule.map (fun a => (a, 1)), []⟩⟩,
        none) := by
  have h0 : dpos_header.pending_block_header_state.active_schedule.length % 4294967296 =
      dpos_header.pending_block_header_state.active_schedule.length :=
    Nat.mod_eq_of_lt (by omega)
  have h23 : calculate_threshold
      dpos_header.pending_block_header_state.active_schedule.length 2 3 =
      2 * dpos_header.pending_block_header_state.active_schedule.length / 3 + 1 := by
    unfold calculate_threshold
    rw [Nat.mod_eq_of_lt (by omega), Nat.mod_eq_of_lt (by omega), Nat.mul_comm]
  have h12 : calculate_threshold
      dpos_header.pending_block_header_state.active_schedule.length 1 2 =
      dpos_header.pending_block_header_state.active_schedule.length / 2 + 1 := by
    unfold calculate_threshold
    rw [Nat.mul_one, Nat.mod_eq_of_lt (by omega), Nat.mod_eq_of_lt (by omega)]
  have h13 : calculate_threshold
      dpos_header.pending_block_header_state.active_schedule.length 1 3 =
      dpos_header.pending_block_header_state.active_schedule.length / 3 + 1 := by
    unfold calculate_threshold
    rw [Nat.mul_one, Nat.mod_eq_of_lt (by omega), Nat.mod_eq_of_lt (by omega)]
  unfold update_producers_authority
  rw [hp]
  dsimp only
  rw [hstage]
  dsimp only
  rw [h0, h23, h12, h13, update_permission_eq, update_permission_eq, update_permission_eq]

theorem update_producers_authority_thresholds_witness :
    update_producers_authority example_dpos_controller example_permissions =
      (⟨⟨2 * 4 / 3 + 1, [], [(1, 1), (2, 1), (3, 1), (4, 1)], []⟩,
        ⟨4 / 2 + 1, [], [(1, 1), (2, 1), (3, 1), (4, 1)], []⟩,
        ⟨4 / 3 + 1, [], [(1, 1), (2, 1), (3, 1), (4, 1)], []⟩⟩, none) :=
  update_producers_authority_thresholds example_dpos_controller _
    ⟨example_building_block_common, ⟨4, [], [1, 2, 3, 4]⟩, none⟩ example_permissions rfl rfl
    (by decide)

/-! ## Theorems about `preactivate_feature` -/

/-- C16: when the protocol feature set reports a digest as unrecognized, disabled or
too early for the pending block time, `preactivate_feature` throws
`subjective_block_production_exception` if the pending block is speculative
(status incomplete or ephemeral) and `protocol_feature_bad_block_exception`
otherwise, and leaves the pre-activated feature list unchanged. -/
theorem preactivate_feature_not_ready (env : preactivate_env) (c : controller_impl)
    (p : pending_state) (preactivated : List Nat) (feature_digest : Nat)
    (hp : c.pending = some p)
    (hr : env.is_recognized feature_digest = recognized_t.unrecognized ∨
      env.is_recognized feature_digest = recognized_t.disabled ∨
      env.is_recognized feature_digest = recognized_t.too_early) :
    preactivate_feature env c preactivated feature_digest =
      (preactivated,
        some (if p._block_status = block_status.incomplete ∨
            p._block_status = block_status.ephemeral then
          exception_type.subjective_block_production_exception
        else exception_type.protocol_feature_bad_block_exception)) := by
  have hspec : is_speculative_block c =
      decide (p._block_status = block_status.incomplete ∨
        p._block_status = block_status.ephemeral) := by
    unfold is_speculative_block
    rw [hp]
    simp
  unfold preactivate_feature
  rw [hp]
  dsimp only
  rcases hr with h | h | h <;>
  · rw [h]
    dsimp only
    rw [hspec]
    by_cases hs : p._block_status = block_status.incomplete ∨
        p._block_status = block_status.ephemeral
    · rw [if_pos (by simpa using hs), if_pos hs]
    · rw [if_neg (by simpa using hs), if_neg hs]

theorem preactivate_feature_not_ready_witness :
    preactivate_feature ⟨fun _ => recognized_t.disabled, fun _ _ => true, []⟩
      example_dpos_controller [5] 7 =
      ([5], some exception_type.subjective_block_production_exception) ∧
    preactivate_feature ⟨fun _ => recognized_t.too_early, fun _ _ => true, []⟩
      ⟨some ⟨block_stage_type.assembled (assembled_block.of_if ⟨[], []⟩),
        block_status.complete⟩, ⟨3, 2, 3, true⟩, example_fork_db⟩ [5] 7 =
      ([5], some exception_type.protocol_feature_bad_block_exception) :=
  ⟨preactivate_feature_not_ready ⟨fun _ => recognized_t.disabled, fun _ _ => true, []⟩
      example_dpos_controller _ [5] 7 rfl (Or.inr (Or.inl rfl)),
    rfl⟩

/-- C17 (as stated, refuted): with the pending block in the assembled stage, for a
ready digest that is already in the pre-activated list, `preactivate_feature`
throws `misc_exception` (from `is_protocol_feature_activated`) and not
`protocol_feature_exception`. -/
theorem preactivate_feature_assembled_stage :
    example_preactivate_env.is_recognized 7 = recognized_t.ready ∧
    7 ∈ [5, 7] ∧
    preactivate_feature example_preactivate_env example_assembled_controller [5, 7] 7 =
      ([5, 7], some exception_type.misc_exception) ∧
    exception_type.misc_exception ≠ exception_type.protocol_feature_exception := by
  decide

theorem preactivate_feature_cases (env : preactivate_env) (c : controller_impl)
    (preactivated : List Nat) (feature_digest : Nat) :
    (∃ e, preactivate_feature env c preactivated feature_digest = (preactivated, some e)) ∨
    (preactivate_feature env c preactivated feature_digest =
        (preactivated ++ [feature_digest], none) ∧ feature_digest ∉ preactivated) := by
  unfold preactivate_feature
  cases c.pending with
  | none => exact Or.inl ⟨_, rfl⟩
  | some p =>
    dsimp only
    cases env.is_recognized feature_digest with
    | ready =>
      dsimp only
      cases is_protocol_feature_activated env c feature_digest with
      | error e => exact Or.inl ⟨_, rfl⟩
      | ok b =>
        cases b with
        | true => exact Or.inl ⟨_, rfl⟩
        | false =>
          dsimp only
          by_cases hm : feature_digest ∈ preactivated
          · rw [if_pos hm]
            exact Or.inl ⟨_, rfl⟩
          · rw [if_neg hm]
            split_ifs
            · exact Or.inr ⟨rfl, hm⟩
            · exact Or.inl ⟨_, rfl⟩
    | unrecognized =>
      dsimp only
      split_ifs <;> exact Or.inl ⟨_, rfl⟩
    | disabled =>
      dsimp only
      split_ifs <;> exact Or.inl ⟨_, rfl⟩
    | too_early =>
      dsimp only
      split_ifs <;> exact Or.inl ⟨_, rfl⟩

theorem is_protocol_feature_activated_ok (env : preactivate_env) (c : controller_impl)
    (p : pending_state) (d : Nat) (hp : c.pending = some p)
    (hstage : ∀ ab, p._block_stage ≠ block_stage_type.assembled ab) :
    ∃ b, is_protocol_feature_activated env c d = Except.ok b := by
  unfold is_protocol_feature_activated
  rw [hp]
  dsimp only
  unfold pending_state.is_protocol_feature_activated
  split
  · exact ⟨_, rfl⟩
  · rename_i ab hst
    exact absurd hst (hstage ab)
  · exact ⟨_, rfl⟩

/-- C17 (amended): for a ready digest and a pending block that is not in the
assembled stage, `preactivate_feature` throws `protocol_feature_exception` and
leaves the pre-activated list unchanged when the digest is already activated or
already in the pre-activated list; whenever it succeeds it appends exactly that
digest, which was not in the list, to the end of the list, and whenever it
throws the list is unchanged; so a list without duplicates stays without
duplicates. -/
theorem preactivate_feature_ready (env : preactivate_env) (c : controller_impl)
    (preactivated : List Nat) (feature_digest : Nat) :
    (∀ p, c.pending = some p → (∀ ab, p._block_stage ≠ block_stage_type.assembled ab) →
      env.is_recognized feature_digest = recognized_t.ready →
      (is_protocol_feature_activated env c feature_digest = Except.ok true ∨
        feature_digest ∈ preactivated) →
      preactivate_feature env c preactivated feature_digest =
        (preactivated, some exception_type.protocol_feature_exception)) ∧
    ((preactivate_feature env c preactivated feature_digest).2 = none →
      (preactivate_feature env c preactivated feature_digest).1 =
        preactivated ++ [feature_digest] ∧ feature_digest ∉ preactivated) ∧
    ((preactivate_feature env c preactivated feature_digest).2 ≠ none →
      (preactivate_feature env c preactivated feature_digest).1 = preactivated) ∧
    (preactivated.Nodup →
      (preactivate_feature env c preactivated feature_digest).1.Nodup) := by
  refine ⟨?_, ?_, ?_, ?_⟩
  · intro p hp hstage hr hact
    obtain ⟨b, hb⟩ := is_protocol_feature_activated_ok env c p feature_digest hp hstage
    unfold preactivate_feature
    rw [hp]
    dsimp only
    rw [hr]
    dsimp only
    rw [hb]
    cases b with
    | true => rfl
    | false =>
      dsimp only
      rcases hact with h | h
      · rw [hb] at h
        cases h
      · rw [if_pos h]
  · intro hnone
    rcases preactivate_feature_cases env c preactivated feature_digest with ⟨e, he⟩ | ⟨h, hm⟩
    · rw [he] at hnone
      cases hnone
    · rw [h]
      exact ⟨rfl, hm⟩
  · intro hsome
    rcases preactivate_feature_cases env c preactivated feature_digest with ⟨e, he⟩ | ⟨h, hm⟩
    · rw [he]
    · rw [h] at hsome
      exact absurd rfl hsome
  · intro hnd
    rcases preactivate_feature_cases env c preactivated feature_digest with ⟨e, he⟩ | ⟨h, hm⟩
    · rw [he]
      exact hnd
    · rw [h]
      exact List.nodup_append.mpr ⟨hnd, List.nodup_singleton _, by simpa using hm⟩

theorem preactivate_feature_ready_witness :
    preactivate_feature example_preactivate_env example_dpos_controller [5, 7] 7 =
      ([5, 7], some exception_type.protocol_feature_exception) ∧
    preactivate_feature example_preactivate_env example_dpos_controller [5, 7] 9 =
      ([5, 7, 9], none) :=
  ⟨(preactivate_feature_ready example_preactivate_env example_dpos_controller [5, 7] 7).1 _ rfl
      (by intro ab h; cases h) rfl (Or.inr (by decide)),
    by decide⟩

end chain

namespace chain

/-! ## Theorems about light validation -/

/-- C30: `light_validation_allowed()`, and so `skip_auth_check()` and
`skip_trx_checks()`, returns false when there is no pending block, when
`in_trx_requiring_checks` is set, and when the pending block is speculative
(status incomplete or ephemeral), whatever `force_all_checks`,
`block_validation_mode` and `trusted_producer_light_validation` are. -/
theorem light_validation_not_allowed (c : controller_impl) (flags : validation_flags)
    (h : c.pending = none ∨ flags.in_trx_requiring_checks = true ∨
      is_speculative_block c = true) :
    light_validation_allowed c flags = false ∧ skip_auth_check c flags = false ∧
      skip_trx_checks c flags = false := by
  have hl : light_validation_allowed c flags = false := by
    unfold light_validation_allowed
    cases hp : c.pending with
    | none => rfl
    | some p =>
      dsimp only
      rcases h with h | h | h
      · rw [hp] at h
        cases h
      · rw [if_pos h]
      · unfold is_speculative_block at h
        rw [hp] at h
        dsimp only at h
        split_ifs
        · rfl
        · cases hs : p._block_status <;> rw [hs] at h <;> simp at h ⊢
  exact ⟨hl, hl, hl⟩

theorem light_validation_not_allowed_witness :
    is_speculative_block example_dpos_controller = true ∧
    light_validation_allowed example_dpos_controller ⟨false, false, validation_mode.LIGHT, true⟩ =
      false :=
  ⟨by decide,
    (light_validation_not_allowed example_dpos_controller
      ⟨false, false, validation_mode.LIGHT, true⟩ (Or.inr (Or.inr (by decide)))).1⟩

/-! ## Theorems about the finalizer policy change -/

theorem activate_generation_le (k : Nat) (l : List policy_in_flight) :
    ∀ a : finalizer_policy,
      a.generation ≤ (l.foldl (policy_in_flight.activate k) a).generation := by
  induction l with
  | nil => intro a; exact Nat.le_refl _
  | cons x t ih =>
    intro a
    rw [List.foldl_cons]
    refine le_trans ?_ (ih _)
    unfold policy_in_flight.activate
    split_ifs
    · exact Nat.le_succ _
    · exact Nat.le_refl _

theorem activate_none (k : Nat) (l : List policy_in_flight)
    (h : ∀ x ∈ l, x.becomes_active k = false) :
    ∀ a : finalizer_policy, l.foldl (policy_in_flight.activate k) a = a := by
  induction l with
  | nil => intro a; rfl
  | cons x t ih =>
    intro a
    rw [List.foldl_cons]
    have hx : policy_in_flight.activate k a x = a := by
      unfold policy_in_flight.activate
      rw [h x (List.mem_cons_self x t)]
      rfl
    rw [hx]
    exact ih (fun y hy => h y (List.mem_cons_of_mem x hy)) a

theorem activate_one (k : Nat) (p : policy_in_flight) (hp : p.becomes_active k = true) :
    ∀ (l : List policy_in_flight),
      l.Pairwise (fun a b => a.proposed_block < b.proposed_block) →
      (∀ x ∈ l, x.becomes_active k = true → x.proposed_block = p.proposed_block) →
      p ∈ l →
      ∀ a : finalizer_policy,
        l.foldl (policy_in_flight.activate k) a = ⟨a.generation + 1, p.finalizers⟩ := by
  intro l
  induction l with
  | nil => intro _ _ hmem; cases hmem
  | cons x t ih =>
    intro hpw hall hmem a
    rw [List.foldl_cons]
    obtain ⟨hxt, hpt⟩ := List.pairwise_cons.mp hpw
    rcases List.mem_cons.mp hmem with hpx | hpt2
    · subst hpx
      have hx : policy_in_flight.activate k a p = ⟨a.generation + 1, p.finalizers⟩ := by
        unfold policy_in_flight.activate
        rw [hp]
        rfl
      rw [hx]
      apply activate_none
      intro y hy
      cases hya : y.becomes_active k with
      | false => rfl
      | true =>
        have h1 := hall y (List.mem_cons_of_mem p hy) hya
        have h2 := hxt y hy
        omega
    · have hxa : x.becomes_active k = false := by
        cases hxa : x.becomes_active k with
        | false => rfl
        | true =>
          have h1 := hall x (List.mem_cons_self x t) hxa
          have h2 := hxt p hpt2
          omega
      have hx : policy_in_flight.activate k a x = a := by
        unfold policy_in_flight.activate
        rw [hxa]
        rfl
      rw [hx]
      exact ih hpt (fun y hy => hall y (List.mem_cons_of_mem x hy)) hpt2 a

theorem becomes_active_iff (p : policy_in_flight) (k : Nat) :
    p.becomes_active k = true ↔ ∃ pb, p.pending_block = some pb ∧ pb + 3 ≤ k := by
  unfold policy_in_flight.becomes_active final_as_of
  cases p.pending_block with
  | none => simp
  | some pb => simp

theorem next_proposed_block (p : policy_in_flight) (k : Nat) :
    (p.next k).proposed_block = p.proposed_block ∧ (p.next k).finalizers = p.finalizers := by
  unfold policy_in_flight.next
  split_ifs <;> exact ⟨rfl, rfl⟩

theorem policy_in_flight_next_wf (n : Nat) (p : policy_in_flight) (hwf : p.wf n)
    (hact : p.becomes_active (n + 1) = false) : (p.next (n + 1)).wf (n + 1) := by
  obtain ⟨h1, h2, h3⟩ := hwf
  unfold policy_in_flight.next policy_in_flight.becomes_pending final_as_of
  unfold policy_in_flight.becomes_active final_as_of at hact
  cases hpb : p.pending_block with
  | none =>
    have h2 := h2 hpb
    simp only
    by_cases hf : p.proposed_block + 3 ≤ n + 1
    · rw [if_pos (by simpa using hf)]
      refine ⟨by simpa using Nat.le_succ_of_le h1, by simp, ?_⟩
      intro pb hpb2
      simp only [Option.some.injEq] at hpb2
      subst hpb2
      refine ⟨?_, by omega⟩
      show n + 1 = p.proposed_block + 3
      omega
    · rw [if_neg (by simpa using hf)]
      refine ⟨Nat.le_succ_of_le h1, fun _ => by omega, ?_⟩
      intro pb hpb2
      rw [hpb] at hpb2
      cases hpb2
  | some pb =>
    rw [hpb] at hact
    simp only [decide_eq_false_iff_not] at hact
    simp only [Bool.false_eq_true, if_false]
    refine ⟨Nat.le_succ_of_le h1, fun hn => ?_, ?_⟩
    · rw [hpb] at hn
      cases hn
    · intro pb2 hpb2
      rw [hpb] at hpb2
      have := h3 pb hpb
      simp only [Option.some.injEq] at hpb2
      omega

theorem policy_state_next_wf (s : policy_state) (o : Option (List Nat)) (hwf : s.wf) :
    (s.next o).wf := by
  obtain ⟨hpw, hall⟩ := hwf
  have hleft : ∀ x ∈ (s.in_flight.filter (fun p => !p.becomes_active (s.block_num + 1))).map
      (fun p => p.next (s.block_num + 1)), x.wf (s.block_num + 1) ∧
        x.proposed_block ≤ s.block_num := by
    intro x hx
    obtain ⟨p, hp, rfl⟩ := List.mem_map.mp hx
    obtain ⟨hp1, hp2⟩ := List.mem_filter.mp hp
    have hact : p.becomes_active (s.block_num + 1) = false := by simpa using hp2
    refine ⟨policy_in_flight_next_wf _ p (hall p hp1) hact, ?_⟩
    rw [(next_proposed_block p _).1]
    exact (hall p hp1).1
  constructor
  · show List.Pairwise _ (_ ++ _)
    rw [List.pairwise_append]
    refine ⟨?_, ?_, ?_⟩
    · rw [List.pairwise_map]
      refine (hpw.sublist (List.filter_sublist _)).imp ?_
      intro a b hab
      rw [(next_proposed_block a _).1, (next_proposed_block b _).1]
      exact hab
    · cases o with
      | none => exact List.Pairwise.nil
      | some q => exact List.pairwise_singleton _ _
    · intro a ha b hb
      cases o with
      | none => cases hb
      | some q =>
        simp only [List.mem_singleton] at hb
        subst hb
        have := (hleft a ha).2
        show a.proposed_block < s.block_num + 1
        omega
  · intro x hx
    rcases List.mem_append.mp hx with h | h
    · exact (hleft x h).1
    · cases o with
      | none => cases h
      | some q =>
        simp only [List.mem_singleton] at h
        subst h
        refine ⟨Nat.le_refl _, fun _ => ?_, ?_⟩
        · show s.block_num + 1 < s.block_num + 1 + 3
          omega
        · intro pb hpb
          cases hpb

theorem policy_state_produce_wf (os : List (Option (List Nat))) :
    ∀ s : policy_state, s.wf → (s.produce_blocks os).wf := by
  induction os with
  | nil => intro s h; exact h
  | cons o os ih => intro s h; exact ih _ (policy_state_next_wf s o h)

theorem policy_state_start_wf (n : Nat) (a : finalizer_policy) : (policy_state.start n a).wf :=
  ⟨List.Pairwise.nil, fun _ h => by cases h⟩

theorem policy_stays_in_flight (s : policy_state) (o : Option (List Nat)) (p : policy_in_flight)
    (hp : p ∈ s.in_flight) (hact : p.becomes_active (s.block_num + 1) = false) :
    p.next (s.block_num + 1) ∈ (s.next o).in_flight := by
  apply List.mem_append_left
  apply List.mem_map_of_mem
  exact List.mem_filter.mpr ⟨hp, by simpa using hact⟩

theorem policy_becomes_active (s : policy_state) (o : Option (List Nat)) (p : policy_in_flight)
    (hwf : s.wf) (hp : p ∈ s.in_flight) (hact : p.becomes_active (s.block_num + 1) = true) :
    (s.next o).active_finalizer_policy =
      ⟨s.active_finalizer_policy.generation + 1, p.finalizers⟩ := by
  have key : ∀ x ∈ s.in_flight, x.becomes_active (s.block_num + 1) = true →
      x.proposed_block + 6 = s.block_num + 1 := by
    intro x hx hxa
    obtain ⟨pb, hpb, hle⟩ := (becomes_active_iff x _).mp hxa
    obtain ⟨h1, h2⟩ := (hwf.2 x hx).2.2 pb hpb
    omega
  refine activate_one _ p hact s.in_flight hwf.1 ?_ hp _
  intro x hx hxa
  have h1 := key x hx hxa
  have h2 := key p hp hact
  omega

theorem policy_quiet_step (s : policy_state) (o : Option (List Nat)) (m : Nat) (hwf : s.wf)
    (hlb : ∀ p ∈ s.in_flight, m ≤ p.proposed_block) (hm : m ≤ s.block_num + 1)
    (hk : s.block_num + 1 < m + 6) :
    (s.next o).active_finalizer_policy = s.active_finalizer_policy ∧
    ∀ p ∈ (s.next o).in_flight, m ≤ p.proposed_block := by
  constructor
  · apply activate_none
    intro x hx
    cases hxa : x.becomes_active (s.block_num + 1) with
    | false => rfl
    | true =>
      obtain ⟨pb, hpb, hle⟩ := (becomes_active_iff x _).mp hxa
      obtain ⟨h1, h2⟩ := (hwf.2 x hx).2.2 pb hpb
      have := hlb x hx
      omega
  · intro x hx
    rcases List.mem_append.mp hx with h | h
    · obtain ⟨p, hp, rfl⟩ := List.mem_map.mp h
      rw [(next_proposed_block p _).1]
      exact hlb p (List.mem_filter.mp hp).1
    · cases o with
      | none => cases h
      | some q =>
        simp only [List.mem_singleton] at h
        subst h
        exact hm

theorem policy_next_generation_le (s : policy_state) (o : Option (List Nat)) :
    s.active_finalizer_policy.generation ≤ (s.next o).active_finalizer_policy.generation :=
  activate_generation_le _ _ _

theorem policy_proposed_waits (keys : List Nat) (b k : Nat) (hk : k < b + 3) :
    (⟨keys, b, none⟩ : policy_in_flight).becomes_active k = false ∧
    (⟨keys, b, none⟩ : policy_in_flight).next k = ⟨keys, b, none⟩ := by
  refine ⟨rfl, ?_⟩
  unfold policy_in_flight.next policy_in_flight.becomes_pending final_as_of
  simp only
  rw [if_neg (by simp; omega)]

theorem policy_proposed_to_pending (keys : List Nat) (b k : Nat) (hk : k = b + 3) :
    (⟨keys, b, none⟩ : policy_in_flight).becomes_active k = false ∧
    (⟨keys, b, none⟩ : policy_in_flight).next k = ⟨keys, b, some (b + 3)⟩ := by
  refine ⟨rfl, ?_⟩
  subst hk
  unfold policy_in_flight.next policy_in_flight.becomes_pending final_as_of
  simp

theorem policy_pending_waits (keys : List Nat) (b k : Nat) (hk : k < b + 6) :
    (⟨keys, b, some (b + 3)⟩ : policy_in_flight).becomes_active k = false ∧
    (⟨keys, b, some (b + 3)⟩ : policy_in_flight).next k = ⟨keys, b, some (b + 3)⟩ := by
  constructor
  · unfold policy_in_flight.becomes_active final_as_of
    simp only [decide_eq_false_iff_not]
    omega
  · rfl

theorem policy_pending_to_active (keys : List Nat) (b k : Nat) (hk : k = b + 6) :
    (⟨keys, b, some (b + 3)⟩ : policy_in_flight).becomes_active k = true := by
  subst hk
  unfold policy_in_flight.becomes_active final_as_of
  simp only [decide_eq_true_eq]
  omega

theorem policy_two_three_chains_of_wf (s : policy_state) (hwf : s.wf) (keys : List Nat)
    (o1 o2 o3 o4 o5 o6 : Option (List Nat)) :
    (∀ j, j ≤ 5 →
      ((s.next (some keys)).produce_blocks ([o1, o2, o3, o4, o5].take j)).block_num =
        s.block_num + 1 + j ∧
      ((s.next (some keys)).produce_blocks
          ([o1, o2, o3, o4, o5].take j)).active_finalizer_policy.generation ≤
        ((s.next (some keys)).produce_blocks
          [o1, o2, o3, o4, o5]).active_finalizer_policy.generation ∧
      ((s.next (some keys)).produce_blocks ([o1, o2, o3, o4, o5].take j)).active_finalizer_policy ≠
        ((s.next (some keys)).produce_blocks
          [o1, o2, o3, o4, o5, o6]).active_finalizer_policy) ∧
    ((s.next (some keys)).produce_blocks [o1, o2, o3, o4, o5, o6]).block_num =
      s.block_num + 1 + 6 ∧
    ((s.next (some keys)).produce_blocks [o1, o2, o3, o4, o5, o6]).active_finalizer_policy =
      ⟨((s.next (some keys)).produce_blocks
        [o1, o2, o3, o4, o5]).active_finalizer_policy.generation + 1, keys⟩ ∧
    (s.in_flight = [] → ∀ j, j ≤ 5 →
      ((s.next (some keys)).produce_blocks ([o1, o2, o3, o4, o5].take j)).active_finalizer_policy =
        s.active_finalizer_policy) := by
  have w0 := policy_state_next_wf s (some keys) hwf
  have w1 := policy_state_next_wf _ o1 w0
  have w2 := policy_state_next_wf _ o2 w1
  have w3 := policy_state_next_wf _ o3 w2
  have w4 := policy_state_next_wf _ o4 w3
  have w5 := policy_state_next_wf _ o5 w4
  have g1 := policy_next_generation_le (s.next (some keys)) o1
  have g2 := policy_next_generation_le ((s.next (some keys)).next o1) o2
  have g3 := policy_next_generation_le (((s.next (some keys)).next o1).next o2) o3
  have g4 := policy_next_generation_le ((((s.next (some keys)).next o1).next o2).next o3) o4
  have g5 := policy_next_generation_le
    (((((s.next (some keys)).next o1).next o2).next o3).next o4) o5
  have m0 : (⟨keys, s.block_num + 1, none⟩ : policy_in_flight) ∈ (s.next (some keys)).in_flight :=
    List.mem_append_right _ (List.mem_singleton_self _)
  have m1 := policy_stays_in_flight _ o1 _ m0
    (policy_proposed_waits keys (s.block_num + 1) _ (by show _ + 1 + 1 < _; omega)).1
  rw [(policy_proposed_waits keys (s.block_num + 1) _ (by show _ + 1 + 1 < _; omega)).2] at m1
  have m2 := policy_stays_in_flight _ o2 _ m1
    (policy_proposed_waits keys (s.block_num + 1) _ (by show _ + 1 + 1 + 1 < _; omega)).1
  rw [(policy_proposed_waits keys (s.block_num + 1) _
    (by show _ + 1 + 1 + 1 < _; omega)).2] at m2
  have m3 := policy_stays_in_flight _ o3 _ m2
    (policy_proposed_to_pending keys (s.block_num + 1) _ (by show _ + 1 + 1 + 1 + 1 = _; omega)).1
  rw [(policy_proposed_to_pending keys (s.block_num + 1) _
    (by show _ + 1 + 1 + 1 + 1 = _; omega)).2] at m3
  have m4 := policy_stays_in_flight _ o4 _ m3
    (policy_pending_waits keys (s.block_num + 1) _ (by show _ + 1 + 1 + 1 + 1 + 1 < _; omega)).1
  rw [(policy_pending_waits keys (s.block_num + 1) _
    (by show _ + 1 + 1 + 1 + 1 + 1 < _; omega)).2] at m4
  have m5 := policy_stays_in_flight _ o5 _ m4
    (policy_pending_waits keys (s.block_num + 1) _
      (by show _ + 1 + 1 + 1 + 1 + 1 + 1 < _; omega)).1
  rw [(policy_pending_waits keys (s.block_num + 1) _
    (by show _ + 1 + 1 + 1 + 1 + 1 + 1 < _; omega)).2] at m5
  have h6 := policy_becomes_active _ o6 _ w5 m5
    (policy_pending_to_active keys (s.block_num + 1) _
      (by show _ + 1 + 1 + 1 + 1 + 1 + 1 + 1 = _; omega))
  have hne : ∀ t : policy_state,
      t.active_finalizer_policy.generation ≤
        (((((((s.next (some keys)).next o1).next o2).next o3).next o4).next
          o5).active_finalizer_policy.generation) →
      t.active_finalizer_policy ≠
        ((((((((s.next (some keys)).next o1).next o2).next o3).next o4).next o5).next
          o6).active_finalizer_policy) := by
    intro t ht heq
    rw [h6] at heq
    rw [heq] at ht
    simp only at ht
    omega
  have l4 := g5
  have l3 := le_trans g4 l4
  have l2 := le_trans g3 l3
  have l1 := le_trans g2 l2
  have l0 := le_trans g1 l1
  refine ⟨?_, rfl, h6, ?_⟩
  · intro j hj
    obtain rfl | rfl | rfl | rfl | rfl | rfl :
        j = 0 ∨ j = 1 ∨ j = 2 ∨ j = 3 ∨ j = 4 ∨ j = 5 := by omega
    · exact ⟨rfl, l0, hne _ l0⟩
    · exact ⟨rfl, l1, hne _ l1⟩
    · exact ⟨rfl, l2, hne _ l2⟩
    · exact ⟨rfl, l3, hne _ l3⟩
    · exact ⟨rfl, l4, hne _ l4⟩
    · exact ⟨rfl, Nat.le_refl _, hne _ (Nat.le_refl _)⟩
  · intro hnil
    have q0 := policy_quiet_step s (some keys) (s.block_num + 1) hwf
      (by rw [hnil]; intro p hp; cases hp) (Nat.le_refl _) (by omega)
    have q1 := policy_quiet_step _ o1 (s.block_num + 1) w0 q0.2
      (by show _ ≤ _ + 1 + 1; omega) (by show _ + 1 + 1 < _; omega)
    have q2 := policy_quiet_step _ o2 (s.block_num + 1) w1 q1.2
      (by show _ ≤ _ + 1 + 1 + 1; omega) (by show _ + 1 + 1 + 1 < _; omega)
    have q3 := policy_quiet_step _ o3 (s.block_num + 1) w2 q2.2
      (by show _ ≤ _ + 1 + 1 + 1 + 1; omega) (by show _ + 1 + 1 + 1 + 1 < _; omega)
    have q4 := policy_quiet_step _ o4 (s.block_num + 1) w3 q3.2
      (by show _ ≤ _ + 1 + 1 + 1 + 1 + 1; omega) (by show _ + 1 + 1 + 1 + 1 + 1 < _; omega)
    have q5 := policy_quiet_step _ o5 (s.block_num + 1) w4 q4.2
      (by show _ ≤ _ + 1 + 1 + 1 + 1 + 1 + 1; omega)
      (by show _ + 1 + 1 + 1 + 1 + 1 + 1 < _; omega)
    intro j hj
    obtain rfl | rfl | rfl | rfl | rfl | rfl :
        j = 0 ∨ j = 1 ∨ j = 2 ∨ j = 3 ∨ j = 4 ∨ j = 5 := by omega
    · exact q0.1
    · exact q1.1.trans q0.1
    · exact q2.1.trans (q1.1.trans q0.1)
    · exact q3.1.trans (q2.1.trans (q1.1.trans q0.1))
    · exact q4.1.trans (q3.1.trans (q2.1.trans (q1.1.trans q0.1)))
    · exact q5.1.trans (q4.1.trans (q3.1.trans (q2.1.trans (q1.1.trans q0.1))))

/-- C21 (as stated, refuted): with other policies in flight the previous generation
does not stay active.  From a block 0 with active policy of generation 2, block 1
proposes the keys `[3]`, block 2 the keys `[4]` and block 4 the keys `[5]` (the
blocks `b0`, `b1` and `b3` of `savanna_set_finalizer_multiple_test`).  For the
policy proposed in block `B = 2`: generation 2 is active in block 2 and up to
block 6, but block `B + 5 = 7` has the policy `[3]` with generation 3, and block
`B + 6 = 8` has the policy `[4]` with generation 4, two above the generation of
block `B`; block 10 has the policy `[5]` with generation 5. -/
theorem policy_previous_generation_not_kept :
    ((policy_state.start 0 ⟨2, [2]⟩).produce_blocks
      [some [3], some [4]]).active_finalizer_policy = ⟨2, [2]⟩ ∧
    ((policy_state.start 0 ⟨2, [2]⟩).produce_blocks
      [some [3], some [4], none, some [5], none, none]).active_finalizer_policy = ⟨2, [2]⟩ ∧
    ((policy_state.start 0 ⟨2, [2]⟩).produce_blocks
      [some [3], some [4], none, some [5], none, none, none]).block_num = 7 ∧
    ((policy_state.start 0 ⟨2, [2]⟩).produce_blocks
      [some [3], some [4], none, some [5], none, none, none]).active_finalizer_policy =
        ⟨3, [3]⟩ ∧
    ((policy_state.start 0 ⟨2, [2]⟩).produce_blocks
      [some [3], some [4], none, some [5], none, none, none]).active_finalizer_policy ≠
      ((policy_state.start 0 ⟨2, [2]⟩).produce_blocks
        [some [3], some [4]]).active_finalizer_policy ∧
    ((policy_state.start 0 ⟨2, [2]⟩).produce_blocks
      [some [3], some [4], none, some [5], none, none, none, none]).active_finalizer_policy =
        ⟨4, [4]⟩ ∧
    ((policy_state.start 0 ⟨2, [2]⟩).produce_blocks
      [some [3], some [4], none, some [5], none, none, none, none]).active_finalizer_policy ≠
      ⟨((policy_state.start 0 ⟨2, [2]⟩).produce_blocks
        [some [3], some [4]]).active_finalizer_policy.generation + 1, [4]⟩ ∧
    ((policy_state.start 0 ⟨2, [2]⟩).produce_blocks
      [some [3], some [4], none, some [5], none, none, none, none,
        none]).active_finalizer_policy = ⟨4, [4]⟩ ∧
    ((policy_state.start 0 ⟨2, [2]⟩).produce_blocks
      [some [3], some [4], none, some [5], none, none, none, none, none,
        none]).active_finalizer_policy = ⟨5, [5]⟩ := by
  decide

/-- C21 (amended): under normal progress, from a block with no policy in flight and
any blocks after it, proposing policies or not, let block `B` propose a policy
and let the six blocks after `B` propose policies or not.  In each of the blocks
`B` to `B+5` the generation of the active policy is at most that of block `B+5`
and the active policy is not the one of block `B+6`; the active policy of block
`B+6` is the proposed policy, with the generation of block `B+5` incremented by
one; and when no other policy is in flight as `B` is proposed, the policy active
before `B` stays active in the blocks `B` to `B+5`. -/
theorem policy_active_after_two_three_chains (n : Nat) (a : finalizer_policy)
    (before : List (Option (List Nat))) (keys : List Nat)
    (o1 o2 o3 o4 o5 o6 : Option (List Nat)) :
    (∀ j, j ≤ 5 →
      ((((policy_state.start n a).produce_blocks before).next (some keys)).produce_blocks
          ([o1, o2, o3, o4, o5].take j)).block_num =
        ((policy_state.start n a).produce_blocks before).block_num + 1 + j ∧
      ((((policy_state.start n a).produce_blocks before).next (some keys)).produce_blocks
          ([o1, o2, o3, o4, o5].take j)).active_finalizer_policy.generation ≤
        ((((policy_state.start n a).produce_blocks before).next (some keys)).produce_blocks
          [o1, o2, o3, o4, o5]).active_finalizer_policy.generation ∧
      ((((policy_state.start n a).produce_blocks before).next (some keys)).produce_blocks
          ([o1, o2, o3, o4, o5].take j)).active_finalizer_policy ≠
        ((((policy_state.start n a).produce_blocks before).next (some keys)).produce_blocks
          [o1, o2, o3, o4, o5, o6]).active_finalizer_policy) ∧
    ((((policy_state.start n a).produce_blocks before).next (some keys)).produce_blocks
        [o1, o2, o3, o4, o5, o6]).block_num =
      ((policy_state.start n a).produce_blocks before).block_num + 1 + 6 ∧
    ((((policy_state.start n a).produce_blocks before).next (some keys)).produce_blocks
        [o1, o2, o3, o4, o5, o6]).active_finalizer_policy =
      ⟨((((policy_state.start n a).produce_blocks before).next (some keys)).produce_blocks
        [o1, o2, o3, o4, o5]).active_finalizer_policy.generation + 1, keys⟩ ∧
    (((policy_state.start n a).produce_blocks before).in_flight = [] → ∀ j, j ≤ 5 →
      ((((policy_state.start n a).produce_blocks before).next (some keys)).produce_blocks
          ([o1, o2, o3, o4, o5].take j)).active_finalizer_policy =
        ((policy_state.start n a).produce_blocks before).active_finalizer_policy) :=
  policy_two_three_chains_of_wf _
    (policy_state_produce_wf before _ (policy_state_start_wf n a)) keys o1 o2 o3 o4 o5 o6

theorem policy_active_after_two_three_chains_witness :
    ((((policy_state.start 0 ⟨2, [2]⟩).produce_blocks [some [3]]).next (some [4])).produce_blocks
      [none, some [5], none, none, none, none]).active_finalizer_policy = ⟨4, [4]⟩ ∧
    ((((policy_state.start 0 ⟨2, [2]⟩).produce_blocks [some [3]]).next (some [4])).produce_blocks
      [none, some [5], none, none, none]).active_finalizer_policy.generation = 3 ∧
    ((policy_state.start 9 ⟨1, [1, 2, 3]⟩).produce_blocks []).in_flight = [] ∧
    ((((policy_state.start 9 ⟨1, [1, 2, 3]⟩).produce_blocks []).next
      (some [2, 3, 4])).produce_blocks
      [none, none, none, none, none]).active_finalizer_policy = ⟨1, [1, 2, 3]⟩ ∧
    ((((policy_state.start 9 ⟨1, [1, 2, 3]⟩).produce_blocks []).next
      (some [2, 3, 4])).produce_blocks
      [none, none, none, none, none, none]).active_finalizer_policy = ⟨2, [2, 3, 4]⟩ :=
  ⟨(policy_active_after_two_three_chains 0 ⟨2, [2]⟩ [some [3]] [4]
      none (some [5]) none none none none).2.2.1,
    by decide, rfl,
    (policy_active_after_two_three_chains 9 ⟨1, [1, 2, 3]⟩ [] [2, 3, 4]
      none none none none none none).2.2.2 rfl 5 (Nat.le_refl 5),
    (policy_active_after_two_three_chains 9 ⟨1, [1, 2, 3]⟩ [] [2, 3, 4]
      none none none none none none).2.2.1⟩

end chain

namespace webassembly

/-! ## Theorems about `bls_g1_exp` -/

/-- C29 (defect): with `n = 2^28` and empty `points` and `scalars` spans the products
`n*144` and `n*32` are both 0 modulo `2^32`, so `bls_g1_exp` passes its length
check, although the sizes are not `144*n` and `32*n`; the first iteration then
reads the byte range `[0, 144)` outside the empty `points` span. -/
theorem bls_g1_exp_length_check_wraps (from_jacobian_bytes : List Nat → Bool) :
    bls_g1_exp_length_check 0 0 268435456 144 = true ∧
    (0 : Nat) ≠ 144 * 268435456 ∧
    read_span [] ((0 * 144) % 4294967296) 144 = none ∧
    bls_g1_exp from_jacobian_bytes [] [] 268435456 144 = outcome.out_of_bounds := by
  refine ⟨by decide, by decide, by decide, ?_⟩
  unfold bls_g1_exp
  rw [if_neg (by decide)]
  show bls_g1_exp_loop from_jacobian_bytes [] [] (268435455 + 1) 0 = outcome.out_of_bounds
  rfl

end webassembly
namespace finality

/-! ## Theorems about the lookups and the garbage collection of `next` -/

/-- C22 (defect): the core reached from `create_core_for_genesis_block(0)` by four
`next` calls with a strong claim on the current block satisfies the nine
invariants; the fifth such call, `next(block 4, (4, strong))`, meets the
preconditions, `link1 = get_qc_link_from(4)` is the strong link `(4, 3)` with
target not below `links.front().source_block_num == 2`, and the returned core has
`final_on_strong_qc_block_num == 3 == link1.target_block_num` but
`last_final_block_num() == 3`, whereas
`get_qc_link_from(link1.target_block_num).target_block_num == 2` is the value
`new_block_nums` computed. -/
theorem next_last_final_differs_from_link2 :
    (strong_chain 0 4).invariants ∧
    (strong_chain 0 4).next_pre (block_at 4) ⟨4, true⟩ ∧
    ((strong_chain 0 4).links.headD default).source_block_num ≤ 4 ∧
    (strong_chain 0 4).get_qc_link_from 4 = ⟨4, 3, true⟩ ∧
    ((strong_chain 0 4).links.headD default).source_block_num ≤
      ((strong_chain 0 4).get_qc_link_from 4).target_block_num ∧
    ((strong_chain 0 4).next (block_at 4) ⟨4, true⟩).final_on_strong_qc_block_num = 3 ∧
    ((strong_chain 0 4).get_qc_link_from
      ((strong_chain 0 4).get_qc_link_from 4).target_block_num).target_block_num = 2 ∧
    (strong_chain 0 4).new_block_nums ⟨4, true⟩ = (2, 3) ∧
    ((strong_chain 0 4).next (block_at 4) ⟨4, true⟩).last_final_block_num = 3 := by
  decide

theorem source_of_neighbours (l : List qc_link)
    (h : neighbours (fun a b : qc_link =>
      block_num_succ a.source_block_num = b.source_block_num ∧
        a.target_block_num ≤ b.target_block_num) l) :
    ∀ (i : Nat) (x : qc_link), l[i]? = some x →
      x.source_block_num =
        if i = 0 then (l.headD default).source_block_num
        else ((l.headD default).source_block_num + i) % 4294967296 := by
  induction l with
  | nil => intro i x hx; simp at hx
  | cons a t ih =>
    intro i x hx
    cases i with
    | zero =>
      simp only [List.getElem?_cons_zero, Option.some.injEq] at hx
      subst hx
      rfl
    | succ j =>
      rw [List.getElem?_cons_succ] at hx
      cases t with
      | nil => simp at hx
      | cons b t2 =>
        have hab := h.1.1
        have := ih h.2 j x hx
        rw [this]
        simp only [List.headD_cons, Nat.succ_ne_zero, if_false]
        unfold block_num_succ at hab
        split_ifs with hj
        · subst hj
          omega
        · omega

theorem block_num_of_neighbours (l : List block_ref)
    (h : neighbours (fun a b : block_ref =>
      block_num_succ a.block_num = b.block_num ∧ a.timestamp < b.timestamp) l) :
    ∀ (i : Nat) (x : block_ref), l[i]? = some x →
      x.block_num =
        if i = 0 then (l.headD default).block_num
        else ((l.headD default).block_num + i) % 4294967296 := by
  induction l with
  | nil => intro i x hx; simp at hx
  | cons a t ih =>
    intro i x hx
    cases i with
    | zero =>
      simp only [List.getElem?_cons_zero, Option.some.injEq] at hx
      subst hx
      rfl
    | succ j =>
      rw [List.getElem?_cons_succ] at hx
      cases t with
      | nil => simp at hx
      | cons b t2 =>
        have hab := h.1.1
        have := ih h.2 j x hx
        rw [this]
        simp only [List.headD_cons, Nat.succ_ne_zero, if_false]
        unfold block_num_succ at hab
        split_ifs with hj
        · subst hj
          omega
        · omega

theorem getLastD_eq_getElem? {α : Type} (l : List α) (d : α) (h : l ≠ []) :
    l[l.length - 1]? = some (l.getLastD d) := by
  rw [List.getLastD_eq_getLast?, ← List.getLast?_eq_getElem?]
  cases hl : l.getLast? with
  | none => exact absurd (List.getLast?_eq_none_iff.mp hl) h
  | some x => rfl

theorem headD_eq_getElem? {α : Type} (l : List α) (d : α) (h : l ≠ []) :
    l[0]? = some (l.headD d) := by
  cases l with
  | nil => exact absurd rfl h
  | cons a t => simp

theorem lookups_of_invariants (c : core) (hinv : c.invariants) :
    (∀ block_num, (c.links.headD default).source_block_num ≤ block_num →
      block_num ≤ c.current_block_num →
      block_num_sub block_num (c.links.headD default).source_block_num < c.links.length ∧
      c.links[block_num_sub block_num (c.links.headD default).source_block_num]? =
        some (c.get_qc_link_from block_num) ∧
      (c.get_qc_link_from block_num).source_block_num = block_num) ∧
    (∀ block_num, c.last_final_block_num ≤ block_num → block_num < c.current_block_num →
      block_num_sub block_num c.last_final_block_num < c.refs.length ∧
      c.refs[block_num_sub block_num c.last_final_block_num]? =
        some (c.get_block_reference block_num) ∧
      (c.get_block_reference block_num).block_num = block_num) := by
  obtain ⟨h1, _, h3, h4, h5, h6, h7, h8, h9⟩ := hinv
  unfold core.inv1 at h1
  have hpos : 0 < c.links.length := List.length_pos.mpr h1
  have hlast := getLastD_eq_getElem? c.links default h1
  have hcur := source_of_neighbours c.links h7 _ _ hlast
  constructor
  · intro bn hb1 hb2
    unfold core.inv9 block_num_sub at h9
    unfold core.current_block_num at hb2 h9
    have hidx : block_num_sub bn (c.links.headD default).source_block_num < c.links.length := by
      unfold block_num_sub
      split_ifs at hcur <;> omega
    obtain ⟨x, hx⟩ := exists_getElem?_of_lt c.links _ hidx
    have hget : c.get_qc_link_from bn = x := by
      unfold core.get_qc_link_from
      rw [List.getD_eq_getElem?_getD, hx]
      rfl
    have hsrc := source_of_neighbours c.links h7 _ _ hx
    rw [hget]
    refine ⟨hidx, hx, ?_⟩
    rw [hsrc]
    unfold block_num_sub at hidx ⊢
    split_ifs at hcur ⊢ <;> omega
  · intro bn hb1 hb2
    have hne : c.refs ≠ [] := by
      intro hnil
      obtain ⟨hlen, htgt, hsrc, hfsq⟩ := h3 hnil
      have hfront : c.links.headD default = c.links.getLastD default := by
        have h0 := headD_eq_getElem? c.links default h1
        rw [hlen] at hlast
        rw [hlast] at h0
        exact (Option.some.inj h0).symm
      unfold core.last_final_block_num at hb1 hfsq
      unfold core.current_block_num at hb2
      rw [hfront] at hb1 hfsq
      omega
    obtain ⟨h4a, _⟩ := h4 hne
    obtain ⟨h5a, _⟩ := h5 hne
    unfold core.inv8 block_num_sub at h8
    unfold core.current_block_num at hb2 h8
    unfold core.last_final_block_num at hb1 h8 ⊢
    unfold block_num_succ at h5a
    have hidx : block_num_sub bn (c.links.headD default).target_block_num < c.refs.length := by
      unfold block_num_sub
      omega
    obtain ⟨x, hx⟩ := exists_getElem?_of_lt c.refs _ hidx
    have hget : c.get_block_reference bn = x := by
      unfold core.get_block_reference core.last_final_block_num
      rw [List.getD_eq_getElem?_getD, hx]
      rfl
    have hnum := block_num_of_neighbours c.refs h6 _ _ hx
    rw [hget]
    refine ⟨hidx, hx, ?_⟩
    rw [hnum, h4a]
    unfold block_num_sub at hidx ⊢
    split_ifs <;> omega

/-- C26: for every core satisfying the nine invariants, `get_qc_link_from(block_num)`
with `links.front().source_block_num <= block_num <= current_block_num()`
computes an index below `links.size()` and returns a link whose
`source_block_num` is `block_num`; and `get_block_reference(block_num)` with
`last_final_block_num() <= block_num < current_block_num()` computes an index
below `refs.size()` and returns a ref whose `block_num()` is `block_num`. -/
theorem lookups_in_range (c : core) (hinv : c.invariants) :
    (∀ block_num, (c.links.headD default).source_block_num ≤ block_num →
      block_num ≤ c.current_block_num →
      block_num_sub block_num (c.links.headD default).source_block_num < c.links.length ∧
      c.links[block_num_sub block_num (c.links.headD default).source_block_num]? =
        some (c.get_qc_link_from block_num) ∧
      (c.get_qc_link_from block_num).source_block_num = block_num) ∧
    (∀ block_num, c.last_final_block_num ≤ block_num → block_num < c.current_block_num →
      block_num_sub block_num c.last_final_block_num < c.refs.length ∧
      c.refs[block_num_sub block_num c.last_final_block_num]? =
        some (c.get_block_reference block_num) ∧
      (c.get_block_reference block_num).block_num = block_num) :=
  lookups_of_invariants c hinv

theorem lookups_in_range_witness :
    (strong_chain 0 4).invariants ∧
    ((strong_chain 0 4).get_qc_link_from 3).source_block_num = 3 ∧
    ((strong_chain 0 4).get_block_reference 2).block_num = 2 :=
  ⟨by decide,
    ((lookups_in_range (strong_chain 0 4) (by decide)).1 3 (by decide) (by decide)).2.2,
    ((lookups_in_range (strong_chain 0 4) (by decide)).2 2 (by decide) (by decide)).2.2⟩

/-- C27 (as stated, refuted): from `create_core_for_genesis_block(4294967295)` the
call `next(block 4294967295, (4294967295, weak))` meets the preconditions, and
the core it returns has the link `(0, 4294967295)`, whose target is above its
source: `current_block_num() + 1` has wrapped around. -/
theorem link_target_above_source_after_wrap :
    (core.create_core_for_genesis_block 4294967295).next_pre (block_at 4294967295)
      ⟨4294967295, false⟩ ∧
    core.reachable_in 4294967295 1
      ((core.create_core_for_genesis_block 4294967295).next (block_at 4294967295)
        ⟨4294967295, false⟩) ∧
    (⟨0, 4294967295, false⟩ : qc_link) ∈
      ((core.create_core_for_genesis_block 4294967295).next (block_at 4294967295)
        ⟨4294967295, false⟩).links ∧
    ¬ ((⟨0, 4294967295, false⟩ : qc_link).target_block_num ≤
      (⟨0, 4294967295, false⟩ : qc_link).source_block_num) := by
  refine ⟨by decide, ?_, by decide, by decide⟩
  exact core.reachable_in.next 0 _ _ _ core.reachable_in.genesis (by decide)

theorem reachable_in_links (n k : Nat) (c : core) (hr : core.reachable_in n k c) :
    n + k < 4294967296 →
    c.links ≠ [] ∧ c.current_block_num = n + k ∧
    ∀ l ∈ c.links, l.target_block_num ≤ l.source_block_num ∧
      (l.target_block_num = l.source_block_num → l.source_block_num = n) := by
  induction hr with
  | genesis =>
    intro _
    refine ⟨by simp [core.create_core_for_genesis_block], rfl, ?_⟩
    intro l hl
    simp only [core.create_core_for_genesis_block, List.mem_singleton] at hl
    subst hl
    exact ⟨Nat.le_refl _, fun _ => rfl⟩
  | next k c b q _ hpre ih =>
    intro hk
    obtain ⟨hne, hcur, hall⟩ := ih (by omega)
    have h3 := hpre.2.2.1.2
    refine ⟨by simp [next_links], ?_, ?_⟩
    · rw [next_current_block_num, hcur]
      unfold block_num_succ
      omega
    · intro l hl
      rw [next_links] at hl
      rcases List.mem_append.mp hl with h | h
      · exact hall l (List.mem_of_mem_drop h)
      · simp only [List.mem_singleton] at h
        subst h
        simp only
        unfold block_num_succ
        constructor <;> omega

/-- C27 (amended): for every core reached from `create_core_for_genesis_block(n)` by
`k` calls of `next` that satisfy the preconditions, with `n + k < 2^32` (the
block number has not wrapped around), every link has
`target_block_num <= source_block_num`, and `target_block_num == source_block_num`
only for a link whose `source_block_num` is `n`. -/
theorem link_target_le_source (n k : Nat) (c : core) (hr : core.reachable_in n k c)
    (hk : n + k < 4294967296) :
    ∀ l ∈ c.links, l.target_block_num ≤ l.source_block_num ∧
      (l.target_block_num = l.source_block_num → l.source_block_num = n) :=
  (reachable_in_links n k c hr hk).2.2

theorem link_target_le_source_witness :
    core.reachable_in 7 1 ((core.create_core_for_genesis_block 7).next (block_at 7) ⟨7, true⟩) ∧
    ∀ l ∈ ((core.create_core_for_genesis_block 7).next (block_at 7) ⟨7, true⟩).links,
      l.target_block_num ≤ l.source_block_num ∧
        (l.target_block_num = l.source_block_num → l.source_block_num = 7) :=
  ⟨core.reachable_in.next 0 _ _ _ core.reachable_in.genesis (by decide),
    link_target_le_source 7 1 _
      (core.reachable_in.next 0 _ _ _ core.reachable_in.genesis (by decide)) (by decide)⟩

theorem target_le_getLastD_of_mem (l : List qc_link)
    (h : neighbours (fun a b : qc_link =>
      block_num_succ a.source_block_num = b.source_block_num ∧
        a.target_block_num ≤ b.target_block_num) l)
    (x : qc_link) (hx : x ∈ l) :
    x.target_block_num ≤ (l.getLastD default).target_block_num := by
  induction l generalizing x with
  | nil => cases hx
  | cons a t ih =>
    cases t with
    | nil =>
      simp only [List.mem_singleton] at hx
      subst hx
      exact Nat.le_refl _
    | cons b t2 =>
      have hrec := ih h.2
      have hlast : ((a :: b :: t2).getLastD default) = ((b :: t2).getLastD default) := by
        simp [List.getLastD]
      rw [hlast]
      rcases List.mem_cons.mp hx with rfl | hx
      · exact le_trans h.1.2 (hrec b (List.mem_cons_self b t2))
      · exact hrec x hx

theorem filter_eq_drop_of_consecutive {α : Type} (f : α → Nat) (v : Nat) :
    ∀ (l : List α) (base : Nat), (∀ (i : Nat) (x : α), l[i]? = some x → f x = base + i) →
      l.filter (fun r => decide (v ≤ f r)) = l.drop (v - base) := by
  intro l
  induction l with
  | nil => intro base _; simp
  | cons a t ih =>
    intro base h
    have ha : f a = base := by simpa using h 0 a (by simp)
    have ht : ∀ (i : Nat) (x : α), t[i]? = some x → f x = (base + 1) + i := by
      intro i x hx
      have := h (i + 1) x (by simpa using hx)
      omega
    have hrec := ih (base + 1) ht
    by_cases hv : v ≤ base
    · rw [List.filter_cons_of_pos (by simpa [ha] using hv), hrec,
        show v - (base + 1) = 0 by omega, show v - base = 0 by omega]
      rfl
    · rw [List.filter_cons_of_neg (by simpa [ha] using hv), hrec,
        show v - base = (v - (base + 1)) + 1 by omega]
      rfl

/-- C23 (as stated, refuted): the core reached from
`create_core_for_genesis_block(0)` by `next` with the claims `(0, weak)` and
`(1, weak)` satisfies the nine invariants; `next(block 2, (2, strong))` meets the
preconditions and raises `final_on_strong_qc_block_num` to 1 while
`last_final_block_num()` stays 0, so no link is dropped: the returned core keeps
the link `(0, 0)`, whose source is below the new `final_on_strong_qc_block_num`. -/
theorem next_keeps_links_below_final_on_strong_qc :
    (next_chain (core.create_core_for_genesis_block 0) [⟨0, false⟩, ⟨1, false⟩]).invariants ∧
    (next_chain (core.create_core_for_genesis_block 0) [⟨0, false⟩, ⟨1, false⟩]).next_pre
      (block_at 2) ⟨2, true⟩ ∧
    ((next_chain (core.create_core_for_genesis_block 0) [⟨0, false⟩, ⟨1, false⟩]).next
      (block_at 2) ⟨2, true⟩).final_on_strong_qc_block_num = 1 ∧
    ((next_chain (core.create_core_for_genesis_block 0) [⟨0, false⟩, ⟨1, false⟩]).next
      (block_at 2) ⟨2, true⟩).links =
      [⟨0, 0, false⟩, ⟨1, 0, false⟩, ⟨2, 1, false⟩, ⟨3, 2, true⟩] ∧
    ((next_chain (core.create_core_for_genesis_block 0) [⟨0, false⟩, ⟨1, false⟩]).next
      (block_at 2) ⟨2, true⟩).links ≠
      (next_chain (core.create_core_for_genesis_block 0) [⟨0, false⟩, ⟨1, false⟩]).links.filter
        (fun l => decide (1 ≤ l.source_block_num)) ++ [⟨3, 2, true⟩] := by
  decide

theorem next_last_final_le_current (c : core) (b : block_ref) (q : qc_claim)
    (hinv : c.invariants) (hpre : c.next_pre b q) :
    (c.next b q).last_final_block_num ≤ c.current_block_num := by
  obtain ⟨_, _, _, _, _, _, h7, _, _⟩ := hinv
  obtain ⟨_, _, ⟨h3a, h3b⟩, _⟩ := hpre
  show ((c.links.drop (c.next_links_index q) ++ [_]).headD default).target_block_num ≤ _
  rcases headD_append_singleton_mem (c.links.drop (c.next_links_index q))
    ⟨block_num_succ c.current_block_num, q.block_num, q.is_strong_qc⟩ default with h | h
  · rw [h.1]
    exact h3b
  · have := target_le_getLastD_of_mem c.links h7 _ (List.mem_of_mem_drop h)
    unfold core.latest_qc_claim at h3a
    simp only at h3a
    omega

theorem next_refs_filter (c : core) (b : block_ref) (q : qc_claim) (hinv : c.invariants)
    (hpre : c.next_pre b q) :
    (c.next b q).refs =
      c.refs.filter (fun r => decide ((c.next b q).last_final_block_num ≤ r.block_num)) ++ [b]
    := by
  have hlo := next_last_final_ge_of_invariants c b q hinv hpre
  have hhi := next_last_final_le_current c b q hinv hpre
  have hle : c.last_final_block_num ≤ c.current_block_num := le_trans hlo hhi
  obtain ⟨_, _, _, h4, h5, h6, _, h8, _⟩ := hinv
  show c.refs.drop (block_num_sub (c.next b q).last_final_block_num c.last_final_block_num) ++
    [b] = _
  by_cases hne : c.refs = []
  · rw [hne]
    simp
  · obtain ⟨h4a, _⟩ := h4 hne
    obtain ⟨h5a, h5b⟩ := h5 hne
    unfold core.inv8 block_num_sub at h8
    unfold block_num_succ at h5a
    rw [h5b] at h5a
    have hcons : ∀ (i : Nat) (x : block_ref), c.refs[i]? = some x →
        x.block_num = c.last_final_block_num + i := by
      intro i x hx
      have hi := (List.getElem?_eq_some.mp hx).1
      rw [block_num_of_neighbours c.refs h6 i x hx, h4a]
      unfold core.last_final_block_num at hle h8 ⊢
      split_ifs <;> omega
    rw [filter_eq_drop_of_consecutive block_ref.block_num _ c.refs c.last_final_block_num hcons]
    unfold block_num_sub
    rw [show ((c.next b q).last_final_block_num + 4294967296 - c.last_final_block_num) %
        4294967296 = (c.next b q).last_final_block_num - c.last_final_block_num by omega]

/-- C23 (amended): for every core satisfying the nine invariants and all arguments
satisfying the preconditions of `next`, when `new_last_final_block_num` equals
`last_final_block_num()` the returned core's links are all the input links, in
order, followed by `(current_block_num() + 1, claim.block_num,
claim.is_strong_qc)`; and in every case its refs are exactly the input refs whose
`block_num` is at least the returned core's `last_final_block_num()`, in order,
followed by `current_block`. -/
theorem next_links_and_refs (c : core) (b : block_ref) (q : qc_claim) (hinv : c.invariants)
    (hpre : c.next_pre b q) :
    ((c.new_block_nums q).1 = c.last_final_block_num →
      (c.next b q).links = c.links ++
        [⟨block_num_succ c.current_block_num, q.block_num, q.is_strong_qc⟩]) ∧
    (c.next b q).refs =
      c.refs.filter (fun r => decide ((c.next b q).last_final_block_num ≤ r.block_num)) ++ [b]
    := by
  refine ⟨fun h => ?_, next_refs_filter c b q hinv hpre⟩
  rw [next_links]
  unfold core.next_links_index
  rw [h, if_neg (Nat.lt_irrefl _)]
  rfl

theorem next_links_and_refs_witness :
    ((next_chain (core.create_core_for_genesis_block 0) [⟨0, false⟩, ⟨1, false⟩]).next
      (block_at 2) ⟨2, true⟩).links =
      [⟨0, 0, false⟩, ⟨1, 0, false⟩, ⟨2, 1, false⟩] ++ [⟨3, 2, true⟩] ∧
    ((strong_chain 0 4).refs = [block_at 1, block_at 2, block_at 3] ∧
      ((strong_chain 0 4).next (block_at 4) ⟨4, true⟩).last_final_block_num = 3) ∧
    ((strong_chain 0 4).next (block_at 4) ⟨4, true⟩).refs =
      [block_at 3] ++ [block_at 4] :=
  ⟨(next_links_and_refs
      (next_chain (core.create_core_for_genesis_block 0) [⟨0, false⟩, ⟨1, false⟩])
      (block_at 2) ⟨2, true⟩ (by decide) (by decide)).1 (by decide),
    by decide,
    (next_links_and_refs (strong_chain 0 4) (block_at 4) ⟨4, true⟩ (by decide) (by decide)).2⟩

end finality
namespace ordered_diff

/-! ## Theorems about the shape of a diff result -/

theorem diff_invariant_keep {T : Type} (target : List T) (s t : Nat) (res : diff_result T)
    (h : diff_invariant target s t res) : diff_invariant target (s + 1) (t + 1) res := by
  obtain ⟨h1, h2, h3, h4, h5, h6⟩ := h
  refine ⟨h1, fun x hx => ?_, h3, fun p hp => ?_, ?_, ?_⟩
  · have := h2 x hx
    omega
  · obtain ⟨ha, hb⟩ := h4 p hp
    exact ⟨by omega, hb⟩
  · omega
  · omega

theorem diff_invariant_remove {T : Type} (target : List T) (s t : Nat) (res : diff_result T)
    (h : diff_invariant target s t res) :
    diff_invariant target (s + 1) t ⟨res.remove_indexes ++ [s], res.insert_indexes⟩ := by
  obtain ⟨h1, h2, h3, h4, h5, h6⟩ := h
  refine ⟨?_, fun x hx => ?_, h3, h4, ?_, ?_⟩
  · rw [List.pairwise_append]
    refine ⟨h1, List.pairwise_singleton _ _, fun a ha b hb => ?_⟩
    simp only [List.mem_singleton] at hb
    subst hb
    exact h2 a ha
  · simp only [List.mem_append, List.mem_singleton] at hx
    rcases hx with hx | hx
    · have := h2 x hx
      omega
    · omega
  · simp only [List.length_append, List.length_singleton]
    omega
  · simp only [List.length_append, List.length_singleton]
    omega

theorem diff_invariant_insert {T : Type} (target : List T) (s t : Nat) (b : T)
    (res : diff_result T) (ht : target[t]? = some b) (h : diff_invariant target s t res) :
    diff_invariant target s (t + 1) ⟨res.remove_indexes, res.insert_indexes ++ [(t, b)]⟩ := by
  obtain ⟨h1, h2, h3, h4, h5, h6⟩ := h
  refine ⟨h1, h2, ?_, fun p hp => ?_, h5, ?_⟩
  · simp only [List.map_append, List.map_cons, List.map_nil]
    rw [List.pairwise_append]
    refine ⟨h3, List.pairwise_singleton _ _, fun a ha c hc => ?_⟩
    simp only [List.mem_singleton] at hc
    subst hc
    obtain ⟨p, hp, rfl⟩ := List.mem_map.mp ha
    exact (h4 p hp).1
  · simp only [List.mem_append, List.mem_singleton] at hp
    rcases hp with hp | hp
    · obtain ⟨ha, hb⟩ := h4 p hp
      exact ⟨by omega, hb⟩
    · subst hp
      exact ⟨by simp, ht⟩
  · simp only [List.length_append, List.length_singleton]
    omega

theorem diff_invariant_both {T : Type} (target : List T) (s t : Nat) (b : T)
    (res : diff_result T) (ht : target[t]? = some b) (h : diff_invariant target s t res) :
    diff_invariant target (s + 1) (t + 1)
      ⟨res.remove_indexes ++ [s], res.insert_indexes ++ [(t, b)]⟩ :=
  diff_invariant_insert target (s + 1) t b ⟨res.remove_indexes ++ [s], res.insert_indexes⟩ ht
    (diff_invariant_remove target s t res h)

theorem diff_loop_invariant {T : Type} [DecidableEq T] (m zmax : Nat) (source target : List T) :
    ∀ (fuel s t : Nat) (res r : diff_result T),
      diff_loop m zmax source target fuel s t res = some r →
      s ≤ source.length → t ≤ target.length → diff_invariant target s t res →
      diff_invariant target source.length target.length r := by
  intro fuel
  induction fuel with
  | zero =>
    intro s t res r h hs ht hinv
    unfold diff_loop at h
    split_ifs at h with hc
    cases h
    have h1 : s = source.length := by omega
    have h2 : t = target.length := by omega
    subst h1 h2
    exact hinv
  | succ fuel ih =>
    intro s t res r h hs ht hinv
    unfold diff_loop at h
    cases hsrc : source[s]? with
    | none =>
      cases htgt : target[t]? with
      | none =>
        rw [hsrc, htgt] at h
        cases h
        have h1 : s = source.length := by
          have := List.getElem?_eq_none_iff.mp hsrc
          omega
        have h2 : t = target.length := by
          have := List.getElem?_eq_none_iff.mp htgt
          omega
        subst h1 h2
        exact hinv
      | some b =>
        rw [hsrc, htgt] at h
        have htl := lt_length_of_getElem? _ _ _ htgt
        dsimp only at h
        split_ifs at h
        exact ih s (t + 1) _ r h hs (by omega) (diff_invariant_insert target s t b res htgt hinv)
    | some a =>
      have hsl := lt_length_of_getElem? _ _ _ hsrc
      cases htgt : target[t]? with
      | none =>
        rw [hsrc, htgt] at h
        dsimp only at h
        split_ifs at h
        exact ih (s + 1) t _ r h (by omega) ht (diff_invariant_remove target s t res hinv)
      | some b =>
        have htl := lt_length_of_getElem? _ _ _ htgt
        rw [hsrc, htgt] at h
        dsimp only at h
        split_ifs at h
        all_goals first
          | exact ih (s + 1) (t + 1) _ r h (by omega) (by omega)
              (diff_invariant_keep target s t res hinv)
          | exact ih (s + 1) (t + 1) _ r h (by omega) (by omega)
              (diff_invariant_both target s t b res htgt hinv)
          | exact ih s (t + 1) _ r h hs (by omega)
              (diff_invariant_insert target s t b res htgt hinv)
          | exact ih (s + 1) t _ r h (by omega) ht (diff_invariant_remove target s t res hinv)

/-- C28: for every source and target for which `diff` returns a result,
`remove_indexes` is strictly increasing with every index below `source.size()`;
the indexes of `insert_indexes` are strictly increasing with every index below
`target.size()` and every pair `(i, v)` has `v == target[i]`; and
`target.size() == source.size() - remove_indexes.size() + insert_indexes.size()`. -/
theorem diff_result_shape {T : Type} [DecidableEq T] (m zmax : Nat) (source target : List T)
    (r : diff_result T) (h : diff m zmax source target = some r) :
    r.remove_indexes.Pairwise (fun a b => a < b) ∧
    (∀ x ∈ r.remove_indexes, x < source.length) ∧
    (r.insert_indexes.map Prod.fst).Pairwise (fun a b => a < b) ∧
    (∀ p ∈ r.insert_indexes, p.1 < target.length ∧ target[p.1]? = some p.2) ∧
    r.remove_indexes.length ≤ source.length ∧
    target.length = source.length - r.remove_indexes.length + r.insert_indexes.length := by
  obtain ⟨h1, h2, h3, h4, h5, h6⟩ := diff_loop_invariant m zmax source target _ 0 0 ⟨[], []⟩ r h
    (Nat.zero_le _) (Nat.zero_le _)
    ⟨List.Pairwise.nil, fun _ hx => (by cases hx), List.Pairwise.nil, fun _ hp => (by cases hp),
      Nat.le_refl _, rfl⟩
  exact ⟨h1, h2, h3, h4, h5, by omega⟩

theorem diff_result_shape_witness :
    diff 8 255 ['a', 'b', 'f', 'c', 'd'] ['b', 'f', 'c', 'd', 'e', 'h'] =
      some ⟨[0], [(4, 'e'), (5, 'h')]⟩ ∧
    ['b', 'f', 'c', 'd', 'e', 'h'].length =
      ['a', 'b', 'f', 'c', 'd'].length - [0].length + [(4, 'e'), (5, 'h')].length :=
  ⟨by decide,
    (diff_result_shape 8 255 ['a', 'b', 'f', 'c', 'd'] ['b', 'f', 'c', 'd', 'e', 'h']
      ⟨[0], [(4, 'e'), (5, 'h')]⟩ (by decide)).2.2.2.2.2⟩

end ordered_diff
namespace chain

/-! ## Theorems about `check_actor_list` -/

theorem mem_lower_bound (l : List Nat) (v : Nat) (hl : l.Pairwise (fun a b => a < b)) :
    ∀ x, x ∈ lower_bound l v ↔ x ∈ l ∧ v ≤ x := by
  unfold lower_bound
  induction l with
  | nil => intro x; simp
  | cons a t ih =>
    intro x
    have ht := (List.pairwise_cons.mp hl).2
    have hat := (List.pairwise_cons.mp hl).1
    by_cases hav : a < v
    · rw [List.dropWhile_cons_of_pos (by simpa using hav), ih ht x]
      constructor
      · rintro ⟨h1, h2⟩
        exact ⟨List.mem_cons_of_mem a h1, h2⟩
      · rintro ⟨h1, h2⟩
        rcases List.mem_cons.mp h1 with rfl | h1
        · omega
        · exact ⟨h1, h2⟩
    · rw [List.dropWhile_cons_of_neg (by simpa using hav)]
      constructor
      · intro h1
        refine ⟨h1, ?_⟩
        rcases List.mem_cons.mp h1 with rfl | h1
        · omega
        · have := hat x h1
          omega
      · exact fun h => h.1

theorem lower_bound_pairwise (l : List Nat) (v : Nat) (hl : l.Pairwise (fun a b => a < b)) :
    (lower_bound l v).Pairwise (fun a b => a < b) :=
  hl.sublist (List.dropWhile_sublist _)

theorem whitelist_loop_iff :
    ∀ (actors lower : List Nat), actors.Pairwise (fun a b => a < b) →
      lower.Pairwise (fun a b => a < b) →
      (whitelist_loop actors lower = true ↔ ∀ a ∈ actors, a ∈ lower) := by
  intro actors
  induction actors with
  | nil => intro lower _ _; simp [whitelist_loop]
  | cons actor rest ih =>
    intro lower ha hl
    have hrest := (List.pairwise_cons.mp ha).2
    have hlt := (List.pairwise_cons.mp ha).1
    have hmem := mem_lower_bound lower actor hl
    have hpw := lower_bound_pairwise lower actor hl
    unfold whitelist_loop
    cases hlb : lower_bound lower actor with
    | nil =>
      rw [hlb] at hmem
      simp only [Bool.false_eq_true, false_iff]
      intro hall
      have := (hmem actor).mpr ⟨hall actor (List.mem_cons_self _ _), Nat.le_refl _⟩
      cases this
    | cons found next =>
      rw [hlb] at hmem hpw
      have hfound := (hmem found).mp (List.mem_cons_self _ _)
      have hnext := (List.pairwise_cons.mp hpw).1
      dsimp only
      by_cases hfa : found = actor
      · subst hfa
        rw [if_neg (by simp), ih next hrest (List.pairwise_cons.mp hpw).2]
        constructor
        · intro hall a ha
          rcases List.mem_cons.mp ha with rfl | ha
          · exact hfound.1
          · exact ((hmem a).mp (List.mem_cons_of_mem _ (hall a ha))).1
        · intro hall a ha
          have h1 := (hmem a).mpr ⟨hall a (List.mem_cons_of_mem _ ha), Nat.le_of_lt (hlt a ha)⟩
          rcases List.mem_cons.mp h1 with h2 | h2
          · have := hlt a ha
            omega
          · exact h2
      · rw [if_pos hfa]
        simp only [Bool.false_eq_true, false_iff]
        intro hall
        have h1 := (hmem actor).mpr ⟨hall actor (List.mem_cons_self _ _), Nat.le_refl _⟩
        rcases List.mem_cons.mp h1 with h2 | h2
        · exact hfa h2.symm
        · have := hnext actor h2
          omega

theorem blacklist_loop_iff :
    ∀ (actors lower : List Nat), actors.Pairwise (fun a b => a < b) →
      lower.Pairwise (fun a b => a < b) →
      (blacklist_loop actors lower = true ↔ ∃ a ∈ actors, a ∈ lower) := by
  intro actors
  induction actors with
  | nil => intro lower _ _; simp [blacklist_loop]
  | cons actor rest ih =>
    intro lower ha hl
    have hrest := (List.pairwise_cons.mp ha).2
    have hlt := (List.pairwise_cons.mp ha).1
    have hmem := mem_lower_bound lower actor hl
    have hpw := lower_bound_pairwise lower actor hl
    unfold blacklist_loop
    cases hlb : lower_bound lower actor with
    | nil =>
      rw [hlb] at hmem
      simp only [Bool.false_eq_true, false_iff]
      rintro ⟨a, ha, hal⟩
      have hge : actor ≤ a := by
        rcases List.mem_cons.mp ha with rfl | ha
        · exact Nat.le_refl _
        · exact Nat.le_of_lt (hlt a ha)
      have := (hmem a).mpr ⟨hal, hge⟩
      cases this
    | cons found next =>
      rw [hlb] at hmem hpw
      have hfound := (hmem found).mp (List.mem_cons_self _ _)
      have hnext := (List.pairwise_cons.mp hpw).1
      dsimp only
      by_cases hfa : found = actor
      · subst hfa
        rw [if_pos rfl]
        simp only [true_iff]
        exact ⟨found, List.mem_cons_self _ _, hfound.1⟩
      · rw [if_neg hfa, ih (found :: next) hrest hpw]
        constructor
        · rintro ⟨a, ha, hal⟩
          exact ⟨a, List.mem_cons_of_mem _ ha, ((hmem a).mp hal).1⟩
        · rintro ⟨a, ha, hal⟩
          rcases List.mem_cons.mp ha with rfl | ha
          · have h1 := (hmem a).mpr ⟨hal, Nat.le_refl _⟩
            rcases List.mem_cons.mp h1 with h2 | h2
            · exact absurd h2.symm hfa
            · have := hnext a h2
              omega
          · exact ⟨a, ha, (hmem a).mpr ⟨hal, Nat.le_of_lt (hlt a ha)⟩⟩

theorem headD_le_of_mem (l : List Nat) (hl : l.Pairwise (fun a b => a < b)) (x : Nat)
    (hx : x ∈ l) : l.headD 0 ≤ x := by
  cases l with
  | nil => cases hx
  | cons a t =>
    rcases List.mem_cons.mp hx with rfl | hx
    · exact Nat.le_refl _
    · exact Nat.le_of_lt ((List.pairwise_cons.mp hl).1 x hx)

theorem le_getLastD_of_mem (l : List Nat) (hl : l.Pairwise (fun a b => a < b)) (x : Nat)
    (hx : x ∈ l) : x ≤ l.getLastD 0 := by
  induction l generalizing x with
  | nil => cases hx
  | cons a t ih =>
    cases t with
    | nil =>
      simp only [List.mem_singleton] at hx
      subst hx
      exact Nat.le_refl _
    | cons b t2 =>
      have hlast : (a :: b :: t2).getLastD 0 = (b :: t2).getLastD 0 := by
        simp [List.getLastD]
      rw [hlast]
      have hrec := ih (List.pairwise_cons.mp hl).2
      rcases List.mem_cons.mp hx with rfl | hx
      · have h1 := (List.pairwise_cons.mp hl).1 b (List.mem_cons_self _ _)
        have h2 := hrec b (List.mem_cons_self _ _)
        omega
      · exact hrec x hx

theorem headD_mem (l : List Nat) (h : l ≠ []) : l.headD 0 ∈ l := by
  cases l with
  | nil => exact absurd rfl h
  | cons a t => exact List.mem_cons_self _ _

theorem getLastD_mem (l : List Nat) (h : l ≠ []) : l.getLastD 0 ∈ l := by
  rw [List.getLastD_eq_getLast?]
  cases hl : l.getLast? with
  | none => exact absurd (List.getLast?_eq_none_iff.mp hl) h
  | some x => exact List.mem_of_mem_getLast? hl

/-- C25: for sorted sets `actors`, `actor_whitelist` and `actor_blacklist`,
`check_actor_list` agrees with the plain tests: with no actors it never throws;
otherwise with a non-empty whitelist it throws `actor_whitelist_exception`
exactly when the actors are not a subset of the whitelist (the blacklist is not
consulted); otherwise with a non-empty blacklist it throws
`actor_blacklist_exception` exactly when the actors and the blacklist intersect;
otherwise it does not throw. -/
theorem check_actor_list_eq_plain (actors actor_whitelist actor_blacklist : List Nat)
    (ha : actors.Pairwise (fun a b => a < b))
    (hw : actor_whitelist.Pairwise (fun a b => a < b))
    (hb : actor_blacklist.Pairwise (fun a b => a < b)) :
    check_actor_list actors actor_whitelist actor_blacklist =
      check_actor_list_plain actors actor_whitelist actor_blacklist := by
  unfold check_actor_list check_actor_list_plain
  by_cases hane : actors = []
  · rw [if_pos (show actors.length = 0 by simp [hane]), if_pos hane]
  · rw [if_neg (show ¬ actors.length = 0 by simpa using hane), if_neg hane]
    by_cases hwne : actor_whitelist = []
    · rw [if_neg (show ¬ actor_whitelist.length > 0 by simp [hwne]),
        if_neg (show ¬ actor_whitelist ≠ [] by simp [hwne])]
      by_cases hbne : actor_blacklist = []
      · rw [if_neg (show ¬ actor_blacklist.length > 0 by simp [hbne]),
          if_neg (show ¬ actor_blacklist ≠ [] by simp [hbne])]
      · rw [if_pos (show actor_blacklist.length > 0 from List.length_pos.mpr hbne), if_pos hbne]
        by_cases hext : actors.headD 0 ≤ actor_blacklist.getLastD 0 ∧
            actors.getLastD 0 ≥ actor_blacklist.headD 0
        · rw [if_pos hext]
          by_cases hint : ∃ a ∈ actors, a ∈ actor_blacklist
          · rw [if_pos ((blacklist_loop_iff actors actor_blacklist ha hb).mpr hint), if_pos hint]
          · rw [if_neg (fun h => hint ((blacklist_loop_iff actors actor_blacklist ha hb).mp h)),
              if_neg hint]
        · rw [if_neg hext, if_neg (show ¬ (false = true) by simp)]
          have hint : ¬ ∃ a ∈ actors, a ∈ actor_blacklist := by
            rintro ⟨a, ha1, ha2⟩
            apply hext
            have h1 := headD_le_of_mem actors ha a ha1
            have h2 := le_getLastD_of_mem actors ha a ha1
            have h3 := headD_le_of_mem actor_blacklist hb a ha2
            have h4 := le_getLastD_of_mem actor_blacklist hb a ha2
            constructor <;> omega
          rw [if_neg hint]
    · rw [if_pos (show actor_whitelist.length > 0 from List.length_pos.mpr hwne), if_pos hwne]
      by_cases hext : actors.headD 0 ≥ actor_whitelist.headD 0 ∧
          actors.getLastD 0 ≤ actor_whitelist.getLastD 0
      · rw [if_pos hext]
        by_cases hsub : ∀ a ∈ actors, a ∈ actor_whitelist
        · rw [if_pos ((whitelist_loop_iff actors actor_whitelist ha hw).mpr hsub), if_pos hsub]
        · rw [if_neg (fun h => hsub ((whitelist_loop_iff actors actor_whitelist ha hw).mp h)),
            if_neg hsub]
      · rw [if_neg hext, if_neg (show ¬ (false = true) by simp)]
        have hsub : ¬ ∀ a ∈ actors, a ∈ actor_whitelist := by
          intro hall
          apply hext
          have h1 := headD_le_of_mem actor_whitelist hw _ (hall _ (headD_mem actors hane))
          have h2 := le_getLastD_of_mem actor_whitelist hw _ (hall _ (getLastD_mem actors hane))
          exact ⟨h1, h2⟩
        rw [if_neg hsub]

theorem check_actor_list_eq_plain_witness :
    check_actor_list [3, 5] [1, 3, 4, 5, 9] [5] = none ∧
    check_actor_list [3, 6] [1, 3, 4, 5, 9] [] =
      some actor_list_exception.actor_whitelist_exception ∧
    check_actor_list [3, 6] [] [1, 6, 7] =
      some actor_list_exception.actor_blacklist_exception ∧
    check_actor_list [3, 6] [1, 3, 4, 5, 9] [] = check_actor_list_plain [3, 6] [1, 3, 4, 5, 9] [] :=
  ⟨by decide, by decide, by decide,
    check_actor_list_eq_plain [3, 6] [1, 3, 4, 5, 9] [] (by decide) (by decide) (by decide)⟩

end chain
namespace chain

/-! ## Theorems about `start_block` -/

theorem lookup_foldl_emplace (k : Nat) :
    ∀ (P : List Nat) (m : List (Nat × Bool)),
      (P.foldl (fun m feature_digest => flat_map_emplace m feature_digest false) m).lookup k =
        match m.lookup k with
        | some v => some v
        | none => if k ∈ P then some false else none := by
  intro P
  induction P with
  | nil =>
    intro m
    rw [List.foldl_nil]
    cases m.lookup k with
    | none => simp
    | some v => rfl
  | cons d P ih =>
    intro m
    rw [List.foldl_cons, ih]
    unfold flat_map_emplace
    cases hd : m.lookup d with
    | some v =>
      dsimp only
      cases hk : m.lookup k with
      | some w => rfl
      | none =>
        have hne : k ≠ d := by
          intro h
          rw [h, hd] at hk
          cases hk
        simp [hne]
    | none =>
      dsimp only
      rw [List.lookup_cons]
      by_cases hkd : k = d
      · subst hkd
        simp [hd]
      · have hb : (k == d) = false := by simpa using hkd
        rw [hb]
        dsimp only
        cases hk : m.lookup k with
        | some w => rfl
        | none => simp [hkd]

theorem lookup_preactivated_map (P : List Nat) (k : Nat) :
    (preactivated_map P).lookup k = if k ∈ P then some false else none := by
  unfold preactivated_map
  rw [lookup_foldl_emplace]
  rfl

theorem lookup_cons_true (m : List (Nat × Bool)) (x k : Nat) (v : Bool) :
    ((x, true) :: m).lookup k = some v → v = false → k ≠ x ∧ m.lookup k = some false := by
  intro h hv
  subst hv
  rw [List.lookup_cons] at h
  by_cases hkx : k = x
  · subst hkx
    simp at h
  · have hb : (k == x) = false := by simpa using hkx
    rw [hb] at h
    exact ⟨hkx, h⟩

theorem lookup_cons_of_ne (m : List (Nat × Bool)) (x k : Nat) (v : Bool) (h : k ≠ x) :
    ((x, v) :: m).lookup k = m.lookup k := by
  rw [List.lookup_cons]
  have hb : (k == x) = false := by simpa using h
  rw [hb]

theorem start_block_activations_bound (env : start_block_env) (block_num : Nat) :
    ∀ (L : List Nat) (M : List (Nat × Bool)) (count result : Nat) (F : List Nat),
      F.Nodup → (∀ k, M.lookup k = some false → k ∈ F) →
      start_block_activations env block_num L M count = Except.ok result →
      result ≤ count + F.length ∧
      (∀ d, d ∉ L → M.lookup d = some false → result < count + F.length) := by
  intro L
  induction L with
  | nil =>
    intro M count result F _ hF h
    unfold start_block_activations at h
    cases h
    refine ⟨Nat.le_add_right _ _, fun d _ hd => ?_⟩
    have := List.length_pos_of_mem (hF d hd)
    omega
  | cons x L ih =>
    intro M count result F hnd hF h
    unfold start_block_activations at h
    cases hg : env.get_protocol_feature x with
    | error e => rw [hg] at h; cases h
    | ok f =>
      rw [hg] at h
      dsimp only at h
      cases hl : M.lookup x with
      | none =>
        rw [hl] at h
        dsimp only at h
        split_ifs at h
        cases ha : start_block_activate env block_num f x with
        | some e => rw [ha] at h; cases h
        | none =>
          rw [ha] at h
          dsimp only at h
          have hF2 : ∀ k, ((x, true) :: M).lookup k = some false → k ∈ F :=
            fun k hk => hF k (lookup_cons_true M x k false hk rfl).2
          obtain ⟨h1, h2⟩ := ih _ _ _ F hnd hF2 h
          refine ⟨h1, fun d hd hdl => ?_⟩
          have hdx : d ≠ x := fun hc => hd (hc ▸ List.mem_cons_self _ _)
          exact h2 d (fun hc => hd (List.mem_cons_of_mem _ hc))
            (by rw [lookup_cons_of_ne M x d true hdx]; exact hdl)
      | some v =>
        rw [hl] at h
        cases v with
        | true => cases h
        | false =>
          dsimp only at h
          cases ha : start_block_activate env block_num f x with
          | some e => rw [ha] at h; cases h
          | none =>
            rw [ha] at h
            dsimp only at h
            have hxF : x ∈ F := hF x hl
            have hF2 : ∀ k, ((x, true) :: M).lookup k = some false → k ∈ F.erase x := by
              intro k hk
              obtain ⟨hkx, hkm⟩ := lookup_cons_true M x k false hk rfl
              exact (List.mem_erase_of_ne hkx).mpr (hF k hkm)
            obtain ⟨h1, h2⟩ := ih _ _ _ (F.erase x) (hnd.erase x) hF2 h
            have hlen : (F.erase x).length = F.length - 1 := List.length_erase_of_mem hxF
            have hpos := List.length_pos_of_mem hxF
            refine ⟨by omega, fun d hd hdl => ?_⟩
            have hdx : d ≠ x := fun hc => hd (hc ▸ List.mem_cons_self _ _)
            have := h2 d (fun hc => hd (List.mem_cons_of_mem _ hc))
              (by rw [lookup_cons_of_ne M x d true hdx]; exact hdl)
            omega

theorem start_block_activations_error (env : start_block_env) (block_num : Nat)
    (P : List Nat) :
    ∀ (L : List Nat) (M : List (Nat × Bool)) (count : Nat) (e : exception_type),
      (∀ x ∈ L, ∃ f, env.get_protocol_feature x = Except.ok f ∧
        (x ∉ P → f.preactivation_required = false) ∧
        start_block_activate env block_num f x = none) →
      (∀ k ∈ P, M.lookup k ≠ none) →
      start_block_activations env block_num L M count = Except.error e →
      e = exception_type.block_validate_exception := by
  intro L
  induction L with
  | nil =>
    intro M count e _ _ h
    unfold start_block_activations at h
    cases h
  | cons x L ih =>
    intro M count e hL hM h
    obtain ⟨f, hg, hreq, hact⟩ := hL x (List.mem_cons_self _ _)
    have hL2 : ∀ y ∈ L, ∃ f, env.get_protocol_feature y = Except.ok f ∧
        (y ∉ P → f.preactivation_required = false) ∧
        start_block_activate env block_num f y = none :=
      fun y hy => hL y (List.mem_cons_of_mem _ hy)
    have hM2 : ∀ k ∈ P, ((x, true) :: M).lookup k ≠ none := by
      intro k hk
      by_cases hkx : k = x
      · subst hkx
        simp
      · rw [lookup_cons_of_ne M x k true hkx]
        exact hM k hk
    unfold start_block_activations at h
    rw [hg] at h
    dsimp only at h
    cases hl : M.lookup x with
    | none =>
      rw [hl] at h
      dsimp only at h
      have hxP : x ∉ P := fun hc => hM x hc hl
      rw [if_neg (by simp [hreq hxP]), hact] at h
      exact ih _ _ _ hL2 hM2 h
    | some v =>
      rw [hl] at h
      cases v with
      | true =>
        dsimp only at h
        cases h
        rfl
      | false =>
        dsimp only at h
        rw [hact] at h
        exact ih _ _ _ hL2 hM2 h

theorem start_block_activations_covers (env : start_block_env) (P L : List Nat) (count : Nat)
    (h : start_block_activations env env.next_header.block_num L (preactivated_map P) 0 =
      Except.ok count)
    (d : Nat) (hd : d ∈ P) (hdL : d ∉ L) : count < P.length := by
  have hF : ∀ k, (preactivated_map P).lookup k = some false → k ∈ P.dedup := by
    intro k hk
    rw [lookup_preactivated_map] at hk
    split_ifs at hk with hkP
    exact List.mem_dedup.mpr hkP
  have hb := (start_block_activations_bound env env.next_header.block_num L
    (preactivated_map P) 0 count P.dedup (List.nodup_dedup P) hF h).2 d hdL
    (by rw [lookup_preactivated_map, if_pos hd])
  have hlen : P.dedup.length ≤ P.length := (List.dedup_sublist P).length_le
  omega

theorem start_block_protocol_features_ok (env : start_block_env) (pso pso1 : protocol_state_object)
    (L : List Nat) (h : start_block_protocol_features env pso L = Except.ok pso1) :
    pso1.preactivated_protocol_features = [] ∧
    (∀ d ∈ pso.preactivated_protocol_features, d ∈ L) ∧
    (∀ d ∈ pso.preactivated_protocol_features,
      (d, env.next_header.block_num) ∈ pso1.activated_protocol_features) := by
  unfold start_block_protocol_features at h
  by_cases hL : L.length > 0
  · rw [if_pos hL] at h
    cases hloop : start_block_activations env env.next_header.block_num L
        (preactivated_map pso.preactivated_protocol_features) 0 with
    | error e => rw [hloop] at h; cases h
    | ok count =>
      rw [hloop] at h
      dsimp only at h
      split_ifs at h with hc
      cases h
      have hall : ∀ d ∈ pso.preactivated_protocol_features, d ∈ L := by
        intro d hd
        by_contra hdL
        have := start_block_activations_covers env _ L count hloop d hd hdL
        have := List.length_pos_of_mem hd
        omega
      refine ⟨rfl, hall, fun d hd => ?_⟩
      exact List.mem_append_right _ (List.mem_map.mpr ⟨d, hall d hd, rfl⟩)
  · rw [if_neg hL] at h
    split_ifs at h with hP
    cases h
    have hnil : pso.preactivated_protocol_features = [] := List.length_eq_zero.mp hP
    refine ⟨hnil, fun d hd => ?_, fun d hd => ?_⟩ <;>
    · rw [hnil] at hd
      cases hd

theorem start_block_protocol_features_missing (env : start_block_env)
    (pso : protocol_state_object) (L : List Nat)
    (hmiss : ∃ d ∈ pso.preactivated_protocol_features, d ∉ L)
    (hL : ∀ x ∈ L, ∃ f, env.get_protocol_feature x = Except.ok f ∧
      (x ∉ pso.preactivated_protocol_features → f.preactivation_required = false) ∧
      start_block_activate env env.next_header.block_num f x = none) :
    start_block_protocol_features env pso L =
      Except.error exception_type.block_validate_exception := by
  cases hres : start_block_protocol_features env pso L with
  | ok pso1 =>
    obtain ⟨d, hd, hdL⟩ := hmiss
    exact absurd ((start_block_protocol_features_ok env pso pso1 L hres).2.1 d hd) hdL
  | error e =>
    unfold start_block_protocol_features at hres
    by_cases hlen : L.length > 0
    · rw [if_pos hlen] at hres
      cases hloop : start_block_activations env env.next_header.block_num L
          (preactivated_map pso.preactivated_protocol_features) 0 with
      | error e2 =>
        rw [hloop] at hres
        cases hres
        rw [start_block_activations_error env _ pso.preactivated_protocol_features L _ 0 e hL
          (fun k hk => by rw [lookup_preactivated_map, if_pos hk]; simp) hloop]
      | ok count =>
        rw [hloop] at hres
        dsimp only at hres
        split_ifs at hres
        cases hres
        rfl
    · rw [if_neg hlen] at hres
      split_ifs at hres
      cases hres
      rfl

/-- C24 (as stated, refuted): with the pre-activated digest 1 missing from
`new_protocol_feature_activations = {2}`, where feature 2 requires
pre-activation and has not been pre-activated, every lookup succeeds and
`start_block` for an incomplete block fails with `protocol_feature_exception`
(line 2168), not with `block_validate_exception`. -/
theorem start_block_missing_preactivation_other_exception :
    (1 : Nat) ∈ (⟨[1], []⟩ : protocol_state_object).preactivated_protocol_features ∧
    (1 : Nat) ∉ [2] ∧
    example_start_block_env.get_protocol_feature 2 = Except.ok ⟨true, none⟩ ∧
    (start_block example_start_block_env example_idle_controller ⟨[1], []⟩ [2]
      block_status.incomplete).2.2 = some exception_type.protocol_feature_exception :=
  ⟨by decide, by decide, rfl, by decide⟩

/-- C24 (amended): whenever `start_block` for a non-ephemeral block completes without
error, the pre-activated feature list of the protocol state is empty afterwards
and every digest that was pre-activated before the call is recorded in the
activated list with the pending block number; so `start_block` fails if some
pre-activated digest is missing from `new_protocol_feature_activations`, and it
fails with `block_validate_exception` when no earlier step throws another
exception: the `block_start` handlers, the database revision check, the feature
lookups, the activation handlers and `activate_feature` succeed and no activated
feature that was not pre-activated requires pre-activation. -/
theorem start_block_consumes_preactivated (env : start_block_env) (c : controller_impl)
    (pso : protocol_state_object) (L : List Nat) (s : block_status)
    (hs : s ≠ block_status.ephemeral) :
    ((start_block env c pso L s).2.2 = none →
      (start_block env c pso L s).2.1.preactivated_protocol_features = [] ∧
      ∀ d ∈ pso.preactivated_protocol_features,
        (d, env.next_header.block_num) ∈
          (start_block env c pso L s).2.1.activated_protocol_features) ∧
    ((∃ d ∈ pso.preactivated_protocol_features, d ∉ L) →
      (start_block env c pso L s).2.2 ≠ none ∧
      (emit env.block_start = none →
        (env.skip_db_sessions = true ∨ env.db_revision_ok = true) →
        (∀ x ∈ L, ∃ f, env.get_protocol_feature x = Except.ok f ∧
          (x ∉ pso.preactivated_protocol_features → f.preactivation_required = false) ∧
          start_block_activate env env.next_header.block_num f x = none) →
        (start_block env c pso L s).2.2 = some exception_type.block_validate_exception)) := by
  unfold start_block
  by_cases hp : c.pending.isSome = true
  · rw [if_pos hp]
    exact ⟨fun h => (by cases h), fun _ => ⟨(by simp), fun _ _ _ => rfl⟩⟩
  · rw [if_neg hp]
    cases hemit : emit env.block_start with
    | some e =>
      exact ⟨fun h => (by cases h), fun _ => ⟨(by simp), fun h => (by cases h)⟩⟩
    | none =>
      dsimp only
      by_cases hdb : env.skip_db_sessions = false ∧ env.db_revision_ok = false
      · rw [if_pos hdb]
        refine ⟨fun h => (by cases h), fun _ => ⟨(by simp), fun _ hor _ => ?_⟩⟩
        rcases hor with h | h
        · rw [hdb.1] at h
          cases h
        · rw [hdb.2] at h
          cases h
      · rw [if_neg hdb, if_neg hs]
        cases hres : start_block_protocol_features env pso L with
        | error e =>
          dsimp only
          refine ⟨fun h => (by cases h), fun hmiss => ⟨(by simp), fun _ _ hL => ?_⟩⟩
          rw [start_block_protocol_features_missing env pso L hmiss hL] at hres
          cases hres
          rfl
        | ok pso1 =>
          dsimp only
          obtain ⟨h1, h2, h3⟩ := start_block_protocol_features_ok env pso pso1 L hres
          constructor
          · intro hnone
            cases hrest : env.rest with
            | some e => rw [hrest] at hnone; cases hnone
            | none => exact ⟨h1, h3⟩
          · rintro ⟨d, hd, hdL⟩
            exact absurd (h2 d hd) hdL

theorem start_block_consumes_preactivated_witness :
    (start_block example_start_block_env example_idle_controller ⟨[1, 3], [(7, 2)]⟩ [3, 1]
      block_status.incomplete).2.2 = none ∧
    (start_block example_start_block_env example_idle_controller ⟨[1, 3], [(7, 2)]⟩ [3, 1]
      block_status.incomplete).2.1 = ⟨[], [(7, 2), (3, 4), (1, 4)]⟩ ∧
    (start_block example_start_block_env example_idle_controller ⟨[1, 3], [(7, 2)]⟩ [3]
      block_status.incomplete).2.2 = some exception_type.block_validate_exception :=
  ⟨by decide, by decide,
    ((start_block_consumes_preactivated example_start_block_env example_idle_controller
      ⟨[1, 3], [(7, 2)]⟩ [3] block_status.incomplete (by decide)).2
      ⟨1, by decide, by decide⟩).2 rfl (Or.inr rfl)
      (fun x hx => ⟨⟨decide (x = 2), none⟩, rfl,
        fun hx2 => (by
          simp only [List.mem_singleton] at hx
          subst hx
          exact absurd (by decide) hx2),
        rfl⟩)⟩

end chain
